import Mathlib

/-!
# Terrahub: dependency-aware scheduler and dependency validation

A shallow embedding of

* `src/helpers/distributors/distributor.js` (the scheduler with local and remote workers),
* `src/helpers/distributor.js` (the cluster based scheduler),
* `src/terraform-command.js` (dependency validation and cycle detection),
* `src/commands/run.js` (the `run` command),

followed by theorems about them.

JavaScript objects keyed by component fingerprints are lists of entries in key order
(fingerprints are md5 strings, so `Object.keys` lists them in insertion order).
Every event handler is taken to run to completion before the next notification is handled.
-/

namespace Terrahub

/-! ## JavaScript objects -/

/-- Component fingerprint (the md5 of the component's path). -/
abbrev Hash := String

/-- A JavaScript object with string keys: its entries in the order of `Object.keys`. -/
abbrev Obj (V : Type) := List (Hash × V)

/-- The keys of an object, `Object.keys(o)`. -/
def Obj.keys {V : Type} (o : Obj V) : List Hash := o.map Prod.fst

/-- Property read `o[k]`, `none` standing for `undefined`. -/
def Obj.get? {V : Type} : Obj V → Hash → Option V
  | [], _ => none
  | (k, v) :: rest, key => if k = key then some v else Obj.get? rest key

/-- Ownership test `o.hasOwnProperty(k)`. -/
def Obj.has {V : Type} (o : Obj V) (k : Hash) : Bool := (o.get? k).isSome

/-- Assignment `o[k] = v`: an existing key keeps its position, a new key goes last. -/
def Obj.set {V : Type} : Obj V → Hash → V → Obj V
  | [], key, v => [(key, v)]
  | (k, w) :: rest, key, v => if k = key then (k, v) :: rest else (k, w) :: Obj.set rest key v

/-- Removal `delete o[k]`. -/
def Obj.delete {V : Type} (o : Obj V) (k : Hash) : Obj V := o.filter (fun e => e.1 ≠ k)

/-- An object whose values are all `null`, as the list of its keys. -/
abbrev KeySet := List Hash

/-- Assignment `s[k] = null` on an object used as a set of keys. -/
def KeySet.add (s : KeySet) (k : Hash) : KeySet := if k ∈ s then s else s ++ [k]

/-- Removal `delete s[k]` on an object used as a set of keys. -/
def KeySet.remove (s : KeySet) (k : Hash) : KeySet := s.filter (fun x => x ≠ k)

/-- Copy `Object.assign(s, t)` between objects used as sets of keys. -/
def KeySet.assign (s t : KeySet) : KeySet := t.foldl KeySet.add s

/-- The errors the embedded code raises. -/
inductive JsError where
  /-- A `TypeError` of the runtime: a property of `undefined` was read or written. -/
  | typeError
  /-- The value of `new Error(message)`. -/
  | error (message : String)
  /-- The value of `new ListException(title, list, ListException.NUMBER)`. -/
  | numberedList (title : String) (list : List String)
  deriving DecidableEq, Repr

/-! ## Data model -/

/-- `Dictionary.DIRECTION` (the module is not part of the sources; its three members are
the ones the code names). -/
inductive Direction where
  | FORWARD
  | REVERSE
  | BIDIRECTIONAL
  deriving DecidableEq, Repr

/-- `Dictionary.COLOR` (the module is not part of the sources; its three members are the ones
the code names). -/
inductive Color where
  | WHITE
  | GRAY
  | BLACK
  deriving DecidableEq, Repr

/-- A component of the configuration object handed to the schedulers and the validators:
`dependsOn` is the object whose keys are the fingerprints of the dependencies, `distributor`
the backend tag when there is one. -/
structure Component where
  name : String
  dependsOn : KeySet
  distributor : Option String := none
  deriving DecidableEq, Repr

/-- The table of the scheduler: for every component still to dispatch, the fingerprints it
waits for. -/
abbrev DependencyTable := Obj KeySet

/-! ## Building the dependency table (the same code in both schedulers) -/

/-- The `FORWARD` branch of `buildDependencyTable` and `_buildDependencyTable`:
`keys.forEach(key => Object.assign(result[key], projectConfig[key].dependsOn))`. -/
def buildForward (cfg : Obj Component) :
    List Hash → DependencyTable → Except JsError DependencyTable
  | [], result => .ok result
  | key :: rest, result =>
    match result.get? key, cfg.get? key with
    | some waiting, some node => buildForward cfg rest (result.set key (waiting.assign node.dependsOn))
    | _, _ => .error JsError.typeError

/-- Inner loop of the `REVERSE` branch:
`Object.keys(projectConfig[key].dependsOn).forEach(hash => { result[hash][key] = null; })`. -/
def buildReverseInner (key : Hash) :
    List Hash → DependencyTable → Except JsError DependencyTable
  | [], result => .ok result
  | hash :: rest, result =>
    match result.get? hash with
    | some waiting => buildReverseInner key rest (result.set hash (waiting.add key))
    | none => .error JsError.typeError

/-- The `REVERSE` branch of `buildDependencyTable` and `_buildDependencyTable`. -/
def buildReverse (cfg : Obj Component) :
    List Hash → DependencyTable → Except JsError DependencyTable
  | [], result => .ok result
  | key :: rest, result =>
    match cfg.get? key with
    | some node =>
      match buildReverseInner key node.dependsOn result with
      | .ok result1 => buildReverse cfg rest result1
      | .error e => .error e
    | none => .error JsError.typeError

/-! ## `helpers/distributors/distributor.js` -/

namespace Distributors

/-- The adapter `getDistributor` returns. -/
inductive Adapter where
  | LocalDistributor
  | AwsDistributor
  deriving DecidableEq, Repr

/-- The `data` of a `message` notification (`response.data || response`). -/
structure Data where
  isError : Bool
  message : String
  hash : Hash
  id : Option Nat := none
  deriving DecidableEq, Repr

/-- How a request to the remote service ends: it fails, or it yields a falsy or truthy value. -/
inductive Fetch where
  | fails
  | falsy
  | truthy
  deriving DecidableEq, Repr

/-- What the remote services answer during one admission pass: the temporary credentials,
the account identifier, and whether every `AwsDistributor.distribute` promise of the pass
is fulfilled. -/
structure PassEnv where
  creds : Fetch := Fetch.truthy
  account : Fetch := Fetch.truthy
  remote : Bool := true
  deriving DecidableEq, Repr

/-- A notification on `_eventEmitter`. An `exit` notification comes with the answers of the
remote services to the admission pass it may start. -/
inductive Notification where
  | message (data : Data)
  | exit (code : Int) (worker : String) (env : PassEnv)
  deriving DecidableEq, Repr

/-- The mutable fields of `Distributor` together with the `results` array of `runActions`. -/
structure State where
  projectConfig : Obj Component
  threadsCount : Int
  dependencyTable : DependencyTable := []
  workCounter : Int := 0
  localWorkerCounter : Int := 0
  lambdaWorkerCounter : Int := 0
  errors : List String := []
  results : List Data := []
  tempCreds : Bool := false
  accountId : Bool := false
  deriving DecidableEq, Repr

/-- The call `resolve(results)` or `reject(this.errors)` of the promise of `runActions`. -/
inductive Settle where
  | resolve (results : List Data)
  | reject (errors : List String)
  deriving DecidableEq, Repr

/-- `Distributor.buildDependencyTable(direction)`; `none` is the default `null` direction. -/
def buildDependencyTable (cfg : Obj Component) (direction : Option Direction) :
    Except JsError DependencyTable :=
  let keys := cfg.keys
  let result : DependencyTable := keys.foldl (fun acc key => acc.set key []) []
  match direction with
  | some Direction.FORWARD => buildForward cfg keys result
  | some Direction.REVERSE => buildReverse cfg keys result
  | _ => .ok result

/-- `Distributor.removeDependencies(dependencyTable, hash)`. -/
def removeDependencies (table : DependencyTable) (hash : Hash) : DependencyTable :=
  table.map (fun e => (e.1, KeySet.remove e.2 hash))

/-- `Distributor._lazyLoadLambdaRequirements()`: the state it leaves and whether it returned
(`false`: it threw). -/
def _lazyLoadLambdaRequirements (s : State) (env : PassEnv) : State × Bool :=
  if !s.tempCreds && env.creds ≠ Fetch.truthy then (s, false)
  else
    let s1 := { s with tempCreds := true }
    if s1.accountId then (s1, true)
    else
      match env.account with
      | Fetch.fails => (s1, false)
      | Fetch.falsy => (s1, true)
      | Fetch.truthy => ({ s1 with accountId := true }, true)

/-- `Distributor.getDistributor(hash)`: the counters it leaves and the adapter it returns. -/
def getDistributor (s : State) (hash : Hash) : Except JsError (State × Adapter) :=
  match s.projectConfig.get? hash with
  | none => .error JsError.typeError
  | some config =>
    if config.distributor = some "local" then
      .ok ({ s with localWorkerCounter := s.localWorkerCounter + 1 }, Adapter.LocalDistributor)
    else if config.distributor = some "lambda" then
      .ok ({ s with lambdaWorkerCounter := s.lambdaWorkerCounter + 1 }, Adapter.AwsDistributor)
    else if config.distributor = some "fargate" then
      .ok (s, Adapter.AwsDistributor)
    else
      .ok (s, Adapter.LocalDistributor)

/-- The `for` loop of `distributeConfig` over the snapshot `hashes`: the state it leaves, the
components it dispatched with their adapters, in order, and whether it ran to its end
(`false`: it threw). -/
def distributeLoop : List Hash → State → List (Hash × Adapter) → State × List (Hash × Adapter) × Bool
  | [], s, done => (s, done, true)
  | hash :: rest, s, done =>
    if s.localWorkerCounter < s.threadsCount then
      match s.dependencyTable.get? hash with
      | none => (s, done, false)
      | some dependsOn =>
        if dependsOn.length = 0 then
          match getDistributor s hash with
          | .error _ => (s, done, false)
          | .ok (s1, adapter) =>
            distributeLoop rest
              { s1 with workCounter := s1.workCounter + 1,
                        dependencyTable := s1.dependencyTable.delete hash }
              (done ++ [(hash, adapter)])
        else distributeLoop rest s done
    else (s, done, true)

/-- `Distributor.distributeConfig()`: the state it leaves, the components it dispatched, and
whether its promise is fulfilled. -/
def distributeConfig (s : State) (env : PassEnv) : State × List (Hash × Adapter) × Bool :=
  match _lazyLoadLambdaRequirements s env with
  | (s1, false) => (s1, [], false)
  | (s1, true) =>
    match distributeLoop s1.dependencyTable.keys s1 [] with
    | (s2, done, false) => (s2, done, false)
    | (s2, done, true) =>
      (s2, done, env.remote || done.all (fun d => d.2 ≠ Adapter.AwsDistributor))

/-- What one handler did: the state it leaves, the components it dispatched, and its call of
`resolve` or `reject`, if any. -/
structure Step where
  state : State
  dispatched : List (Hash × Adapter) := []
  settle : Option Settle := none
  deriving DecidableEq, Repr

/-- The `message` handler of `runActions`. -/
def onMessage (s : State) (data : Data) : Step :=
  if data.isError then { state := { s with errors := s.errors ++ [data.message] } }
  else
    let results := if s.results.any (fun it => it.id = data.id) then s.results
                   else s.results ++ [data]
    { state := { s with results := results,
                        dependencyTable := removeDependencies s.dependencyTable data.hash } }

/-- The end of the `exit` handler: the two tests that settle the promise. -/
def settleTests (s : State) : Option Settle :=
  if s.dependencyTable.keys.length = 0 ∧ s.workCounter = 0 ∧ s.errors.length = 0 then
    some (Settle.resolve s.results)
  else if s.errors.length ≠ 0 ∧ s.workCounter = 0 then some (Settle.reject s.errors)
  else none

/-- The start of the `exit` handler: `this._workCounter--` and
`worker === 'lambda' ? this._lambdaWorkerCounter-- : this._localWorkerCounter--`. -/
def exitCounters (s : State) (worker : String) : State :=
  if worker = "lambda" then
    { s with workCounter := s.workCounter - 1, lambdaWorkerCounter := s.lambdaWorkerCounter - 1 }
  else
    { s with workCounter := s.workCounter - 1, localWorkerCounter := s.localWorkerCounter - 1 }

/-- The `exit` handler of `runActions`. -/
def onExit (s : State) (code : Int) (worker : String) (env : PassEnv) : Step :=
  let s2 := exitCounters s worker
  if code = 0 ∧ s2.errors.length = 0 then
    match distributeConfig s2 env with
    | (s3, done, false) => { state := s3, dispatched := done }
    | (s3, done, true) => { state := s3, dispatched := done, settle := settleTests s3 }
  else { state := s2, settle := settleTests s2 }

/-- One notification handled by the listeners `runActions` installs. -/
def handle (s : State) : Notification → Step
  | Notification.message data => onMessage s data
  | Notification.exit code worker env => onExit s code worker env

/-- The state after a sequence of notifications. -/
def exec (s : State) (trace : List Notification) : State :=
  trace.foldl (fun st n => (handle st n).state) s

/-- The part of `runActions` before the promise is created, on a fresh `Distributor`
(the fields as the constructor leaves them): the table is built and the first admission pass
runs, its failure being caught and logged. Returns the state the listeners start from and the
components dispatched by the first pass; fails when building the table throws. -/
def runActionsStart (cfg : Obj Component) (threadsCount : Int) (direction : Option Direction)
    (env : PassEnv) : Except JsError (State × List (Hash × Adapter)) :=
  match buildDependencyTable cfg direction with
  | .error e => .error e
  | .ok table =>
    let s : State := { projectConfig := cfg, threadsCount := threadsCount, dependencyTable := table }
    match distributeConfig s env with
    | (s1, done, _) => .ok (s1, done)

/-- The first call of `resolve` or `reject` along a sequence of notifications: the value the
promise of `runActions` is settled with. -/
def firstSettle (s : State) : List Notification → Option Settle
  | [] => none
  | n :: rest =>
    match (handle s n).settle with
    | some v => some v
    | none => firstSettle (handle s n).state rest

end Distributors

/-! ## `helpers/distributor.js` -/

namespace ClusterDistributor

/-- The `error` of a message of a failing worker: an `Error` with its message, or another
value with its `JSON.stringify` text. -/
inductive WorkerError where
  | ofError (message : String)
  | other (json : String)
  deriving DecidableEq, Repr

/-- The `data` of a `message` event of the cluster: `data.data` is the payload when it is
truthy, `data.error` the error of a failing worker. -/
structure Message where
  isError : Bool
  hash : Hash
  data : Option String := none
  error : WorkerError := WorkerError.other ""
  deriving DecidableEq, Repr

/-- An event of the cluster. At `exit` the worker has left `cluster.workers`. -/
inductive Notification where
  | message (data : Message)
  | exit (worker : Nat) (code : Int)
  deriving DecidableEq, Repr

/-- The mutable fields of `Distributor`, the `results` array of `runActions`, and the part of
`cluster` the code reads: the ids of `cluster.workers` and the id the next fork gets. -/
structure State where
  config : Obj Component
  threadsCount : Int
  dependencyTable : DependencyTable := []
  workersCount : Int := 0
  error : Option JsError := none
  results : List String := []
  workers : List Nat := []
  nextWorker : Nat := 1
  deriving DecidableEq, Repr

/-- The call `resolve(results)` or `reject(this._error)` of the promise of `runActions`. -/
inductive Settle where
  | resolve (results : List String)
  | reject (error : JsError)
  deriving DecidableEq, Repr

/-- `Distributor._buildDependencyTable(config, direction)`; `none` is the default `null`
direction. -/
def _buildDependencyTable (config : Obj Component) (direction : Option Direction) :
    Except JsError DependencyTable :=
  let keys := config.keys
  let result : DependencyTable := keys.foldl (fun acc key => acc.set key []) []
  match direction with
  | some Direction.FORWARD => buildForward config keys result
  | some Direction.REVERSE => buildReverse config keys result
  | _ => .ok result

/-- `Distributor._createWorker(hash)`. -/
def _createWorker (s : State) (hash : Hash) : State :=
  { s with workers := s.workers ++ [s.nextWorker],
           nextWorker := s.nextWorker + 1,
           dependencyTable := s.dependencyTable.delete hash,
           workersCount := s.workersCount + 1 }

/-- `Distributor._removeDependencies(hash)`. -/
def _removeDependencies (s : State) (hash : Hash) : State :=
  { s with dependencyTable := s.dependencyTable.map (fun e => (e.1, KeySet.remove e.2 hash)) }

/-- The `for` loop of `_distributeConfigs` over the snapshot `hashes`: the state it leaves,
the components it forked a worker for, in order, and whether it ran to its end
(`false`: it threw). -/
def distributeLoop : List Hash → State → List Hash → State × List Hash × Bool
  | [], s, done => (s, done, true)
  | hash :: rest, s, done =>
    if s.workersCount < s.threadsCount then
      match s.dependencyTable.get? hash with
      | none => (s, done, false)
      | some dependsOn =>
        if dependsOn.length = 0 then distributeLoop rest (_createWorker s hash) (done ++ [hash])
        else distributeLoop rest s done
    else (s, done, true)

/-- `Distributor._distributeConfigs()`. -/
def _distributeConfigs (s : State) : State × List Hash × Bool :=
  distributeLoop s.dependencyTable.keys s []

/-- `Distributor._handleError(err)`: every worker of the cluster is asked to die, the table
is emptied, and the error to reject with is returned. -/
def _handleError (s : State) (err : WorkerError) : State × JsError :=
  ({ s with dependencyTable := [] },
    match err with
    | WorkerError.ofError message => JsError.error message
    | WorkerError.other json => JsError.error ("Worker error: " ++ json))

/-- What one handler did: the state it leaves, the components it forked a worker for, and
its call of `resolve` or `reject`, if any. -/
structure Step where
  state : State
  dispatched : List Hash := []
  settle : Option Settle := none
  deriving DecidableEq, Repr

/-- The `message` listener of `runActions`. -/
def onMessage (s : State) (data : Message) : Step :=
  if data.isError then
    match _handleError s data.error with
    | (s1, e) => { state := { s1 with error := some e } }
  else
    let s1 := match data.data with
      | some payload => { s with results := s.results ++ [payload] }
      | none => s
    { state := _removeDependencies s1 data.hash }

/-- The `exit` listener of `runActions`. -/
def onExit (s : State) (worker : Nat) (code : Int) : Step :=
  let s0 := { s with workers := s.workers.filter (fun w => w ≠ worker) }
  let s1 := { s0 with workersCount := s0.workersCount - 1 }
  let pass : State × List Hash × Bool := if code = 0 then _distributeConfigs s1 else (s1, [], true)
  match pass with
  | (s2, done, false) => { state := s2, dispatched := done }
  | (s2, done, true) =>
    if s2.workers.length = 0 ∧ s2.dependencyTable.keys.length = 0 then
      match s2.error with
      | some e => { state := s2, dispatched := done, settle := some (Settle.reject e) }
      | none => { state := s2, dispatched := done, settle := some (Settle.resolve s2.results) }
    else { state := s2, dispatched := done }

/-- One event handled by the listeners `runActions` installs. -/
def handle (s : State) : Notification → Step
  | Notification.message data => onMessage s data
  | Notification.exit worker code => onExit s worker code

/-- The state after a sequence of events. -/
def exec (s : State) (trace : List Notification) : State :=
  trace.foldl (fun st n => (handle st n).state) s

/-- The synchronous part of `runActions` on a fresh `Distributor`: the table is built and the
first pass of `_distributeConfigs` runs. Returns the state the listeners start from and the
components the first pass forked a worker for; fails when building the table throws. -/
def runActionsStart (config : Obj Component) (threadsCount : Int) (direction : Option Direction) :
    Except JsError (State × List Hash) :=
  match _buildDependencyTable config direction with
  | .error e => .error e
  | .ok table =>
    let s : State := { config := config, threadsCount := threadsCount, dependencyTable := table }
    match _distributeConfigs s with
    | (s1, done, _) => .ok (s1, done)

end ClusterDistributor

/-! ## Ordering of dispatch and success -/

/-- A success notification for `d` is among `pre` (scheduler with local and remote workers). -/
def Distributors.SucceededIn (pre : List Distributors.Notification) (d : Hash) : Prop :=
  ∃ data, Distributors.Notification.message data ∈ pre ∧ data.isError = false ∧ data.hash = d

/-- A success message for `d` is among `pre` (cluster based scheduler). -/
def ClusterDistributor.SucceededIn (pre : List ClusterDistributor.Notification) (d : Hash) :
    Prop :=
  ∃ data, ClusterDistributor.Notification.message data ∈ pre ∧ data.isError = false ∧
    data.hash = d

/-- The components dispatched by a run respect the requirement `req h d` ("`h` waits for
`d`"): the first pass dispatches no component with a requirement, and a component dispatched
by the handler of the notification that follows `pre` has all its requirements among the
successes of `pre`. -/
def DispatchRespects {N : Type} (req : Hash → Hash → Prop) (succeededIn : List N → Hash → Prop)
    (first : List Hash) (dispatchedBy : List N → N → List Hash) : Prop :=
  (∀ h ∈ first, ∀ d, ¬ req h d) ∧
  ∀ pre n, ∀ h ∈ dispatchedBy pre n, ∀ d, req h d → succeededIn pre d

/-- The requirement of a `FORWARD` run: `h` declares `d` in its `dependsOn`. -/
def DependsOn (cfg : Obj Component) (h d : Hash) : Prop :=
  ∃ node, cfg.get? h = some node ∧ d ∈ node.dependsOn


/-- Every entry of `tbl` is an entry of the initial table `T0` from which only fingerprints
with a success in `pre` have been removed. -/
def TableInv {N : Type} (succeededIn : List N → Hash → Prop) (T0 : DependencyTable)
    (pre : List N) (tbl : DependencyTable) : Prop :=
  ∀ h deps, tbl.get? h = some deps →
    ∃ deps0, T0.get? h = some deps0 ∧ ∀ d ∈ deps0, d ∈ deps ∨ succeededIn pre d

/-- Every dependency declared by a component of the map is a component of the map. -/
def ClosedUnderDependsOn (cfg : Obj Component) : Prop :=
  ∀ h ∈ cfg.keys, ∀ node ∈ cfg.get? h, ∀ d ∈ node.dependsOn, d ∈ cfg.keys

instance (cfg : Obj Component) : Decidable (ClosedUnderDependsOn cfg) := by
  unfold ClosedUnderDependsOn
  infer_instance

/-- A run of the scheduler with local and remote workers starts, and its dispatches respect
the requirement `req`. -/
def Distributors.RunRespects (cfg : Obj Component) (threads : Int)
    (direction : Option Direction) (env : Distributors.PassEnv) (req : Hash → Hash → Prop) :
    Prop :=
  ∃ s0 first, Distributors.runActionsStart cfg threads direction env = .ok (s0, first) ∧
    DispatchRespects req Distributors.SucceededIn (first.map Prod.fst)
      (fun pre n =>
        (Distributors.handle (Distributors.exec s0 pre) n).dispatched.map Prod.fst)

/-- A run of the cluster based scheduler starts, and its dispatches respect the requirement
`req`. -/
def ClusterDistributor.RunRespects (config : Obj Component) (threads : Int)
    (direction : Option Direction) (req : Hash → Hash → Prop) : Prop :=
  ∃ s0 first, ClusterDistributor.runActionsStart config threads direction = .ok (s0, first) ∧
    DispatchRespects req ClusterDistributor.SucceededIn first
      (fun pre n => (ClusterDistributor.handle (ClusterDistributor.exec s0 pre) n).dispatched)

/-! ## `terraform-command.js`: cycle detection -/

/-- The variables of the search shared by the calls of `_depthFirstSearch`: the `color`
object and the `path` array. `entered` is not a variable of the code: it records, in order,
the component of every call of `_depthFirstSearch`. -/
structure Search where
  color : Obj Color
  path : List Hash
  entered : List Hash := []
  deriving DecidableEq, Repr

/-- The `for (const key in dependsOn)` loop of `_depthFirstSearch`, `search` being the
recursive call. The result is `true` when the loop returned `true`, `false` when it ran to
its end; `none` when a call did not return. -/
def dependsOnLoop (search : Hash → Search → Option (Bool × Search)) :
    List Hash → Search → Option (Bool × Search)
  | [], st => some (false, st)
  | key :: rest, st =>
    let inner : Option (Bool × Search) :=
      if st.color.get? key = some Color.WHITE then search key st else some (false, st)
    match inner with
    | none => none
    | some (true, st1) => some (true, st1)
    | some (false, st1) =>
      if st1.color.get? key = some Color.GRAY then
        some (true, { st1 with path := st1.path ++ [key] })
      else dependsOnLoop search rest st1

/-- `TerraformCommand._depthFirstSearch(hash, path, config, color)` with a bound on the depth
of the recursion: the value returned and the variables as the call leaves them; `none` when
the bound is reached or `config[hash]` is `undefined`. -/
def _depthFirstSearch (config : Obj Component) : Nat → Hash → Search → Option (Bool × Search)
  | 0, _, _ => none
  | fuel + 1, hash, st =>
    match config.get? hash with
    | none => none
    | some node =>
      let st1 : Search :=
        { color := st.color.set hash Color.GRAY, path := st.path ++ [hash],
          entered := st.entered ++ [hash] }
      match dependsOnLoop (_depthFirstSearch config fuel) node.dependsOn st1 with
      | none => none
      | some (true, st2) => some (true, st2)
      | some (false, st2) =>
        some (false, { st2 with color := st2.color.set hash Color.BLACK,
                                path := st2.path.dropLast })

/-- The loop `keys.every(key => color[key] === BLACK || !this._depthFirstSearch(...))` of
`_getDependencyCycle`: the variables when it stops. -/
def everyKey (config : Obj Component) (fuel : Nat) : List Hash → Search → Option Search
  | [], st => some st
  | key :: rest, st =>
    if st.color.get? key = some Color.BLACK then everyKey config fuel rest st
    else
      match _depthFirstSearch config fuel key st with
      | none => none
      | some (true, st1) => some st1
      | some (false, st1) => everyKey config fuel rest st1

/-- The search of `_getDependencyCycle`: every key is coloured white, then the loop over the
keys runs. The recursion is bounded by the number of components plus one. -/
def dependencySearch (config : Obj Component) : Option Search :=
  let keys := config.keys
  let color : Obj Color := keys.foldl (fun acc key => acc.set key Color.WHITE) []
  everyKey config (keys.length + 1) keys { color := color, path := [] }

/-- The array `path.map(key => config[key].name)`; `none` when `config[key]` is `undefined`
for a key of the path. -/
def pathNames (config : Obj Component) : List Hash → Option (List String)
  | [] => some []
  | key :: rest =>
    match config.get? key, pathNames config rest with
    | some node, some names => some (node.name :: names)
    | _, _ => none

/-- The end of `_getDependencyCycle`: the names of the components of `path` after the first
occurrence of its last element. -/
def cycleNames (config : Obj Component) (path : List Hash) : Option (List String) :=
  if path.length ≠ 0 then
    let index := path.findIdx (fun it => some it = path.getLast?)
    (pathNames config path).map (fun names => names.drop (index + 1))
  else some []

/-- `TerraformCommand._getDependencyCycle(config)`; `none` when the call does not return. -/
def _getDependencyCycle (config : Obj Component) : Option (List String) :=
  match dependencySearch config with
  | none => none
  | some st => cycleNames config st.path

/-- The relation the search follows: `a` declares `b` in its `dependsOn` and `b` is a
component of the map. -/
def Edge (config : Obj Component) (a b : Hash) : Prop :=
  DependsOn config a b ∧ b ∈ config.keys

/-- The `dependsOn` relation restricted to the components of the map contains a cycle. -/
def HasCycle (config : Obj Component) : Prop :=
  ∃ a, Relation.TransGen (Edge config) a a

/-- The number of white entries of the `color` object. -/
def whiteCount (color : Obj Color) : Nat :=
  (color.filter (fun e => e.2 = Color.WHITE)).length

/-- Invariant of the search while no cycle has been found: the coloured keys are the
components, the gray components are those of the path, the path follows the relation and
has no repetition, and no cycle goes through a black component. -/
structure SearchInv (config : Obj Component) (st : Search) : Prop where
  keys : ∀ k, (st.color.get? k).isSome ↔ k ∈ config.keys
  gray : ∀ k, st.color.get? k = some Color.GRAY ↔ k ∈ st.path
  chain : List.Chain' (Edge config) st.path
  nodup : st.path.Nodup
  black : ∀ k, st.color.get? k = some Color.BLACK → ¬ Relation.TransGen (Edge config) k k

/-- No component has been entered twice, and an entered component is not white. -/
def EnteredInv (st : Search) : Prop :=
  st.entered.Nodup ∧ ∀ k ∈ st.entered, st.color.get? k ≠ some Color.WHITE

/-- The colours only advance from `st` to `st1`. -/
structure ColorMono (st st1 : Search) : Prop where
  white : ∀ k, st1.color.get? k = some Color.WHITE → st.color.get? k = some Color.WHITE
  black : ∀ k, st.color.get? k = some Color.BLACK → st1.color.get? k = some Color.BLACK
  count : whiteCount st1.color ≤ whiteCount st.color

/-- The path when the search stops on a cycle: a path without repetition along the
relation, followed by one of its components. -/
def FoundCycle (config : Obj Component) (st : Search) : Prop :=
  ∃ p k, st.path = p ++ [k] ∧ k ∈ p ∧ p.Nodup ∧ List.Chain' (Edge config) (p ++ [k]) ∧
    ∀ x ∈ p, x ∈ config.keys

/-- What a call of `_depthFirstSearch` on a white component does, for the depth bound
`fuel`. -/
def DfsSpec (config : Obj Component) (fuel : Nat) : Prop :=
  ∀ h st, SearchInv config st → EnteredInv st → st.color.get? h = some Color.WHITE →
    whiteCount st.color ≤ fuel → (∀ l, st.path.getLast? = some l → Edge config l h) →
    ∃ b st1, _depthFirstSearch config fuel h st = some (b, st1) ∧ EnteredInv st1 ∧
      (b = false → SearchInv config st1 ∧ st1.path = st.path ∧ ColorMono st st1 ∧
        st1.color.get? h = some Color.BLACK) ∧
      (b = true → FoundCycle config st1)

/-! ## `terraform-command.js`: dependency validation -/

/-- A component of the extended configuration (`getExtendedConfig()`), the full project
component set: `dependsOn` is the array of the paths of the dependencies, `distributor` the
backend tag when there is one. -/
structure ExtComponent where
  name : String
  dependsOn : List String
  distributor : Option String := none
  deriving DecidableEq, Repr

/-- The title of the list exceptions of `TerraformCommand`. -/
def issuesTitle : String := "TerraHub failed because of the following issues:"

/-- The message of `getDependencyIssues` for the component named `node` and the excluded
dependency named `name`. -/
def dependencyIssue (node name : String) : String :=
  "'" ++ node ++ "' component depends on '" ++ name ++ "' that is excluded from execution list"

/-- The loop `issueDependencies.forEach(it => { ... issues.push(...) })` of
`getDependencyIssues`. -/
def pushDependencyIssues (fullConfig : Obj ExtComponent) (node : Component) :
    List Hash → List String → Except JsError (List String)
  | [], issues => .ok issues
  | it :: rest, issues =>
    match fullConfig.get? it with
    | none => .error JsError.typeError
    | some full =>
      pushDependencyIssues fullConfig node rest (issues ++ [dependencyIssue node.name full.name])

/-- The loop `Object.keys(config).forEach(hash => { ... })` of `getDependencyIssues`. -/
def dependencyIssuesLoop (fullConfig : Obj ExtComponent) (config : Obj Component) :
    List Hash → List String → Except JsError (List String)
  | [], issues => .ok issues
  | hash :: rest, issues =>
    match config.get? hash with
    | none => .error JsError.typeError
    | some node =>
      let issueDependencies := node.dependsOn.filter (fun it => !config.has it)
      match pushDependencyIssues fullConfig node issueDependencies issues with
      | .error e => .error e
      | .ok issues1 => dependencyIssuesLoop fullConfig config rest issues1

/-- `TerraformCommand.getDependencyIssues(config)`, `fullConfig` being the value of
`getExtendedConfig()`. -/
def getDependencyIssues (fullConfig : Obj ExtComponent) (config : Obj Component) :
    Except JsError (List String) :=
  dependencyIssuesLoop fullConfig config config.keys []

/-- The array `dependsOn.filter(it => config.hasOwnProperty(it)).map(it => ...)` of
`getReverseDependencyIssues`, before it is joined. -/
def issueNodeNames (fullConfig : Obj ExtComponent) :
    List Hash → Except JsError (List String)
  | [] => .ok []
  | it :: rest =>
    match fullConfig.get? it, issueNodeNames fullConfig rest with
    | some full, .ok names => .ok (("'" ++ full.name ++ "'") :: names)
    | none, _ => .error JsError.typeError
    | _, .error e => .error e

/-- The message of `getReverseDependencyIssues` for the excluded component named `name` and
the joined names `issueNodes` of its dependencies that are executed. -/
def reverseDependencyIssue (name issueNodes : String) : String :=
  "'" ++ name ++ "' component that depends on " ++ issueNodes ++ " component" ++
    (if issueNodes.length > 1 then "s" else "") ++ " is excluded from the execution list"

/-- The loop `keys.forEach(hash => { ... })` of `getReverseDependencyIssues`; `toMd5` is
`Util.toMd5`. -/
def reverseIssuesLoop (toMd5 : String → Hash) (fullConfig : Obj ExtComponent)
    (config : Obj Component) : List Hash → List String → Except JsError (List String)
  | [], issues => .ok issues
  | hash :: rest, issues =>
    match fullConfig.get? hash with
    | none => .error JsError.typeError
    | some depNode =>
      let dependsOn := depNode.dependsOn.map toMd5
      match issueNodeNames fullConfig (dependsOn.filter (fun it => config.has it)) with
      | .error e => .error e
      | .ok names =>
        let issueNodes := ", ".intercalate names
        if issueNodes.length ≠ 0 then
          reverseIssuesLoop toMd5 fullConfig config rest
            (issues ++ [reverseDependencyIssue depNode.name issueNodes])
        else reverseIssuesLoop toMd5 fullConfig config rest issues

/-- `TerraformCommand.getReverseDependencyIssues(config)`. -/
def getReverseDependencyIssues (toMd5 : String → Hash) (fullConfig : Obj ExtComponent)
    (config : Obj Component) : Except JsError (List String) :=
  reverseIssuesLoop toMd5 fullConfig config
    (fullConfig.keys.filter (fun key => !config.has key)) []

/-- `TerraformCommand._checkDependencyCycle(config)`: it throws when the cycle is not empty.
A search that does not return is reported as a `TypeError`. -/
def _checkDependencyCycle (config : Obj Component) : Except JsError Unit :=
  match _getDependencyCycle config with
  | none => .error JsError.typeError
  | some cycle =>
    if cycle.length ≠ 0 then
      .error (JsError.error
        ("There is a dependency cycle between the following components: " ++
          ", ".intercalate cycle))
    else .ok ()

/-- The issues `checkDependencies` collects for a direction. -/
def collectIssues (toMd5 : String → Hash) (fullConfig : Obj ExtComponent)
    (config : Obj Component) : Direction → Except JsError (List String)
  | Direction.FORWARD => getDependencyIssues fullConfig config
  | Direction.REVERSE => getReverseDependencyIssues toMd5 fullConfig config
  | Direction.BIDIRECTIONAL =>
    match getDependencyIssues fullConfig config with
    | .error e => .error e
    | .ok forward =>
      match getReverseDependencyIssues toMd5 fullConfig config with
      | .error e => .error e
      | .ok reverse => .ok (forward ++ reverse)

/-- `TerraformCommand.checkDependencies(config, direction)`. -/
def checkDependencies (toMd5 : String → Hash) (fullConfig : Obj ExtComponent)
    (config : Obj Component) (direction : Direction) : Except JsError Unit :=
  match collectIssues toMd5 fullConfig config direction with
  | .error e => .error e
  | .ok issues =>
    if issues.length ≠ 0 then .error (JsError.numberedList issuesTitle issues)
    else _checkDependencyCycle config

/-! ## `commands/run.js` -/

namespace RunCommand

/-- The options of the `run` command the code reads. -/
structure Options where
  apply : Bool := false
  destroy : Bool := false
  build : Bool := false
  dryRun : Bool := false
  autoApprove : Bool := false
  deriving DecidableEq, Repr

/-- One step of the value `_runLocal` resolves with. -/
structure RunStep where
  actions : List String
  config : Obj Component
  dependencyDirection : Direction
  planDestroy : Bool := false
  deriving DecidableEq, Repr

/-- The value `run` resolves with: the string `Done` of a dry run, or the run plan. -/
inductive Result where
  | done
  | plan (steps : List RunStep)
  deriving DecidableEq, Repr

/-- `RunCommand._runLocal(config)`. -/
def _runLocal (o : Options) (config : Obj Component) : List RunStep :=
  let actions0 := ["prepare", "init", "workspaceSelect"]
  let actions :=
    if !o.apply && !o.destroy then
      (if o.build then actions0 ++ ["build"] else actions0) ++ ["plan"]
    else actions0
  let defaultRun : List RunStep :=
    [{ actions := actions, config := config, dependencyDirection := Direction.FORWARD }]
  let applyRun : Option (List RunStep) :=
    if !o.apply then none
    else some [{ actions := actions ++ (if o.build then ["build", "plan", "apply"]
                                        else ["plan", "apply"]),
                 config := config, dependencyDirection := Direction.FORWARD }]
  let destroyRun : Option (List RunStep) :=
    if !o.destroy then none
    else some [{ actions := actions ++ ["plan", "destroy"], config := config,
                 dependencyDirection := Direction.REVERSE, planDestroy := true }]
  match destroyRun, applyRun with
  | some r, _ => r
  | none, some r => r
  | none, none => defaultRun

/-- The `switch (+this._isApply + +this._isDestroy * 2)` of `_checkDependencies`: the
direction it selects, `none` for the case that returns at once. -/
def selectedDirection (o : Options) : Option Direction :=
  match o.apply, o.destroy with
  | false, false => none
  | true, false => some Direction.FORWARD
  | false, true => some Direction.REVERSE
  | true, true => some Direction.BIDIRECTIONAL

/-- `RunCommand._checkDependencies(config)`. -/
def _checkDependencies (toMd5 : String → Hash) (fullConfig : Obj ExtComponent) (o : Options)
    (config : Obj Component) : Except JsError Unit :=
  match selectedDirection o with
  | none => .ok ()
  | some direction => checkDependencies toMd5 fullConfig config direction

/-- `RunCommand._getPromise(config)`: `answer` is what the user answers when asked. -/
def _getPromise (o : Options) (answer : Bool) : Bool :=
  if o.apply || o.destroy then (if o.autoApprove then true else answer) else true

/-- `RunCommand.run()`, `config` being the value of `getFilteredConfig()`. -/
def run (toMd5 : String → Hash) (fullConfig : Obj ExtComponent) (o : Options) (answer : Bool)
    (config : Obj Component) : Except JsError Result :=
  match _checkDependencies toMd5 fullConfig o config with
  | .error e => .error e
  | .ok _ =>
    if o.dryRun then .ok Result.done
    else if !_getPromise o answer then .error (JsError.error "Action aborted")
    else .ok (Result.plan (_runLocal o config))

end RunCommand

/-- The messages of the error notifications of a sequence, in order of arrival. -/
def Distributors.errorMessages : List Distributors.Notification → List String
  | [] => []
  | Distributors.Notification.message data :: rest =>
    if data.isError then data.message :: Distributors.errorMessages rest
    else Distributors.errorMessages rest
  | Distributors.Notification.exit _ _ _ :: rest => Distributors.errorMessages rest

/-- What an admission pass leaves untouched. -/
structure Distributors.SameRecords (s s1 : Distributors.State) : Prop where
  errors : s1.errors = s.errors
  results : s1.results = s.results
  projectConfig : s1.projectConfig = s.projectConfig
  threadsCount : s1.threadsCount = s.threadsCount

/-- The display name of the component `d` of the full component set (the empty string when
there is no such component). -/
def displayName (fullConfig : Obj ExtComponent) (d : Hash) : String :=
  match fullConfig.get? d with
  | some full => full.name
  | none => ""

/-- The pairs the specification of `getDependencyIssues` speaks of, for the components
`hashes` of the subset in that order: the name of a component `C` of the subset with a
fingerprint `D` of its `dependsOn` that is not in the subset, in declaration order. -/
def excludedDependencies (config : Obj Component) : List Hash → List (String × Hash)
  | [] => []
  | hash :: rest =>
    (match config.get? hash with
      | some node =>
        (node.dependsOn.filter (fun d => d ∉ config.keys)).map (fun d => (node.name, d))
      | none => []) ++ excludedDependencies config rest

/-- The issue list the specification of `getDependencyIssues` describes: one message for
each excluded dependency, naming the component and the display name of the dependency. -/
def expectedDependencyIssues (fullConfig : Obj ExtComponent) (config : Obj Component) :
    List String :=
  (excludedDependencies config config.keys).map
    (fun p => dependencyIssue p.1 (displayName fullConfig p.2))

/-- Every dependency declared by a component of the subset is a component of the full
set. -/
def DependenciesExist (fullConfig : Obj ExtComponent) (config : Obj Component) : Prop :=
  ∀ h ∈ config.keys, ∀ node ∈ config.get? h, ∀ d ∈ node.dependsOn, d ∈ fullConfig.keys

instance (fullConfig : Obj ExtComponent) (config : Obj Component) :
    Decidable (DependenciesExist fullConfig config) := by
  unfold DependenciesExist
  infer_instance

/-- The message of the error `_checkDependencyCycle` throws for the cycle `cycle`. -/
def cycleError (cycle : List String) : JsError :=
  JsError.error
    ("There is a dependency cycle between the following components: " ++
      ", ".intercalate cycle)

/-- What `checkDependencies` does once the issues of its direction are `issues`: with a
non-empty list it fails with the numbered list exception carrying exactly that list; with an
empty list it fails with the cycle error when the subset has a cycle and succeeds
otherwise. -/
def CheckOutcome (config : Obj Component) (issues : List String)
    (result : Except JsError Unit) : Prop :=
  (issues ≠ [] → result = .error (JsError.numberedList issuesTitle issues)) ∧
  (issues = [] →
    (HasCycle config → ∃ cycle, _getDependencyCycle config = some cycle ∧ cycle ≠ [] ∧
      result = .error (cycleError cycle)) ∧
    (¬ HasCycle config → result = .ok ()))

/-- The dependencies of the component `hash` of the full set that lie inside the subset, in
declared order. -/
def insideDependencies (toMd5 : String → Hash) (fullConfig : Obj ExtComponent)
    (config : Obj Component) (hash : Hash) : List Hash :=
  match fullConfig.get? hash with
  | some depNode => (depNode.dependsOn.map toMd5).filter (fun d => d ∈ config.keys)
  | none => []

/-- The issue list the specification of `getReverseDependencyIssues` describes: one message
for each component of the full set, in key order, that lies outside the subset and has a
dependency inside it, naming the component and its dependencies inside the subset. -/
def expectedReverseIssues (toMd5 : String → Hash) (fullConfig : Obj ExtComponent)
    (config : Obj Component) : List String :=
  (fullConfig.keys.filter
      (fun hash => hash ∉ config.keys ∧ insideDependencies toMd5 fullConfig config hash ≠ [])).map
    (fun hash =>
      "'" ++ displayName fullConfig hash ++ "' component that depends on " ++
        ", ".intercalate
          ((insideDependencies toMd5 fullConfig config hash).map
            (fun d => "'" ++ displayName fullConfig d ++ "'")) ++
        " components is excluded from the execution list")

/-- The total number of edges of a dependency table: the sum of the sizes of its
waiting-sets. -/
def edgeCount (table : DependencyTable) : Nat :=
  (table.map (fun e => e.2.length)).sum

/-- The edges of a dependency table, as pairs of a key and a member of its waiting-set. -/
def tablePairs : DependencyTable → List (Hash × Hash)
  | [] => []
  | (k, w) :: rest => w.map (fun d => (k, d)) ++ tablePairs rest

/-- The table `t1` is what remains of the table `t`: its keys are keys of `t`, each of its
waiting-sets is a subset of the waiting-set the key had in `t`, and it has no more edges. -/
structure TableShrinks (t t1 : DependencyTable) : Prop where
  keys : ∀ h ∈ t1.keys, h ∈ t.keys
  sets : ∀ h w1, t1.get? h = some w1 → ∃ w, t.get? h = some w ∧ ∀ d ∈ w1, d ∈ w
  count : edgeCount t1 ≤ edgeCount t

namespace Distributors

/-- The `data` of a parsed message of the remote channel: the truth value of `isError`, the
`hash` when there is one, and the `message`. -/
structure RemoteData where
  isError : Bool
  hash : Option Hash
  message : String
  deriving DecidableEq, Repr

/-- A message of the remote channel as `JSON.parse` returns it: its `action` tag and its
`data`, when there is one. -/
structure RemoteMessage where
  action : String
  data : Option RemoteData
  deriving DecidableEq, Repr

/-- What the handler of the remote channel emits on `_eventEmitter`. -/
inductive Emitted where
  | message (worker : String) (data : Data)
  | exit (worker : String) (code : Int)
  deriving DecidableEq, Repr

/-- The texts `String(e)` of the two `TypeError`s the handler of the remote channel can
raise, as the runtime words them: `noData` for destructuring the `data` of a message that has
none, `noComponent` for reading `name` of `this.projectConfig[hash]` when it is `undefined`. -/
structure TypeErrorTexts where
  noData : String
  noComponent : String
  deriving DecidableEq, Repr

/-- The handler `_lambdaSubscribe` installs on the remote channel, applied to a parsed
message: the notifications it emits, in order, or the error it throws. Both branches read
`this.projectConfig[hash].name` before they emit; the `TypeError` of a failed read is caught
by `catch (e) { throw new Error(e); }`, so what is thrown is an `Error` whose message is the
text of the `TypeError`. A `data` without `hash` reads `this.projectConfig[undefined]`, which
is `undefined`: a fingerprint is never the text `undefined`. -/
def onRemoteMessage (texts : TypeErrorTexts) (projectConfig : Obj Component)
    (parsed : RemoteMessage) : Except JsError (List Emitted) :=
  if parsed.action = "aws-cloud-deployer" then
    match parsed.data with
    | none => .error (JsError.error texts.noData)
    | some d =>
      match d.hash with
      | none => .error (JsError.error texts.noComponent)
      | some hash =>
        match projectConfig.get? hash with
        | none => .error (JsError.error texts.noComponent)
        | some node =>
          if !d.isError then
            .ok [Emitted.message "lambda"
                   { isError := false, message := d.message, hash := hash },
                 Emitted.exit "lambda" 0]
          else
            .ok [Emitted.message "lambda"
                   { isError := true, message := "[" ++ node.name ++ "] " ++ d.message,
                     hash := hash },
                 Emitted.exit "lambda" 1]
  else .ok []

end Distributors

/-! ## `terraform-command.js`: the configuration object -/

/-- The message of `getConfigObject` for the component named `name` and the directory `dir`
of a dependency that does not exist. -/
def configObjectIssue (name dir : String) : String :=
  "'" ++ name ++ "' component depends on the component in '" ++ dir ++
    "' directory that doesn't exist"

/-- The directory shown by `getConfigObject`:
`fullConfig[hash].dependsOn.find(it => Util.toMd5(it) === key)`, the text `undefined` when
there is none. -/
def missingDirectory (toMd5 : String → Hash) (full : ExtComponent) (key : Hash) : String :=
  match full.dependsOn.find? (fun it => toMd5 it = key) with
  | some dir => dir
  | none => "undefined"

/-- The loop `node.dependsOn.forEach(dep => { ... })` of `getConfigObject` for the component
`hash` named `name`: the `dependsOn` object and the issues it leaves. -/
def configObjectDeps (toMd5 : String → Hash) (fullConfig : Obj ExtComponent) (hash : Hash)
    (name : String) : List String → KeySet → List String → Except JsError (KeySet × List String)
  | [], dependsOn, issues => .ok (dependsOn, issues)
  | dep :: rest, dependsOn, issues =>
    let key := toMd5 dep
    if (fullConfig.get? key).isNone then
      match fullConfig.get? hash with
      | none => .error JsError.typeError
      | some full =>
        configObjectDeps toMd5 fullConfig hash name rest (dependsOn.add key)
          (issues ++ [configObjectIssue name (missingDirectory toMd5 full key)])
    else configObjectDeps toMd5 fullConfig hash name rest (dependsOn.add key) issues

/-- The loop `Object.keys(object).forEach(hash => { ... })` of `getConfigObject`: the `tree`
and the issues it leaves. -/
def configObjectLoop (toMd5 : String → Hash) (fullConfig : Obj ExtComponent)
    (config : Obj ExtComponent) :
    List Hash → Obj Component → List String → Except JsError (Obj Component × List String)
  | [], tree, issues => .ok (tree, issues)
  | hash :: rest, tree, issues =>
    match config.get? hash with
    | none => .error JsError.typeError
    | some node =>
      match configObjectDeps toMd5 fullConfig hash node.name node.dependsOn [] issues with
      | .error e => .error e
      | .ok (dependsOn, issues1) =>
        configObjectLoop toMd5 fullConfig config rest
          (tree.set hash
            { name := node.name, dependsOn := dependsOn, distributor := node.distributor })
          issues1

/-- `TerraformCommand.getConfigObject()`, `config` being the value of `getConfig()` (the
selected components) and `fullConfig` the value of `getExtendedConfig()`. -/
def getConfigObject (toMd5 : String → Hash) (fullConfig : Obj ExtComponent)
    (config : Obj ExtComponent) : Except JsError (Obj Component) :=
  match configObjectLoop toMd5 fullConfig config config.keys [] [] with
  | .error e => .error e
  | .ok (tree, issues) =>
    if issues.length ≠ 0 then .error (JsError.numberedList issuesTitle issues)
    else .ok tree

/-- The declarations the specification of `getConfigObject` speaks of, for the selected
components `hashes` in that order: a selected component with a path of its `dependsOn`
whose fingerprint is not a key of the full component set. -/
def missingDeclarations (toMd5 : String → Hash) (fullConfig : Obj ExtComponent)
    (config : Obj ExtComponent) : List Hash → List (Hash × String)
  | [] => []
  | hash :: rest =>
    (match config.get? hash with
      | some node =>
        (node.dependsOn.filter (fun dep => toMd5 dep ∉ fullConfig.keys)).map
          (fun dep => (hash, dep))
      | none => []) ++ missingDeclarations toMd5 fullConfig config rest

/-- The issue of `getConfigObject` for the declaration of the path `dep` by the selected
component `hash`. -/
def declarationIssue (toMd5 : String → Hash) (fullConfig : Obj ExtComponent)
    (config : Obj ExtComponent) (declaration : Hash × String) : String :=
  configObjectIssue (displayName config declaration.1)
    (match fullConfig.get? declaration.1 with
      | some full => missingDirectory toMd5 full (toMd5 declaration.2)
      | none => "undefined")

/-- The node `getConfigObject` builds for the selected component `c`: its `dependsOn` is the
object whose keys are the fingerprints of the declared paths. -/
def configNode (toMd5 : String → Hash) (c : ExtComponent) : Component :=
  { name := c.name, dependsOn := KeySet.assign [] (c.dependsOn.map toMd5),
    distributor := c.distributor }

/-! ## `TerraformCommand.getConfig` -/

/-- A `RegExp` built by `new RegExp(it)` (no flags): what the code reads of it is its `test`
method, a function of the tested string. -/
structure RegExp where
  test : String → Bool

/-- The array `filters` of `getConfig`, after `.filter(Boolean)`: one check for each of the
five lists that is not empty. `gitDiff` is the value of `getGitDiff()`, `includeRegex` of
`getIncludesRegex()`, `includes` of `getIncludes()`, `excludeRegex` of `getExcludesRegex()`,
`excludes` of `getExcludes()`; `config[hash].name` is read with `displayName`. -/
def configFilters (config : Obj ExtComponent) (gitDiff : List Hash)
    (includeRegex : List RegExp) (includes : List String) (excludeRegex : List RegExp)
    (excludes : List String) : List (Hash → Bool) :=
  let filters : List (Option (Hash → Bool)) :=
    [ if gitDiff.length ≠ 0 then some (fun hash => gitDiff.contains hash) else none,
      if includeRegex.length ≠ 0 then
        some (fun hash => includeRegex.any (fun regex => regex.test (displayName config hash)))
      else none,
      if includes.length ≠ 0 then some (fun hash => includes.contains (displayName config hash))
      else none,
      if excludeRegex.length ≠ 0 then
        some (fun hash => !excludeRegex.any (fun regex => regex.test (displayName config hash)))
      else none,
      if excludes.length ≠ 0 then
        some (fun hash => !excludes.contains (displayName config hash))
      else none ]
  filters.filterMap id

/-- The message of the error `getConfig` throws, `action` being `this.getName()`. -/
def noComponentsMessage (action : String) : String :=
  "No components available for the '" ++ action ++ "' action."

/-- `TerraformCommand.getConfig()`, `config` being the value of `getExtendedConfig()` and
`action` of `getName()`; the five lists as in `configFilters`. -/
def getConfig (action : String) (config : Obj ExtComponent) (gitDiff : List Hash)
    (includeRegex : List RegExp) (includes : List String) (excludeRegex : List RegExp)
    (excludes : List String) : Except JsError (Obj ExtComponent) :=
  let filters := configFilters config gitDiff includeRegex includes excludeRegex excludes
  let removed := config.keys.filter (fun hash => filters.any (fun check => !check hash))
  let result := removed.foldl (fun acc hash => acc.delete hash) config
  if result.keys.length = 0 then .error (JsError.error (noComponentsMessage action))
  else .ok result

/-- The component `hash` passes every check of `configFilters`: there is one check for each
of the five lists of `getConfig` that is not empty. -/
def PassesChecks (config : Obj ExtComponent) (gitDiff : List Hash)
    (includeRegex : List RegExp) (includes : List String) (excludeRegex : List RegExp)
    (excludes : List String) (hash : Hash) : Prop :=
  (gitDiff ≠ [] → hash ∈ gitDiff) ∧
  (includeRegex ≠ [] → ∃ regex ∈ includeRegex, regex.test (displayName config hash) = true) ∧
  (includes ≠ [] → displayName config hash ∈ includes) ∧
  (excludeRegex ≠ [] →
    ¬ ∃ regex ∈ excludeRegex, regex.test (displayName config hash) = true) ∧
  (excludes ≠ [] → displayName config hash ∉ excludes)

/-- The component `hash` passes every active filter, in the words of the specification: a
filter is active when its option list is not empty, `commits` being the option list of
`git-diff` and `gitDiff` the git-diff list; the filters are: the fingerprint is in the
git-diff list, the name matches at least one include-regex, the name is in the include list,
the name matches no exclude-regex, the name is not in the exclude list. -/
def PassesActiveFilters (config : Obj ExtComponent) (commits : List String)
    (gitDiff : List Hash) (includeRegex : List RegExp) (includes : List String)
    (excludeRegex : List RegExp) (excludes : List String) (hash : Hash) : Prop :=
  (commits ≠ [] → hash ∈ gitDiff) ∧
  (includeRegex ≠ [] → ∃ regex ∈ includeRegex, regex.test (displayName config hash) = true) ∧
  (includes ≠ [] → displayName config hash ∈ includes) ∧
  (excludeRegex ≠ [] →
    ¬ ∃ regex ∈ excludeRegex, regex.test (displayName config hash) = true) ∧
  (excludes ≠ [] → displayName config hash ∉ excludes)

/-! ## `TerraformCommand.getGitDiff` -/

/-- What `getGitDiff` reads of a component of `super.getConfig()`: `mapping`, the array of
the paths the component is mapped to (`none` when the property is missing), and `dependsOn`,
the array of the paths of the dependencies. -/
structure MappedComponent where
  mapping : Option (List String) := none
  dependsOn : List String
  deriving DecidableEq, Repr

/-- The method `diff.startsWith(dep)` of strings. -/
def startsWith (diff dep : String) : Bool := dep.data.isPrefixOf diff.data

/-- The test of the first `filter` of `getGitDiff` on the component `node`:
`mapping && mapping.some(dep => diffList.some(diff => diff.startsWith(dep)))`. -/
def mappingChanged (diffList : List String) (node : MappedComponent) : Bool :=
  match node.mapping with
  | none => false
  | some mapping => mapping.any (fun dep => diffList.any (fun diff => startsWith diff dep))

/-- The fingerprints one turn of the `while` loop of `getGitDiff` pushes for the component
`node`: `dependsOn.map(path => Util.toMd5(path)).filter(hash => !result.hasOwnProperty(hash))`. -/
def newDependencies (toMd5 : String → Hash) (result : KeySet) (node : MappedComponent) :
    List Hash :=
  (node.dependsOn.map toMd5).filter (fun hash => !result.contains hash)

/-- The `while (newHashes.length)` loop of `getGitDiff`, at most `fuel` turns of it: `none`
when the turns do not suffice, otherwise the object `result` the loop leaves, or the
`TypeError` of reading `dependsOn` of a component that is not in the configuration. -/
def gitDiffLoop (toMd5 : String → Hash) (config : Obj MappedComponent) :
    Nat → List Hash → KeySet → Option (Except JsError KeySet)
  | 0, newHashes, result => if newHashes.length = 0 then some (.ok result) else none
  | fuel + 1, newHashes, result =>
    match newHashes.getLast? with
    | none => some (.ok result)
    | some componentHash =>
      match config.get? componentHash with
      | none => some (.error JsError.typeError)
      | some node =>
        let added := newDependencies toMd5 result node
        gitDiffLoop toMd5 config fuel (newHashes.dropLast ++ added) (added.foldl KeySet.add result)

/-- The number of turns given to the loop of `getGitDiff`: one for every component and one
for every declared dependency, and one more. -/
def gitDiffFuel (config : Obj MappedComponent) : Nat :=
  config.length + (config.map (fun e => e.2.dependsOn.length)).sum + 1

/-- The message of the error `getGitDiff` throws. -/
def gitDiffFormatMessage : String :=
  "Invalid '--git-diff' option format! More than two arguments specified!"

/-- `TerraformCommand.getGitDiff()`: `commits` is the value of the option `git-diff`,
`diffList` the value of `GitHelper.getGitDiff(commits, this.getAppPath())`, `config` the
value of `super.getConfig()`. The result is `none` when the turns given to the loop do not
suffice. -/
def getGitDiff (toMd5 : String → Hash) (commits : List String) (diffList : List String)
    (config : Obj MappedComponent) : Option (Except JsError (List Hash)) :=
  if commits.length = 0 then some (.ok [])
  else if commits.length > 2 then some (.error (JsError.error gitDiffFormatMessage))
  else
    let changed := config.keys.filter (fun hash =>
      match config.get? hash with
      | some node => mappingChanged diffList node
      | none => false)
    let result : KeySet := changed.foldl KeySet.add []
    gitDiffLoop toMd5 config (gitDiffFuel config) result result

/-- The component `a` declares a path whose fingerprint is `b`. -/
def DeclaresPath (toMd5 : String → Hash) (config : Obj MappedComponent) (a b : Hash) : Prop :=
  ∃ node, config.get? a = some node ∧ ∃ path ∈ node.dependsOn, toMd5 path = b

/-- The component `hash` has a `mapping` with an entry that is a prefix of a changed path. -/
def MappingChanged (diffList : List String) (config : Obj MappedComponent) (hash : Hash) :
    Prop :=
  ∃ node mapping, config.get? hash = some node ∧ node.mapping = some mapping ∧
    ∃ dep ∈ mapping, ∃ diff ∈ diffList, dep.data <+: diff.data

/-- The fingerprint `d` is reachable through `dependsOn`, in zero or more steps, from a
component whose mapping has changed. -/
def ReachableFromChanged (toMd5 : String → Hash) (diffList : List String)
    (config : Obj MappedComponent) (d : Hash) : Prop :=
  ∃ s, s ∈ config.keys ∧ MappingChanged diffList config s ∧
    Relation.ReflTransGen (DeclaresPath toMd5 config) s d

/-- What the loop of `getGitDiff` maintains, `seeds` being the keys `result` starts with:
`result` holds the seeds, only fingerprints reachable from them, and only keys of the
configuration; a member of `result` not in `newHashes` has all it declares in `result`;
`newHashes` is within `result`; `result` has no duplicates. -/
structure GitDiffInv (toMd5 : String → Hash) (config : Obj MappedComponent)
    (seeds newHashes : List Hash) (result : KeySet) : Prop where
  seeds_mem : ∀ s ∈ seeds, s ∈ result
  reachable : ∀ d ∈ result, ∃ s ∈ seeds, Relation.ReflTransGen (DeclaresPath toMd5 config) s d
  expanded : ∀ h ∈ result, h ∈ newHashes ∨ ∀ b, DeclaresPath toMd5 config h b → b ∈ result
  pending_mem : ∀ h ∈ newHashes, h ∈ result
  keys_mem : ∀ h ∈ result, h ∈ config.keys
  nodup : result.Nodup

/-- The measure that decreases at every turn of the loop of `getGitDiff`. -/
def gitDiffMeasure (toMd5 : String → Hash) (config : Obj MappedComponent)
    (newHashes : List Hash) (result : KeySet) : Nat :=
  newHashes.length + (config.map (fun e => (newDependencies toMd5 result e.2).length)).sum

/-- The components dispatched by the handlers of a sequence of notifications, in order. -/
def Distributors.dispatchedDuring (s : Distributors.State) :
    List Distributors.Notification → List (Hash × Distributors.Adapter)
  | [] => []
  | n :: rest =>
    (Distributors.handle s n).dispatched ++
      Distributors.dispatchedDuring (Distributors.handle s n).state rest

/-- The number of `exit` notifications of a sequence. -/
def Distributors.exitCount : List Distributors.Notification → Nat
  | [] => 0
  | Distributors.Notification.message _ :: rest => Distributors.exitCount rest
  | Distributors.Notification.exit _ _ _ :: rest => Distributors.exitCount rest + 1

end Terrahub

/-! # Lemmas and theorems -/

namespace Terrahub
/-! ## Objects and sets of keys -/

theorem Obj.get?_delete {V : Type} (o : Obj V) (k h : Hash) :
    (o.delete k).get? h = if h = k then none else o.get? h := by
  induction o with
  | nil => simp [Obj.delete, Obj.get?]
  | cons e rest ih =>
    obtain ⟨k', v⟩ := e
    simp only [Obj.delete] at ih ⊢
    by_cases hk : k' = k
    · subst hk
      simp only [List.filter, ne_eq, not_true_eq_false, decide_False, Obj.get?]
      rw [ih]
      by_cases hh : h = k'
      · simp [hh]
      · have : ¬ k' = h := fun e => hh e.symm
        simp [hh, this]
    · simp only [List.filter, ne_eq, hk, not_false_eq_true, decide_True, Obj.get?]
      by_cases hh : k' = h
      · subst hh; simp [hk]
      · simp only [hh, if_false]; exact ih

theorem Obj.get?_map {V W : Type} (o : Obj V) (f : V → W) (h : Hash) :
    Obj.get? (o.map (fun e => (e.1, f e.2))) h = (o.get? h).map f := by
  induction o with
  | nil => rfl
  | cons e rest ih =>
    obtain ⟨k', v⟩ := e
    simp only [List.map, Obj.get?]
    by_cases hh : k' = h <;> simp [hh, ih]

theorem Obj.get?_set {V : Type} (o : Obj V) (k h : Hash) (v : V) :
    (o.set k v).get? h = if k = h then some v else o.get? h := by
  induction o with
  | nil => simp [Obj.set, Obj.get?]
  | cons e rest ih =>
    obtain ⟨k', w⟩ := e
    simp only [Obj.set]
    by_cases hk : k' = k
    · subst hk
      simp only [if_true, Obj.get?]
      by_cases hh : k' = h <;> simp [hh]
    · simp only [hk, if_false, Obj.get?, ih]
      by_cases hh : k' = h
      · subst hh; simp [Ne.symm hk]
      · simp [hh]

theorem Obj.keys_set {V : Type} (o : Obj V) (k : Hash) (v : V) (h : Hash) :
    h ∈ (o.set k v).keys ↔ h = k ∨ h ∈ o.keys := by
  induction o with
  | nil => simp [Obj.set, Obj.keys]
  | cons e rest ih =>
    obtain ⟨k', w⟩ := e
    simp only [Obj.set]
    by_cases hk : k' = k
    · subst hk; simp [Obj.keys]
    · simp only [hk, if_false]
      simp only [Obj.keys, List.map, List.mem_cons] at ih ⊢
      rw [ih]; tauto

theorem Obj.get?_isSome_iff {V : Type} (o : Obj V) (h : Hash) :
    (o.get? h).isSome ↔ h ∈ o.keys := by
  induction o with
  | nil => simp [Obj.get?, Obj.keys]
  | cons e rest ih =>
    obtain ⟨k', w⟩ := e
    simp only [Obj.get?, Obj.keys, List.map, List.mem_cons]
    by_cases hh : k' = h
    · simp [hh]
    · simp only [hh, if_false]
      simp only [Obj.keys] at ih
      rw [ih]
      constructor
      · intro h1; exact Or.inr h1
      · rintro (h1 | h1)
        · exact absurd h1.symm hh
        · exact h1

theorem TableInv.of_sub {N : Type} {succ : List N → Hash → Prop} {T0 : DependencyTable}
    {pre : List N} {tbl tbl' : DependencyTable} (hinv : TableInv succ T0 pre tbl)
    (hsub : ∀ h deps, tbl'.get? h = some deps → tbl.get? h = some deps) :
    TableInv succ T0 pre tbl' :=
  fun h deps hget => hinv h deps (hsub h deps hget)

theorem TableInv.init {N : Type} (succ : List N → Hash → Prop) (T0 : DependencyTable) :
    TableInv succ T0 [] T0 :=
  fun _ deps hget => ⟨deps, hget, fun _ hd => Or.inl hd⟩

theorem KeySet.mem_remove (s : KeySet) (k d : Hash) : d ∈ KeySet.remove s k ↔ d ∈ s ∧ d ≠ k := by
  simp [KeySet.remove]

namespace Distributors

theorem distributeLoop_spec (hashes : List Hash) :
    ∀ (s : State) (done : List (Hash × Adapter)),
      (∀ x ∈ (distributeLoop hashes s done).2.1,
          x ∈ done ∨ s.dependencyTable.get? x.1 = some []) ∧
      (∀ h deps, (distributeLoop hashes s done).1.dependencyTable.get? h = some deps →
          s.dependencyTable.get? h = some deps) := by
  induction hashes with
  | nil => intro s done; simp only [distributeLoop]; exact ⟨fun x hx => Or.inl hx, fun _ _ h => h⟩
  | cons hash rest ih =>
    intro s done
    unfold distributeLoop
    by_cases hlim : s.localWorkerCounter < s.threadsCount
    · simp only [hlim, if_true]
      cases hget : s.dependencyTable.get? hash with
      | none => exact ⟨fun x hx => Or.inl hx, fun _ _ h => h⟩
      | some dependsOn =>
        simp only
        by_cases hlen : dependsOn.length = 0
        · simp only [hlen, if_true]
          have hnil : dependsOn = [] := List.length_eq_zero.mp hlen
          cases hgd : getDistributor s hash with
          | error e => exact ⟨fun x hx => Or.inl hx, fun _ _ h => h⟩
          | ok p =>
            obtain ⟨s1, adapter⟩ := p
            simp only
            have htab : s1.dependencyTable = s.dependencyTable := by
              unfold getDistributor at hgd
              cases hc : s.projectConfig.get? hash with
              | none => simp [hc] at hgd
              | some config =>
                simp only [hc] at hgd
                split_ifs at hgd <;> (cases hgd; rfl)
            obtain ⟨ih1, ih2⟩ := ih
              { s1 with workCounter := s1.workCounter + 1,
                        dependencyTable := s1.dependencyTable.delete hash }
              (done ++ [(hash, adapter)])
            constructor
            · intro x hx
              rcases ih1 x hx with h1 | h1
              · rcases List.mem_append.mp h1 with h2 | h2
                · exact Or.inl h2
                · right
                  simp only [List.mem_singleton] at h2
                  subst h2
                  rw [hget, hnil]
              · right
                simp only [htab, Obj.get?_delete] at h1
                split_ifs at h1
                exact h1
            · intro h deps hh
              have := ih2 h deps hh
              simp only [htab, Obj.get?_delete] at this
              split_ifs at this
              exact this
        · simp only [hlen, if_false]
          exact ih s done
    · simp only [hlim, if_false]; exact ⟨fun x hx => Or.inl hx, fun _ _ h => h⟩

end Distributors

/-! ## Building the dependency table -/

theorem KeySet.mem_add (s : KeySet) (k d : Hash) : d ∈ KeySet.add s k ↔ d ∈ s ∨ d = k := by
  unfold KeySet.add
  by_cases hk : k ∈ s
  · simp only [hk, if_true]
    constructor
    · exact Or.inl
    · rintro (h | h)
      · exact h
      · exact h ▸ hk
  · simp [hk]

theorem KeySet.mem_assign (t : KeySet) : ∀ (s : KeySet) (d : Hash),
    d ∈ KeySet.assign s t ↔ d ∈ s ∨ d ∈ t := by
  induction t with
  | nil => intro s d; simp [KeySet.assign]
  | cons k rest ih =>
    intro s d
    have h := ih (KeySet.add s k) d
    simp only [KeySet.assign, List.foldl_cons] at h ⊢
    rw [h, KeySet.mem_add]
    simp only [List.mem_cons]
    tauto

theorem Obj.get?_some_mem_keys {V : Type} {o : Obj V} {h : Hash} {v : V}
    (hget : o.get? h = some v) : h ∈ o.keys :=
  (Obj.get?_isSome_iff o h).mp (by simp [hget])

theorem Obj.exists_get?_of_mem_keys {V : Type} {o : Obj V} {h : Hash}
    (hmem : h ∈ o.keys) : ∃ v, o.get? h = some v :=
  Option.isSome_iff_exists.mp ((Obj.get?_isSome_iff o h).mpr hmem)

/-- The table `buildDependencyTable` starts from has the keys of the configuration. -/
theorem mem_keys_emptyTable (keys : List Hash) : ∀ (acc : DependencyTable) (h : Hash),
    h ∈ Obj.keys (keys.foldl (fun acc key => Obj.set acc key ([] : KeySet)) acc) ↔
      h ∈ acc.keys ∨ h ∈ keys := by
  induction keys with
  | nil => intro acc h; simp
  | cons k rest ih =>
    intro acc h
    simp only [List.foldl_cons, List.mem_cons]
    rw [ih, Obj.keys_set]
    tauto

theorem buildForward_spec (cfg : Obj Component) (keys : List Hash) :
    ∀ (result T0 : DependencyTable), buildForward cfg keys result = .ok T0 →
      (∀ h w, result.get? h = some w → ∃ w', T0.get? h = some w' ∧ ∀ d ∈ w, d ∈ w') ∧
      (∀ h ∈ keys, ∀ node, cfg.get? h = some node →
        ∃ w', T0.get? h = some w' ∧ ∀ d ∈ node.dependsOn, d ∈ w') := by
  induction keys with
  | nil =>
    intro result T0 hb
    simp only [buildForward, Except.ok.injEq] at hb
    subst hb
    exact ⟨fun h w hw => ⟨w, hw, fun _ hd => hd⟩, fun h hh => absurd hh (List.not_mem_nil h)⟩
  | cons key rest ih =>
    intro result T0 hb
    unfold buildForward at hb
    cases hr : result.get? key with
    | none => simp [hr] at hb
    | some waiting =>
      cases hc : cfg.get? key with
      | none => simp [hr, hc] at hb
      | some node0 =>
        simp only [hr, hc] at hb
        obtain ⟨ih1, ih2⟩ := ih _ T0 hb
        have hkey : ∃ w', T0.get? key = some w' ∧
            ∀ d, (d ∈ waiting ∨ d ∈ node0.dependsOn) → d ∈ w' := by
          obtain ⟨w', hw', hsub⟩ := ih1 key (waiting.assign node0.dependsOn)
            (by rw [Obj.get?_set]; simp)
          exact ⟨w', hw', fun d hd => hsub d ((KeySet.mem_assign _ _ _).mpr hd)⟩
        constructor
        · intro h w hw
          by_cases hk : key = h
          · subst hk
            obtain ⟨w', hw', hsub⟩ := hkey
            rw [hr] at hw
            cases hw
            exact ⟨w', hw', fun d hd => hsub d (Or.inl hd)⟩
          · exact ih1 h w (by rw [Obj.get?_set]; simp [hk, hw])
        · intro h hh node hnode
          rcases List.mem_cons.mp hh with h1 | h1
          · subst h1
            rw [hc] at hnode
            cases hnode
            obtain ⟨w', hw', hsub⟩ := hkey
            exact ⟨w', hw', fun d hd => hsub d (Or.inr hd)⟩
          · exact ih2 h h1 node hnode

theorem buildForward_ok (cfg : Obj Component) (keys : List Hash) :
    ∀ (result : DependencyTable), (∀ k ∈ keys, k ∈ cfg.keys ∧ k ∈ result.keys) →
      ∃ T0, buildForward cfg keys result = .ok T0 := by
  induction keys with
  | nil => intro result _; exact ⟨result, rfl⟩
  | cons key rest ih =>
    intro result hk
    obtain ⟨hc, hr⟩ := hk key (List.mem_cons_self _ _)
    obtain ⟨node, hnode⟩ := Obj.exists_get?_of_mem_keys hc
    obtain ⟨w, hw⟩ := Obj.exists_get?_of_mem_keys hr
    unfold buildForward
    simp only [hnode, hw]
    apply ih
    intro k hkr
    obtain ⟨h1, h2⟩ := hk k (List.mem_cons_of_mem _ hkr)
    exact ⟨h1, (Obj.keys_set _ _ _ _).mpr (Or.inr h2)⟩

theorem buildReverseInner_spec (key : Hash) (deps : List Hash) :
    ∀ (result R : DependencyTable), buildReverseInner key deps result = .ok R →
      (∀ h w, result.get? h = some w → ∃ w', R.get? h = some w' ∧ ∀ d ∈ w, d ∈ w') ∧
      (∀ d ∈ deps, ∃ w', R.get? d = some w' ∧ key ∈ w') ∧
      (∀ h, h ∈ R.keys ↔ h ∈ result.keys) := by
  induction deps with
  | nil =>
    intro result R hb
    simp only [buildReverseInner, Except.ok.injEq] at hb
    subst hb
    exact ⟨fun h w hw => ⟨w, hw, fun _ hd => hd⟩, fun d hd => absurd hd (List.not_mem_nil d),
      fun _ => Iff.rfl⟩
  | cons hash rest ih =>
    intro result R hb
    unfold buildReverseInner at hb
    cases hr : result.get? hash with
    | none => simp [hr] at hb
    | some waiting =>
      simp only [hr] at hb
      obtain ⟨ih1, ih2, ih3⟩ := ih _ R hb
      have hhash : ∃ w', R.get? hash = some w' ∧ ∀ d, (d ∈ waiting ∨ d = key) → d ∈ w' := by
        obtain ⟨w', hw', hsub⟩ := ih1 hash (waiting.add key) (by rw [Obj.get?_set]; simp)
        exact ⟨w', hw', fun d hd => hsub d ((KeySet.mem_add _ _ _).mpr hd)⟩
      refine ⟨?_, ?_, ?_⟩
      · intro h w hw
        by_cases hk : hash = h
        · subst hk
          obtain ⟨w', hw', hsub⟩ := hhash
          rw [hr] at hw
          cases hw
          exact ⟨w', hw', fun d hd => hsub d (Or.inl hd)⟩
        · exact ih1 h w (by rw [Obj.get?_set]; simp [hk, hw])
      · intro d hd
        rcases List.mem_cons.mp hd with h1 | h1
        · subst h1
          obtain ⟨w', hw', hsub⟩ := hhash
          exact ⟨w', hw', hsub key (Or.inr rfl)⟩
        · exact ih2 d h1
      · intro h
        rw [ih3, Obj.keys_set]
        constructor
        · rintro (h1 | h1)
          · subst h1; exact Obj.get?_some_mem_keys hr
          · exact h1
        · exact Or.inr

theorem buildReverseInner_ok (key : Hash) (deps : List Hash) :
    ∀ (result : DependencyTable), (∀ d ∈ deps, d ∈ result.keys) →
      ∃ R, buildReverseInner key deps result = .ok R := by
  induction deps with
  | nil => intro result _; exact ⟨result, rfl⟩
  | cons hash rest ih =>
    intro result hk
    obtain ⟨w, hw⟩ := Obj.exists_get?_of_mem_keys (hk hash (List.mem_cons_self _ _))
    unfold buildReverseInner
    simp only [hw]
    apply ih
    intro d hd
    exact (Obj.keys_set _ _ _ _).mpr (Or.inr (hk d (List.mem_cons_of_mem _ hd)))

theorem buildReverse_spec (cfg : Obj Component) (keys : List Hash) :
    ∀ (result T0 : DependencyTable), buildReverse cfg keys result = .ok T0 →
      (∀ h w, result.get? h = some w → ∃ w', T0.get? h = some w' ∧ ∀ d ∈ w, d ∈ w') ∧
      (∀ key ∈ keys, ∀ node, cfg.get? key = some node →
        ∀ d ∈ node.dependsOn, ∃ w', T0.get? d = some w' ∧ key ∈ w') := by
  induction keys with
  | nil =>
    intro result T0 hb
    simp only [buildReverse, Except.ok.injEq] at hb
    subst hb
    exact ⟨fun h w hw => ⟨w, hw, fun _ hd => hd⟩, fun h hh => absurd hh (List.not_mem_nil h)⟩
  | cons key rest ih =>
    intro result T0 hb
    unfold buildReverse at hb
    cases hc : cfg.get? key with
    | none => simp [hc] at hb
    | some node0 =>
      simp only [hc] at hb
      cases hin : buildReverseInner key node0.dependsOn result with
      | error e => simp [hin] at hb
      | ok R =>
        simp only [hin] at hb
        obtain ⟨in1, in2, _⟩ := buildReverseInner_spec key node0.dependsOn result R hin
        obtain ⟨ih1, ih2⟩ := ih R T0 hb
        constructor
        · intro h w hw
          obtain ⟨w1, hw1, hsub1⟩ := in1 h w hw
          obtain ⟨w2, hw2, hsub2⟩ := ih1 h w1 hw1
          exact ⟨w2, hw2, fun d hd => hsub2 d (hsub1 d hd)⟩
        · intro k hk node hnode d hd
          rcases List.mem_cons.mp hk with h1 | h1
          · subst h1
            rw [hc] at hnode
            cases hnode
            obtain ⟨w1, hw1, hmem1⟩ := in2 d hd
            obtain ⟨w2, hw2, hsub2⟩ := ih1 d w1 hw1
            exact ⟨w2, hw2, hsub2 k hmem1⟩
          · exact ih2 k h1 node hnode d hd

theorem buildReverse_ok (cfg : Obj Component) (hclosed : ClosedUnderDependsOn cfg)
    (keys : List Hash) :
    ∀ (result : DependencyTable), (∀ k ∈ keys, k ∈ cfg.keys) → (∀ k ∈ cfg.keys, k ∈ result.keys) →
      ∃ T0, buildReverse cfg keys result = .ok T0 := by
  induction keys with
  | nil => intro result _ _; exact ⟨result, rfl⟩
  | cons key rest ih =>
    intro result hk hres
    obtain ⟨node, hnode⟩ := Obj.exists_get?_of_mem_keys (hk key (List.mem_cons_self _ _))
    obtain ⟨R, hR⟩ := buildReverseInner_ok key node.dependsOn result
      (fun d hd => hres d (hclosed key (hk key (List.mem_cons_self _ _)) node hnode d hd))
    obtain ⟨_, _, hkeys⟩ := buildReverseInner_spec key node.dependsOn result R hR
    unfold buildReverse
    simp only [hnode, hR]
    exact ih R (fun k hkr => hk k (List.mem_cons_of_mem _ hkr))
      (fun k hkc => (hkeys k).mpr (hres k hkc))

namespace Distributors

theorem lazyLoad_dependencyTable (s : State) (env : PassEnv) :
    (_lazyLoadLambdaRequirements s env).1.dependencyTable = s.dependencyTable := by
  unfold _lazyLoadLambdaRequirements
  dsimp only
  split_ifs <;> try rfl
  cases env.account <;> rfl

theorem exitCounters_dependencyTable (s : State) (worker : String) :
    (exitCounters s worker).dependencyTable = s.dependencyTable := by
  unfold exitCounters
  split_ifs <;> rfl

theorem get?_removeDependencies (table : DependencyTable) (hash h : Hash) :
    (removeDependencies table hash).get? h =
      (table.get? h).map (fun w => KeySet.remove w hash) :=
  Obj.get?_map table (fun w => KeySet.remove w hash) h

theorem distributeConfig_spec (s : State) (env : PassEnv) :
    (∀ x ∈ (distributeConfig s env).2.1, s.dependencyTable.get? x.1 = some []) ∧
    (∀ h deps, (distributeConfig s env).1.dependencyTable.get? h = some deps →
        s.dependencyTable.get? h = some deps) := by
  unfold distributeConfig
  have hl := lazyLoad_dependencyTable s env
  rcases hlz : _lazyLoadLambdaRequirements s env with ⟨s1, b⟩
  rw [hlz] at hl
  simp only at hl
  cases b with
  | false =>
    simp only
    exact ⟨fun x hx => absurd hx (List.not_mem_nil x), fun h deps hh => hl ▸ hh⟩
  | true =>
    simp only
    obtain ⟨h1, h2⟩ := distributeLoop_spec s1.dependencyTable.keys s1 []
    rcases hloop : distributeLoop s1.dependencyTable.keys s1 [] with ⟨s2, done, b2⟩
    rw [hloop] at h1 h2
    simp only at h1 h2
    have key : (∀ x ∈ done, s.dependencyTable.get? x.1 = some []) ∧
        (∀ h deps, s2.dependencyTable.get? h = some deps →
          s.dependencyTable.get? h = some deps) := by
      constructor
      · intro x hx
        rcases h1 x hx with h | h
        · exact absurd h (List.not_mem_nil x)
        · exact hl ▸ h
      · intro h deps hh
        exact hl ▸ h2 h deps hh
    cases b2 <;> exact key

theorem handle_dispatched (s : State) (n : Notification) :
    ∀ x ∈ (handle s n).dispatched, s.dependencyTable.get? x.1 = some [] := by
  cases n with
  | message data =>
    intro x hx
    simp only [handle, onMessage] at hx
    split_ifs at hx <;> exact absurd hx (List.not_mem_nil x)
  | exit code worker env =>
    intro x hx
    simp only [handle, onExit] at hx
    split_ifs at hx with hc
    · have := (distributeConfig_spec (exitCounters s worker) env).1
      rcases hd : distributeConfig (exitCounters s worker) env with ⟨s3, done, b⟩
      rw [hd] at hx this
      rw [← exitCounters_dependencyTable s worker]
      cases b <;> exact this x hx
    · exact absurd hx (List.not_mem_nil x)

theorem succeededIn_mono {pre : List Notification} {d : Hash} (n : Notification)
    (h : SucceededIn pre d) : SucceededIn (pre ++ [n]) d := by
  obtain ⟨data, hmem, h1, h2⟩ := h
  exact ⟨data, List.mem_append_left _ hmem, h1, h2⟩

theorem handle_tableInv (T0 : DependencyTable) (pre : List Notification) (s : State)
    (n : Notification) (hinv : TableInv SucceededIn T0 pre s.dependencyTable) :
    TableInv SucceededIn T0 (pre ++ [n]) (handle s n).state.dependencyTable := by
  have hmono : TableInv SucceededIn T0 (pre ++ [n]) s.dependencyTable := by
    intro h deps hget
    obtain ⟨deps0, h0, hall⟩ := hinv h deps hget
    exact ⟨deps0, h0, fun d hd => (hall d hd).imp id (succeededIn_mono n)⟩
  cases n with
  | message data =>
    simp only [handle, onMessage]
    by_cases he : data.isError = true
    · simp only [he, if_true]
      exact hmono
    · simp only [he]
      intro h deps hget
      simp only [Bool.false_eq_true, if_false] at hget
      rw [get?_removeDependencies] at hget
      cases hg : s.dependencyTable.get? h with
      | none => simp [hg] at hget
      | some deps1 =>
        simp only [hg, Option.map_some', Option.some.injEq] at hget
        obtain ⟨deps0, h0, hall⟩ := hmono h deps1 hg
        refine ⟨deps0, h0, fun d hd => ?_⟩
        rcases hall d hd with h1 | h1
        · by_cases hdh : d = data.hash
          · right
            exact ⟨data, by simp, by simpa using he, hdh.symm⟩
          · left
            rw [← hget]
            exact (KeySet.mem_remove _ _ _).mpr ⟨h1, hdh⟩
        · exact Or.inr h1
  | exit code worker env =>
    simp only [handle, onExit]
    have hmono2 : TableInv SucceededIn T0 (pre ++ [Notification.exit code worker env])
        (exitCounters s worker).dependencyTable := by
      rw [exitCounters_dependencyTable]; exact hmono
    split_ifs with hc
    · have := (distributeConfig_spec (exitCounters s worker) env).2
      rcases hd : distributeConfig (exitCounters s worker) env with ⟨s3, done, b⟩
      rw [hd] at this
      cases b <;> exact hmono2.of_sub this
    · exact hmono2

theorem exec_append (s : State) (pre : List Notification) (n : Notification) :
    exec s (pre ++ [n]) = (handle (exec s pre) n).state := by
  simp [exec, List.foldl_append]

theorem exec_tableInv (T0 : DependencyTable) (s0 : State)
    (h0 : TableInv SucceededIn T0 [] s0.dependencyTable) (pre : List Notification) :
    TableInv SucceededIn T0 pre (exec s0 pre).dependencyTable := by
  induction pre using List.reverseRecOn with
  | nil => exact h0
  | append_singleton pre n ih =>
    rw [exec_append]
    exact handle_tableInv T0 pre _ n ih

/-- The table based form of the ordering: the scheduler dispatches a component only when
every fingerprint of its initial waiting-set has had a success notification. -/
theorem dispatch_respects_table (cfg : Obj Component) (threads : Int)
    (direction : Option Direction) (env : PassEnv) (T0 : DependencyTable) (s0 : State)
    (first : List (Hash × Adapter))
    (hT : buildDependencyTable cfg direction = .ok T0)
    (hs : runActionsStart cfg threads direction env = .ok (s0, first)) :
    DispatchRespects (fun h d => ∃ w, T0.get? h = some w ∧ d ∈ w) SucceededIn
      (first.map Prod.fst)
      (fun pre n => (handle (exec s0 pre) n).dispatched.map Prod.fst) := by
  unfold runActionsStart at hs
  simp only [hT] at hs
  have hspec := distributeConfig_spec
    { projectConfig := cfg, threadsCount := threads, dependencyTable := T0 } env
  rcases hd : distributeConfig
    { projectConfig := cfg, threadsCount := threads, dependencyTable := T0 } env
    with ⟨s1, done, b⟩
  rw [hd] at hs hspec
  simp only [Except.ok.injEq, Prod.mk.injEq] at hs
  obtain ⟨hs1, hs2⟩ := hs
  subst hs1 hs2
  simp only at hspec
  obtain ⟨hfirst, hsub⟩ := hspec
  have hinv0 : TableInv SucceededIn T0 [] s1.dependencyTable :=
    (TableInv.init SucceededIn T0).of_sub hsub
  constructor
  · intro h hh d hreq
    obtain ⟨x, hx, rfl⟩ := List.mem_map.mp hh
    obtain ⟨w, hw, hdw⟩ := hreq
    rw [hfirst x hx] at hw
    cases hw
    exact absurd hdw (List.not_mem_nil d)
  · intro pre n h hh d hreq
    obtain ⟨x, hx, rfl⟩ := List.mem_map.mp hh
    obtain ⟨w, hw, hdw⟩ := hreq
    have hempty := handle_dispatched (exec s1 pre) n x hx
    obtain ⟨deps0, h0, hall⟩ := exec_tableInv T0 s1 hinv0 pre x.1 [] hempty
    rw [hw] at h0
    cases h0
    rcases hall d hdw with h1 | h1
    · exact absurd h1 (List.not_mem_nil d)
    · exact h1

end Distributors
namespace ClusterDistributor

theorem cluster_distributeLoop_spec (hashes : List Hash) :
    ∀ (s : State) (done : List Hash),
      (∀ x ∈ (distributeLoop hashes s done).2.1,
          x ∈ done ∨ s.dependencyTable.get? x = some []) ∧
      (∀ h deps, (distributeLoop hashes s done).1.dependencyTable.get? h = some deps →
          s.dependencyTable.get? h = some deps) := by
  induction hashes with
  | nil => intro s done; simp only [distributeLoop]; exact ⟨fun x hx => Or.inl hx, fun _ _ h => h⟩
  | cons hash rest ih =>
    intro s done
    unfold distributeLoop
    by_cases hlim : s.workersCount < s.threadsCount
    · simp only [hlim, if_true]
      cases hget : s.dependencyTable.get? hash with
      | none => exact ⟨fun x hx => Or.inl hx, fun _ _ h => h⟩
      | some dependsOn =>
        simp only
        by_cases hlen : dependsOn.length = 0
        · simp only [hlen, if_true]
          have hnil : dependsOn = [] := List.length_eq_zero.mp hlen
          obtain ⟨ih1, ih2⟩ := ih (_createWorker s hash) (done ++ [hash])
          constructor
          · intro x hx
            rcases ih1 x hx with h1 | h1
            · rcases List.mem_append.mp h1 with h2 | h2
              · exact Or.inl h2
              · right
                simp only [List.mem_singleton] at h2
                subst h2
                rw [hget, hnil]
            · right
              simp only [_createWorker, Obj.get?_delete] at h1
              split_ifs at h1
              exact h1
          · intro h deps hh
            have := ih2 h deps hh
            simp only [_createWorker, Obj.get?_delete] at this
            split_ifs at this
            exact this
        · simp only [hlen, if_false]
          exact ih s done
    · simp only [hlim, if_false]; exact ⟨fun x hx => Or.inl hx, fun _ _ h => h⟩

theorem cluster_distributeConfigs_spec (s : State) :
    (∀ x ∈ (_distributeConfigs s).2.1, s.dependencyTable.get? x = some []) ∧
    (∀ h deps, (_distributeConfigs s).1.dependencyTable.get? h = some deps →
        s.dependencyTable.get? h = some deps) := by
  obtain ⟨h1, h2⟩ := cluster_distributeLoop_spec s.dependencyTable.keys s []
  refine ⟨fun x hx => ?_, h2⟩
  rcases h1 x hx with h | h
  · exact absurd h (List.not_mem_nil x)
  · exact h

/-- The admission pass of the `exit` listener. -/
theorem cluster_exitPass_spec (s : State) (code : Int) :
    (∀ x ∈ (if code = 0 then _distributeConfigs s else (s, [], true)).2.1,
        s.dependencyTable.get? x = some []) ∧
    (∀ h deps, (if code = 0 then _distributeConfigs s else (s, [], true)).1.dependencyTable.get? h
        = some deps → s.dependencyTable.get? h = some deps) := by
  split_ifs
  · exact cluster_distributeConfigs_spec s
  · exact ⟨fun x hx => absurd hx (List.not_mem_nil x), fun _ _ h => h⟩

theorem cluster_onExit_state_dispatched (s : State) (worker : Nat) (code : Int) :
    (onExit s worker code).state =
      (if code = 0 then _distributeConfigs
          { s with workers := s.workers.filter (fun w => w ≠ worker),
                   workersCount := s.workersCount - 1 }
        else ({ s with workers := s.workers.filter (fun w => w ≠ worker),
                       workersCount := s.workersCount - 1 }, [], true)).1 ∧
    (onExit s worker code).dispatched =
      (if code = 0 then _distributeConfigs
          { s with workers := s.workers.filter (fun w => w ≠ worker),
                   workersCount := s.workersCount - 1 }
        else ({ s with workers := s.workers.filter (fun w => w ≠ worker),
                       workersCount := s.workersCount - 1 }, [], true)).2.1 := by
  unfold onExit
  dsimp only
  generalize (if code = 0 then _distributeConfigs
          { s with workers := s.workers.filter (fun w => w ≠ worker),
                   workersCount := s.workersCount - 1 }
        else ({ s with workers := s.workers.filter (fun w => w ≠ worker),
                       workersCount := s.workersCount - 1 }, [], true)) = pass
  obtain ⟨s2, done, b⟩ := pass
  cases b
  · exact ⟨rfl, rfl⟩
  · dsimp only
    split_ifs
    · cases s2.error <;> exact ⟨rfl, rfl⟩
    · exact ⟨rfl, rfl⟩

theorem cluster_handle_dispatched (s : State) (n : Notification) :
    ∀ x ∈ (handle s n).dispatched, s.dependencyTable.get? x = some [] := by
  cases n with
  | message data =>
    intro x hx
    simp only [handle, onMessage] at hx
    split_ifs at hx <;> exact absurd hx (List.not_mem_nil x)
  | exit worker code =>
    intro x hx
    simp only [handle] at hx
    rw [(cluster_onExit_state_dispatched s worker code).2] at hx
    exact (cluster_exitPass_spec
      { s with workers := s.workers.filter (fun w => w ≠ worker),
               workersCount := s.workersCount - 1 } code).1 x hx

theorem cluster_succeededIn_mono {pre : List Notification} {d : Hash} (n : Notification)
    (h : SucceededIn pre d) : SucceededIn (pre ++ [n]) d := by
  obtain ⟨data, hmem, h1, h2⟩ := h
  exact ⟨data, List.mem_append_left _ hmem, h1, h2⟩

theorem cluster_handle_tableInv (T0 : DependencyTable) (pre : List Notification) (s : State)
    (n : Notification) (hinv : TableInv SucceededIn T0 pre s.dependencyTable) :
    TableInv SucceededIn T0 (pre ++ [n]) (handle s n).state.dependencyTable := by
  have hmono : TableInv SucceededIn T0 (pre ++ [n]) s.dependencyTable := by
    intro h deps hget
    obtain ⟨deps0, h0, hall⟩ := hinv h deps hget
    exact ⟨deps0, h0, fun d hd => (hall d hd).imp id (cluster_succeededIn_mono n)⟩
  cases n with
  | message data =>
    simp only [handle, onMessage]
    by_cases he : data.isError = true
    · simp only [he, if_true, _handleError]
      intro h deps hget
      simp [Obj.get?] at hget
    · simp only [he]
      intro h deps hget
      simp only [Bool.false_eq_true, if_false, _removeDependencies] at hget
      have hres : ∀ (s1 : State), s1.dependencyTable = s.dependencyTable →
          Obj.get? (List.map (fun e => (e.1, KeySet.remove e.2 data.hash)) s1.dependencyTable) h
            = some deps →
          ∃ deps0, T0.get? h = some deps0 ∧ ∀ d ∈ deps0, d ∈ deps ∨
            SucceededIn (pre ++ [Notification.message data]) d := by
        intro s1 hs1 hget
        rw [hs1, Obj.get?_map s.dependencyTable (fun w => KeySet.remove w data.hash) h] at hget
        cases hg : s.dependencyTable.get? h with
        | none => simp [hg] at hget
        | some deps1 =>
          simp only [hg, Option.map_some', Option.some.injEq] at hget
          obtain ⟨deps0, h0, hall⟩ := hmono h deps1 hg
          refine ⟨deps0, h0, fun d hd => ?_⟩
          rcases hall d hd with h1 | h1
          · by_cases hdh : d = data.hash
            · right
              exact ⟨data, by simp, by simpa using he, hdh.symm⟩
            · left
              rw [← hget]
              exact (KeySet.mem_remove _ _ _).mpr ⟨h1, hdh⟩
          · exact Or.inr h1
      cases hdd : data.data with
      | none => rw [hdd] at hget; exact hres _ rfl hget
      | some payload => rw [hdd] at hget; exact hres _ rfl hget
  | exit worker code =>
    simp only [handle]
    rw [(cluster_onExit_state_dispatched s worker code).1]
    exact hmono.of_sub (cluster_exitPass_spec
      { s with workers := s.workers.filter (fun w => w ≠ worker),
               workersCount := s.workersCount - 1 } code).2

theorem cluster_exec_append (s : State) (pre : List Notification) (n : Notification) :
    exec s (pre ++ [n]) = (handle (exec s pre) n).state := by
  simp [exec, List.foldl_append]

theorem cluster_exec_tableInv (T0 : DependencyTable) (s0 : State)
    (h0 : TableInv SucceededIn T0 [] s0.dependencyTable) (pre : List Notification) :
    TableInv SucceededIn T0 pre (exec s0 pre).dependencyTable := by
  induction pre using List.reverseRecOn with
  | nil => exact h0
  | append_singleton pre n ih =>
    rw [cluster_exec_append]
    exact cluster_handle_tableInv T0 pre _ n ih

/-- The table based form of the ordering for the cluster based scheduler. -/
theorem cluster_dispatch_respects_table (config : Obj Component) (threads : Int)
    (direction : Option Direction) (T0 : DependencyTable) (s0 : State) (first : List Hash)
    (hT : _buildDependencyTable config direction = .ok T0)
    (hs : runActionsStart config threads direction = .ok (s0, first)) :
    DispatchRespects (fun h d => ∃ w, T0.get? h = some w ∧ d ∈ w) SucceededIn first
      (fun pre n => (handle (exec s0 pre) n).dispatched) := by
  unfold runActionsStart at hs
  simp only [hT] at hs
  have hspec := cluster_distributeConfigs_spec
    { config := config, threadsCount := threads, dependencyTable := T0 }
  rcases hd : _distributeConfigs
    { config := config, threadsCount := threads, dependencyTable := T0 } with ⟨s1, done, b⟩
  rw [hd] at hs hspec
  simp only [Except.ok.injEq, Prod.mk.injEq] at hs
  obtain ⟨hs1, hs2⟩ := hs
  subst hs1 hs2
  simp only at hspec
  obtain ⟨hfirst, hsub⟩ := hspec
  have hinv0 : TableInv SucceededIn T0 [] s1.dependencyTable :=
    (TableInv.init SucceededIn T0).of_sub hsub
  constructor
  · intro h hh d hreq
    obtain ⟨w, hw, hdw⟩ := hreq
    rw [hfirst h hh] at hw
    cases hw
    exact absurd hdw (List.not_mem_nil d)
  · intro pre n h hh d hreq
    obtain ⟨w, hw, hdw⟩ := hreq
    have hempty := cluster_handle_dispatched (exec s1 pre) n h hh
    obtain ⟨deps0, h0, hall⟩ := cluster_exec_tableInv T0 s1 hinv0 pre h [] hempty
    rw [hw] at h0
    cases h0
    rcases hall d hdw with h1 | h1
    · exact absurd h1 (List.not_mem_nil d)
    · exact h1

end ClusterDistributor

theorem Distributors.runActionsStart_ok (cfg : Obj Component) (threads : Int)
    (direction : Option Direction) (env : Distributors.PassEnv) (T0 : DependencyTable)
    (hT : Distributors.buildDependencyTable cfg direction = .ok T0) :
    ∃ s0 first, Distributors.runActionsStart cfg threads direction env = .ok (s0, first) := by
  unfold Distributors.runActionsStart
  simp only [hT]
  rcases Distributors.distributeConfig
    { projectConfig := cfg, threadsCount := threads, dependencyTable := T0 } env with ⟨s1, done, b⟩
  exact ⟨s1, done, rfl⟩

theorem ClusterDistributor.cluster_runActionsStart_ok (config : Obj Component) (threads : Int)
    (direction : Option Direction) (T0 : DependencyTable)
    (hT : ClusterDistributor._buildDependencyTable config direction = .ok T0) :
    ∃ s0 first, ClusterDistributor.runActionsStart config threads direction = .ok (s0, first) := by
  unfold ClusterDistributor.runActionsStart
  simp only [hT]
  rcases ClusterDistributor._distributeConfigs
    { config := config, threadsCount := threads, dependencyTable := T0 } with ⟨s1, done, b⟩
  exact ⟨s1, done, rfl⟩

theorem DispatchRespects.imp {N : Type} {req req' : Hash → Hash → Prop}
    {succ : List N → Hash → Prop} {first : List Hash} {disp : List N → N → List Hash}
    (h : DispatchRespects req succ first disp) (himp : ∀ a d, req' a d → req a d) :
    DispatchRespects req' succ first disp :=
  ⟨fun a ha d hr => h.1 a ha d (himp a d hr), fun pre n a ha d hr => h.2 pre n a ha d (himp a d hr)⟩

/-- The `FORWARD` table is built, and the waiting-set of a component holds its `dependsOn`. -/
theorem forwardTable_spec (cfg : Obj Component) :
    ∃ T0, buildForward cfg cfg.keys (cfg.keys.foldl (fun acc key => Obj.set acc key []) []) = .ok T0 ∧
      ∀ h d, DependsOn cfg h d → ∃ w, T0.get? h = some w ∧ d ∈ w := by
  obtain ⟨T0, hT⟩ := buildForward_ok cfg cfg.keys
    (cfg.keys.foldl (fun acc key => Obj.set acc key []) [])
    (fun k hk => ⟨hk, (mem_keys_emptyTable cfg.keys [] k).mpr (Or.inr hk)⟩)
  refine ⟨T0, hT, ?_⟩
  rintro h d ⟨node, hnode, hd⟩
  obtain ⟨w, hw, hsub⟩ := (buildForward_spec cfg cfg.keys _ T0 hT).2 h
    (Obj.get?_some_mem_keys hnode) node hnode
  exact ⟨w, hw, hsub d hd⟩

/-- The `REVERSE` table of a closed map is built, and the waiting-set of a component holds
the components that depend on it. -/
theorem reverseTable_spec (cfg : Obj Component) (hclosed : ClosedUnderDependsOn cfg) :
    ∃ T0, buildReverse cfg cfg.keys (cfg.keys.foldl (fun acc key => Obj.set acc key []) []) = .ok T0 ∧
      ∀ h d, DependsOn cfg d h → ∃ w, T0.get? h = some w ∧ d ∈ w := by
  obtain ⟨T0, hT⟩ := buildReverse_ok cfg hclosed cfg.keys
    (cfg.keys.foldl (fun acc key => Obj.set acc key []) [])
    (fun k hk => hk) (fun k hk => (mem_keys_emptyTable cfg.keys [] k).mpr (Or.inr hk))
  refine ⟨T0, hT, ?_⟩
  rintro h d ⟨node, hnode, hd⟩
  exact (buildReverse_spec cfg cfg.keys _ T0 hT).2 d (Obj.get?_some_mem_keys hnode) node hnode h hd

/-- C1. In both schedulers a component is dispatched only after a success notification has
been processed for every fingerprint of its initial waiting-set (the first pass dispatches
only components whose waiting-set is empty). Hence a `FORWARD` run starts and dispatches no
component before all its declared dependencies have reported success, and a `REVERSE` run
over a map closed under `dependsOn` starts and dispatches no component before every
component that depends on it has reported success. -/
theorem dispatch_only_after_success (cfg : Obj Component) (threads : Int)
    (env : Distributors.PassEnv) :
    ((∀ direction T0, Distributors.buildDependencyTable cfg direction = .ok T0 →
        Distributors.RunRespects cfg threads direction env
          (fun h d => ∃ w, T0.get? h = some w ∧ d ∈ w)) ∧
      Distributors.RunRespects cfg threads (some Direction.FORWARD) env (DependsOn cfg) ∧
      (ClosedUnderDependsOn cfg →
        Distributors.RunRespects cfg threads (some Direction.REVERSE) env
          (fun h d => DependsOn cfg d h))) ∧
    ((∀ direction T0, ClusterDistributor._buildDependencyTable cfg direction = .ok T0 →
        ClusterDistributor.RunRespects cfg threads direction
          (fun h d => ∃ w, T0.get? h = some w ∧ d ∈ w)) ∧
      ClusterDistributor.RunRespects cfg threads (some Direction.FORWARD) (DependsOn cfg) ∧
      (ClosedUnderDependsOn cfg →
        ClusterDistributor.RunRespects cfg threads (some Direction.REVERSE)
          (fun h d => DependsOn cfg d h))) := by
  have newTable : ∀ direction T0, Distributors.buildDependencyTable cfg direction = .ok T0 →
      Distributors.RunRespects cfg threads direction env
        (fun h d => ∃ w, T0.get? h = some w ∧ d ∈ w) := by
    intro direction T0 hT
    obtain ⟨s0, first, hs⟩ := Distributors.runActionsStart_ok cfg threads direction env T0 hT
    exact ⟨s0, first, hs,
      Distributors.dispatch_respects_table cfg threads direction env T0 s0 first hT hs⟩
  have oldTable : ∀ direction T0, ClusterDistributor._buildDependencyTable cfg direction = .ok T0 →
      ClusterDistributor.RunRespects cfg threads direction
        (fun h d => ∃ w, T0.get? h = some w ∧ d ∈ w) := by
    intro direction T0 hT
    obtain ⟨s0, first, hs⟩ := ClusterDistributor.cluster_runActionsStart_ok cfg threads direction T0 hT
    exact ⟨s0, first, hs,
      ClusterDistributor.cluster_dispatch_respects_table cfg threads direction T0 s0 first hT hs⟩
  refine ⟨⟨newTable, ?_, ?_⟩, ⟨oldTable, ?_, ?_⟩⟩
  · obtain ⟨T0, hT, hreq⟩ := forwardTable_spec cfg
    obtain ⟨s0, first, hs, hr⟩ := newTable (some Direction.FORWARD) T0 hT
    exact ⟨s0, first, hs, hr.imp hreq⟩
  · intro hclosed
    obtain ⟨T0, hT, hreq⟩ := reverseTable_spec cfg hclosed
    obtain ⟨s0, first, hs, hr⟩ := newTable (some Direction.REVERSE) T0 hT
    exact ⟨s0, first, hs, hr.imp hreq⟩
  · obtain ⟨T0, hT, hreq⟩ := forwardTable_spec cfg
    obtain ⟨s0, first, hs, hr⟩ := oldTable (some Direction.FORWARD) T0 hT
    exact ⟨s0, first, hs, hr.imp hreq⟩
  · intro hclosed
    obtain ⟨T0, hT, hreq⟩ := reverseTable_spec cfg hclosed
    obtain ⟨s0, first, hs, hr⟩ := oldTable (some Direction.REVERSE) T0 hT
    exact ⟨s0, first, hs, hr.imp hreq⟩

/-- Witness of C1: the teardown of `b`, which depends on `a`, in both schedulers. -/
theorem dispatch_only_after_success_witness :
    ClosedUnderDependsOn
      [("a", { name := "A", dependsOn := [] }), ("b", { name := "B", dependsOn := ["a"] })] ∧
    Distributors.RunRespects
      [("a", { name := "A", dependsOn := [] }), ("b", { name := "B", dependsOn := ["a"] })]
      2 (some Direction.REVERSE) {}
      (fun h d => DependsOn
        [("a", { name := "A", dependsOn := [] }), ("b", { name := "B", dependsOn := ["a"] })] d h) ∧
    ClusterDistributor.RunRespects
      [("a", { name := "A", dependsOn := [] }), ("b", { name := "B", dependsOn := ["a"] })]
      2 (some Direction.REVERSE)
      (fun h d => DependsOn
        [("a", { name := "A", dependsOn := [] }), ("b", { name := "B", dependsOn := ["a"] })] d h) :=
  ⟨by decide,
   (dispatch_only_after_success _ 2 {}).1.2.2 (by decide),
   (dispatch_only_after_success _ 2 {}).2.2.2 (by decide)⟩

/-! ## Cycle detection -/

theorem whiteCount_set_white (color : Obj Color) (h : Hash) (c : Color)
    (hw : color.get? h = some Color.WHITE) (hc : c ≠ Color.WHITE) :
    whiteCount (color.set h c) + 1 = whiteCount color := by
  induction color with
  | nil => simp [Obj.get?] at hw
  | cons e rest ih =>
    obtain ⟨k, v⟩ := e
    simp only [Obj.get?] at hw
    by_cases hk : k = h
    · simp only [hk, if_true, Option.some.injEq] at hw
      subst hw
      simp [Obj.set, hk, whiteCount, List.filter, hc]
    · simp only [hk, if_false] at hw
      have := ih hw
      simp only [Obj.set, hk, if_false, whiteCount, List.filter] at this ⊢
      by_cases hv : v = Color.WHITE
      · simp only [hv, decide_True, List.length_cons]; omega
      · simp only [hv, decide_False]; exact this

theorem whiteCount_set_other (color : Obj Color) (h : Hash) (c0 c : Color)
    (hw : color.get? h = some c0) (hc0 : c0 ≠ Color.WHITE) (hc : c ≠ Color.WHITE) :
    whiteCount (color.set h c) = whiteCount color := by
  induction color with
  | nil => simp [Obj.get?] at hw
  | cons e rest ih =>
    obtain ⟨k, v⟩ := e
    simp only [Obj.get?] at hw
    by_cases hk : k = h
    · simp only [hk, if_true, Option.some.injEq] at hw
      subst hw
      simp [Obj.set, hk, whiteCount, List.filter, hc, hc0]
    · simp only [hk, if_false] at hw
      have := ih hw
      simp only [Obj.set, hk, if_false, whiteCount, List.filter] at this ⊢
      by_cases hv : v = Color.WHITE
      · simp only [hv, decide_True, List.length_cons]; omega
      · simp only [hv, decide_False]; exact this

theorem chain_transGen {α : Type} {r : α → α → Prop} :
    ∀ (l : List α) (a b : α), List.Chain' r (a :: l ++ [b]) → Relation.TransGen r a b := by
  intro l
  induction l with
  | nil =>
    intro a b h
    simp only [List.nil_append, List.cons_append, List.chain'_cons, List.chain'_singleton,
      and_true] at h
    exact Relation.TransGen.single h
  | cons c rest ih =>
    intro a b h
    simp only [List.cons_append, List.chain'_cons] at h
    exact Relation.TransGen.head h.1 (ih c b (by simpa using h.2))

/-- A path that ends on one of its earlier components closes a cycle. -/
theorem FoundCycle.hasCycle {config : Obj Component} {st : Search}
    (h : FoundCycle config st) : HasCycle config := by
  obtain ⟨p, k, _, hk, _, hchain, _⟩ := h
  obtain ⟨p1, p2, rfl⟩ := List.append_of_mem hk
  refine ⟨k, chain_transGen p2 k k ?_⟩
  have : List.Chain' (Edge config) (p1 ++ (k :: p2 ++ [k])) := by simpa using hchain
  exact this.right_of_append

theorem colorMono_refl (st : Search) : ColorMono st st :=
  ⟨fun _ h => h, fun _ h => h, le_refl _⟩

theorem colorMono_trans {a b c : Search} (h1 : ColorMono a b) (h2 : ColorMono b c) :
    ColorMono a c :=
  ⟨fun k h => h1.white k (h2.white k h), fun k h => h2.black k (h1.black k h),
    le_trans h2.count h1.count⟩

theorem SearchInv.mem_keys_of_color {config : Obj Component} {st : Search}
    (hinv : SearchInv config st) {k : Hash} {c : Color} (h : st.color.get? k = some c) :
    k ∈ config.keys :=
  (hinv.keys k).mp (by simp [h])

theorem dependsOnLoop_spec (config : Obj Component) (fuel : Nat) (hdfs : DfsSpec config fuel)
    (h : Hash) (ks : List Hash) :
    ∀ st, SearchInv config st → EnteredInv st → st.path.getLast? = some h →
      (∀ k ∈ ks, DependsOn config h k) → whiteCount st.color ≤ fuel →
      ∃ b st1, dependsOnLoop (_depthFirstSearch config fuel) ks st = some (b, st1) ∧
        EnteredInv st1 ∧
        (b = false → SearchInv config st1 ∧ st1.path = st.path ∧ ColorMono st st1 ∧
          ∀ k ∈ ks, k ∈ config.keys → st1.color.get? k = some Color.BLACK) ∧
        (b = true → FoundCycle config st1) := by
  induction ks with
  | nil =>
    intro st hinv hent _ _ _
    exact ⟨false, st, rfl, hent,
      fun _ => ⟨hinv, rfl, colorMono_refl st, fun k hk => absurd hk (List.not_mem_nil k)⟩,
      fun hb => by cases hb⟩
  | cons key rest ih =>
    intro st hinv hent hlast hdeps hfuel
    have hdepsRest : ∀ k ∈ rest, DependsOn config h k :=
      fun k hk => hdeps k (List.mem_cons_of_mem _ hk)
    unfold dependsOnLoop
    by_cases hwhite : st.color.get? key = some Color.WHITE
    · -- the recursive call
      have hedge : ∀ l, st.path.getLast? = some l → Edge config l key := by
        intro l hl
        rw [hlast] at hl
        cases hl
        exact ⟨hdeps key (List.mem_cons_self _ _), hinv.mem_keys_of_color hwhite⟩
      obtain ⟨b1, st1, hcall, hent1, hfalse, htrue⟩ := hdfs key st hinv hent hwhite hfuel hedge
      simp only [hwhite, if_true, hcall]
      cases b1 with
      | true => exact ⟨true, st1, rfl, hent1, fun hb => (by cases hb), fun _ => htrue rfl⟩
      | false =>
        obtain ⟨hinv1, hpath1, hmono1, hblack1⟩ := hfalse rfl
        have hng : ¬ st1.color.get? key = some Color.GRAY := by rw [hblack1]; simp
        simp only [hng, if_false]
        obtain ⟨b2, st2, hloop, hent2, hfalse2, htrue2⟩ :=
          ih st1 hinv1 hent1 (hpath1 ▸ hlast) hdepsRest (le_trans hmono1.count hfuel)
        refine ⟨b2, st2, hloop, hent2, ?_, htrue2⟩
        intro hb
        obtain ⟨hinv2, hpath2, hmono2, hall2⟩ := hfalse2 hb
        refine ⟨hinv2, hpath2.trans hpath1, colorMono_trans hmono1 hmono2, ?_⟩
        intro k hk hkeys
        rcases List.mem_cons.mp hk with rfl | hk'
        · exact hmono2.black _ hblack1
        · exact hall2 k hk' hkeys
    · simp only [hwhite, if_false]
      by_cases hgray : st.color.get? key = some Color.GRAY
      · simp only [hgray, if_true]
        refine ⟨true, _, rfl, hent, fun hb => (by cases hb), fun _ => ?_⟩
        refine ⟨st.path, key, rfl, (hinv.gray key).mp hgray, hinv.nodup, ?_, ?_⟩
        · refine List.Chain'.append hinv.chain (List.chain'_singleton key) ?_
          intro x hx y hy
          simp only [List.head?_cons, Option.mem_def, Option.some.injEq] at hy
          subst hy
          rw [hlast] at hx
          simp only [Option.mem_def, Option.some.injEq] at hx
          subst hx
          exact ⟨hdeps _ (List.mem_cons_self _ _), hinv.mem_keys_of_color hgray⟩
        · intro x hx
          exact hinv.mem_keys_of_color ((hinv.gray x).mpr hx)
      · simp only [hgray, if_false]
        obtain ⟨b2, st2, hloop, hent2, hfalse2, htrue2⟩ :=
          ih st hinv hent hlast hdepsRest hfuel
        refine ⟨b2, st2, hloop, hent2, ?_, htrue2⟩
        intro hb
        obtain ⟨hinv2, hpath2, hmono2, hall2⟩ := hfalse2 hb
        refine ⟨hinv2, hpath2, hmono2, ?_⟩
        intro k hk hkeys
        rcases List.mem_cons.mp hk with rfl | hk'
        · obtain ⟨c, hc⟩ := Option.isSome_iff_exists.mp ((hinv.keys _).mpr hkeys)
          cases c with
          | WHITE => exact absurd hc hwhite
          | GRAY => exact absurd hc hgray
          | BLACK => exact hmono2.black _ hc
        · exact hall2 k hk' hkeys

theorem whiteCount_pos (color : Obj Color) (h : Hash) (hw : color.get? h = some Color.WHITE) :
    0 < whiteCount color := by
  have := whiteCount_set_white color h Color.GRAY hw (by decide)
  omega

theorem dfsSpec_all (config : Obj Component) : ∀ fuel, DfsSpec config fuel := by
  intro fuel
  induction fuel with
  | zero =>
    intro h st _ _ hwhite hfuel _
    have := whiteCount_pos st.color h hwhite
    omega
  | succ fuel ih =>
    intro h st hinv hent hwhite hfuel hedge
    obtain ⟨node, hnode⟩ := Obj.exists_get?_of_mem_keys (hinv.mem_keys_of_color hwhite)
    have hnotpath : h ∉ st.path := by
      intro hmem
      have := (hinv.gray h).mpr hmem
      rw [hwhite] at this
      cases this
    -- the state after `color[hash] = GRAY; path.push(hash)`
    have hcol1 : ∀ k, (st.color.set h Color.GRAY).get? k =
        if h = k then some Color.GRAY else st.color.get? k := fun k => Obj.get?_set _ _ _ _
    have hinv1 : SearchInv config
        { color := st.color.set h Color.GRAY, path := st.path ++ [h],
          entered := st.entered ++ [h] } := by
      refine ⟨?_, ?_, ?_, ?_, ?_⟩
      · intro k
        simp only [hcol1]
        by_cases hk : h = k
        · subst hk
          simp only [if_true, Option.isSome_some, true_iff]
          exact hinv.mem_keys_of_color hwhite
        · simp only [hk, if_false]
          exact hinv.keys k
      · intro k
        simp only [hcol1, List.mem_append, List.mem_singleton]
        by_cases hk : h = k
        · subst hk; simp
        · simp only [hk, if_false, hinv.gray k]
          constructor
          · exact Or.inl
          · rintro (h1 | h1)
            · exact h1
            · exact absurd h1.symm hk
      · refine List.Chain'.append hinv.chain (List.chain'_singleton h) ?_
        intro x hx y hy
        simp only [List.head?_cons, Option.mem_def, Option.some.injEq] at hy
        subst hy
        exact hedge x hx
      · exact List.Nodup.append hinv.nodup (List.nodup_singleton h)
          (by simp only [List.disjoint_singleton]; exact hnotpath)
      · intro k hk
        simp only [hcol1] at hk
        by_cases hkh : h = k
        · simp [hkh] at hk
        · simp only [hkh, if_false] at hk
          exact hinv.black k hk
    have hent1 : EnteredInv
        { color := st.color.set h Color.GRAY, path := st.path ++ [h],
          entered := st.entered ++ [h] } := by
      constructor
      · refine List.Nodup.append hent.1 (List.nodup_singleton h) ?_
        simp only [List.disjoint_singleton]
        intro hmem
        exact hent.2 h hmem hwhite
      · intro k hk
        simp only [hcol1]
        by_cases hkh : h = k
        · simp [hkh]
        · simp only [hkh, if_false]
          rcases List.mem_append.mp hk with h1 | h1
          · exact hent.2 k h1
          · simp only [List.mem_singleton] at h1
            exact absurd h1.symm hkh
    have hcount1 : whiteCount (st.color.set h Color.GRAY) ≤ fuel := by
      have := whiteCount_set_white st.color h Color.GRAY hwhite (by decide)
      omega
    obtain ⟨b, st2, hloop, hent2, hfalse, htrue⟩ :=
      dependsOnLoop_spec config fuel ih h node.dependsOn
        { color := st.color.set h Color.GRAY, path := st.path ++ [h],
          entered := st.entered ++ [h] } hinv1 hent1 (by simp)
        (fun k hk => ⟨node, hnode, hk⟩) hcount1
    unfold _depthFirstSearch
    simp only [hnode, hloop]
    cases b with
    | true => exact ⟨true, st2, rfl, hent2, fun hb => (by cases hb), fun _ => htrue rfl⟩
    | false =>
      obtain ⟨hinv2, hpath2, hmono2, hall2⟩ := hfalse rfl
      simp only at hpath2
      have hgray2 : st2.color.get? h = some Color.GRAY :=
        (hinv2.gray h).mpr (by rw [hpath2]; simp)
      have hcol3 : ∀ k, (st2.color.set h Color.BLACK).get? k =
          if h = k then some Color.BLACK else st2.color.get? k := fun k => Obj.get?_set _ _ _ _
      refine ⟨false, _, rfl, ?_, fun _ => ⟨?_, ?_, ?_, ?_⟩, fun hb => (by cases hb)⟩
      · -- entered
        refine ⟨hent2.1, fun k hk => ?_⟩
        simp only [hcol3]
        by_cases hkh : h = k
        · simp [hkh]
        · simp only [hkh, if_false]
          exact hent2.2 k hk
      · -- invariant
        refine ⟨?_, ?_, ?_, ?_, ?_⟩
        · intro k
          simp only [hcol3]
          by_cases hk : h = k
          · subst hk
            simp only [if_true, Option.isSome_some, true_iff]
            exact hinv.mem_keys_of_color hwhite
          · simp only [hk, if_false]
            exact hinv2.keys k
        · intro k
          simp only [hcol3, hpath2, List.dropLast_concat]
          by_cases hk : h = k
          · subst hk
            simp [hnotpath]
          · simp only [hk, if_false, hinv2.gray k, hpath2, List.mem_append, List.mem_singleton]
            constructor
            · rintro (h1 | h1)
              · exact h1
              · exact absurd h1.symm hk
            · exact Or.inl
        · simp only [hpath2, List.dropLast_concat]
          exact hinv.chain
        · simp only [hpath2, List.dropLast_concat]
          exact hinv.nodup
        · intro k hk
          simp only [hcol3] at hk
          by_cases hkh : h = k
          · subst hkh
            intro hcyc
            obtain ⟨n, hedge1, hrest⟩ := Relation.TransGen.head'_iff.mp hcyc
            obtain ⟨⟨node1, hnode1, hmem1⟩, hkeys1⟩ := hedge1
            rw [hnode] at hnode1
            cases hnode1
            have hnblack := hall2 n hmem1 hkeys1
            exact hinv2.black n hnblack
              (Relation.TransGen.tail' hrest ⟨⟨node, hnode, hmem1⟩, hkeys1⟩)
          · simp only [hkh, if_false] at hk
            exact hinv2.black k hk
      · simp only [hpath2, List.dropLast_concat]
      · -- colours advance
        refine ⟨?_, ?_, ?_⟩
        · intro k hk
          simp only [hcol3] at hk
          by_cases hkh : h = k
          · simp [hkh] at hk
          · simp only [hkh, if_false] at hk
            have := hmono2.white k hk
            simp only [hcol1, hkh, if_false] at this
            exact this
        · intro k hk
          simp only [hcol3]
          by_cases hkh : h = k
          · simp [hkh]
          · simp only [hkh, if_false]
            apply hmono2.black
            simp only [hcol1, hkh, if_false]
            exact hk
        · have h1 := whiteCount_set_other st2.color h Color.GRAY Color.BLACK hgray2
            (by decide) (by decide)
          have h2 := hmono2.count
          have h3 := whiteCount_set_white st.color h Color.GRAY hwhite (by decide)
          simp only at h2 ⊢
          omega
      · simp [hcol3]

theorem get?_foldl_set {V : Type} (c : V) (keys : List Hash) : ∀ (acc : Obj V) (k : Hash),
    Obj.get? (keys.foldl (fun acc key => Obj.set acc key c) acc) k =
      if k ∈ keys then some c else acc.get? k := by
  induction keys with
  | nil => intro acc k; simp
  | cons key rest ih =>
    intro acc k
    simp only [List.foldl_cons, ih, Obj.get?_set, List.mem_cons]
    by_cases h1 : k ∈ rest
    · simp [h1]
    · by_cases h2 : key = k
      · simp [h2]
      · have : ¬ k = key := fun e => h2 e.symm
        simp [h1, h2, this]

theorem length_set_le {V : Type} (o : Obj V) (k : Hash) (v : V) :
    (o.set k v).length ≤ o.length + 1 := by
  induction o with
  | nil => simp [Obj.set]
  | cons e rest ih =>
    obtain ⟨k', w⟩ := e
    simp only [Obj.set]
    split_ifs
    · simp
    · simp only [List.length_cons]; omega

theorem length_foldl_set_le {V : Type} (c : V) (keys : List Hash) : ∀ (acc : Obj V),
    (keys.foldl (fun acc key => Obj.set acc key c) acc).length ≤ acc.length + keys.length := by
  induction keys with
  | nil => intro acc; simp
  | cons key rest ih =>
    intro acc
    simp only [List.foldl_cons, List.length_cons]
    have h1 := ih (Obj.set acc key c)
    have h2 := length_set_le acc key c
    omega

theorem whiteCount_le_length (color : Obj Color) : whiteCount color ≤ color.length :=
  List.length_filter_le _ _

theorem everyKey_spec (config : Obj Component) (fuel : Nat) (ks : List Hash) :
    ∀ st, SearchInv config st → EnteredInv st → st.path = [] → (∀ k ∈ ks, k ∈ config.keys) →
      whiteCount st.color ≤ fuel →
      ∃ st1, everyKey config fuel ks st = some st1 ∧ EnteredInv st1 ∧
        ((SearchInv config st1 ∧ st1.path = [] ∧ ColorMono st st1 ∧
            ∀ k ∈ ks, st1.color.get? k = some Color.BLACK) ∨
          FoundCycle config st1) := by
  induction ks with
  | nil =>
    intro st hinv hent hpath _ _
    exact ⟨st, rfl, hent, Or.inl ⟨hinv, hpath, colorMono_refl st,
      fun k hk => absurd hk (List.not_mem_nil k)⟩⟩
  | cons key rest ih =>
    intro st hinv hent hpath hkeys hfuel
    have hkeysRest : ∀ k ∈ rest, k ∈ config.keys := fun k hk => hkeys k (List.mem_cons_of_mem _ hk)
    unfold everyKey
    by_cases hblack : st.color.get? key = some Color.BLACK
    · simp only [hblack, if_true]
      obtain ⟨st1, hrun, hent1, hres⟩ := ih st hinv hent hpath hkeysRest hfuel
      refine ⟨st1, hrun, hent1, hres.imp_left ?_⟩
      rintro ⟨hinv1, hpath1, hmono1, hall1⟩
      refine ⟨hinv1, hpath1, hmono1, fun k hk => ?_⟩
      rcases List.mem_cons.mp hk with rfl | hk'
      · exact hmono1.black _ hblack
      · exact hall1 k hk'
    · simp only [hblack, if_false]
      have hwhite : st.color.get? key = some Color.WHITE := by
        obtain ⟨c, hc⟩ := Option.isSome_iff_exists.mp
          ((hinv.keys key).mpr (hkeys key (List.mem_cons_self _ _)))
        cases c with
        | WHITE => exact hc
        | GRAY =>
          have := (hinv.gray key).mp hc
          rw [hpath] at this
          exact absurd this (List.not_mem_nil key)
        | BLACK => exact absurd hc hblack
      obtain ⟨b, st1, hcall, hent1, hfalse, htrue⟩ :=
        dfsSpec_all config fuel key st hinv hent hwhite hfuel (by simp [hpath])
      simp only [hcall]
      cases b with
      | true => exact ⟨st1, rfl, hent1, Or.inr (htrue rfl)⟩
      | false =>
        obtain ⟨hinv1, hpath1, hmono1, hblack1⟩ := hfalse rfl
        simp only
        obtain ⟨st2, hrun, hent2, hres⟩ :=
          ih st1 hinv1 hent1 (hpath1.trans hpath) hkeysRest (le_trans hmono1.count hfuel)
        refine ⟨st2, hrun, hent2, hres.imp_left ?_⟩
        rintro ⟨hinv2, hpath2, hmono2, hall2⟩
        refine ⟨hinv2, hpath2, colorMono_trans hmono1 hmono2, fun k hk => ?_⟩
        rcases List.mem_cons.mp hk with rfl | hk'
        · exact hmono2.black _ hblack1
        · exact hall2 k hk'

/-- The search of `_getDependencyCycle` returns, has entered no component twice, and ends
either with an empty path and every component black, or on a cycle. -/
theorem dependencySearch_spec (config : Obj Component) :
    ∃ st, dependencySearch config = some st ∧ st.entered.Nodup ∧
      ((st.path = [] ∧ ¬ HasCycle config) ∨ FoundCycle config st) := by
  have hcol : ∀ k, Obj.get? (config.keys.foldl (fun acc key => Obj.set acc key Color.WHITE) []) k =
      if k ∈ config.keys then some Color.WHITE else none := by
    intro k
    rw [get?_foldl_set]
    rfl
  have hinv : SearchInv config
      { color := config.keys.foldl (fun acc key => Obj.set acc key Color.WHITE) [],
        path := [] } := by
    refine ⟨?_, ?_, List.chain'_nil, List.nodup_nil, ?_⟩
    · intro k
      simp only [hcol]
      by_cases hk : k ∈ config.keys <;> simp [hk]
    · intro k
      simp only [hcol]
      by_cases hk : k ∈ config.keys <;> simp [hk]
    · intro k hk
      simp only [hcol] at hk
      by_cases hk' : k ∈ config.keys <;> simp [hk'] at hk
  have hent : EnteredInv
      { color := config.keys.foldl (fun acc key => Obj.set acc key Color.WHITE) [],
        path := [] } :=
    ⟨List.nodup_nil, fun k hk => absurd hk (List.not_mem_nil k)⟩
  have hfuel : whiteCount (config.keys.foldl (fun acc key => Obj.set acc key Color.WHITE) [])
      ≤ config.keys.length + 1 := by
    have h1 := whiteCount_le_length
      (config.keys.foldl (fun acc key => Obj.set acc key Color.WHITE) [])
    have h2 := length_foldl_set_le Color.WHITE config.keys []
    simp only [List.length_nil] at h2
    omega
  obtain ⟨st1, hrun, hent1, hres⟩ := everyKey_spec config (config.keys.length + 1) config.keys
    _ hinv hent rfl (fun k hk => hk) hfuel
  refine ⟨st1, hrun, hent1.1, hres.imp_left ?_⟩
  rintro ⟨hinv1, hpath1, _, hall1⟩
  refine ⟨hpath1, ?_⟩
  rintro ⟨a, ha⟩
  obtain ⟨n, ⟨⟨node, hnode, _⟩, _⟩, _⟩ := Relation.TransGen.head'_iff.mp ha
  exact hinv1.black a (hall1 a (Obj.get?_some_mem_keys hnode)) ha

theorem pathNames_some (config : Obj Component) (l : List Hash)
    (hl : ∀ x ∈ l, x ∈ config.keys) :
    ∃ names, pathNames config l = some names ∧ names.length = l.length := by
  induction l with
  | nil => exact ⟨[], rfl, rfl⟩
  | cons key rest ih =>
    obtain ⟨node, hnode⟩ := Obj.exists_get?_of_mem_keys (hl key (List.mem_cons_self _ _))
    obtain ⟨names, hnames, hlen⟩ := ih (fun x hx => hl x (List.mem_cons_of_mem _ hx))
    refine ⟨node.name :: names, ?_, by simp [hlen]⟩
    simp only [pathNames, hnode, hnames]

theorem findIdx_append_lt {α : Type} (P : α → Bool) (q : List α) :
    ∀ (p : List α), (∃ x ∈ p, P x = true) → List.findIdx P (p ++ q) < p.length := by
  intro p
  induction p with
  | nil => rintro ⟨x, hx, _⟩; exact absurd hx (List.not_mem_nil x)
  | cons a rest ih =>
    rintro ⟨x, hx, hP⟩
    simp only [List.cons_append, List.findIdx_cons, List.length_cons]
    by_cases ha : P a = true
    · simp [ha]
    · simp only [ha, cond_false, Bool.false_eq_true]
      rcases List.mem_cons.mp hx with rfl | hx'
      · exact absurd hP ha
      · have := ih ⟨x, hx', hP⟩
        omega

/-- On a cycle the report is not empty. -/
theorem cycleNames_of_foundCycle (config : Obj Component) (st : Search)
    (h : FoundCycle config st) :
    ∃ cycle, cycleNames config st.path = some cycle ∧ cycle ≠ [] := by
  obtain ⟨p, k, hpath, hk, _, _, hkeys⟩ := h
  have hall : ∀ x ∈ p ++ [k], x ∈ config.keys := by
    intro x hx
    rcases List.mem_append.mp hx with h1 | h1
    · exact hkeys x h1
    · simp only [List.mem_singleton] at h1
      exact h1 ▸ hkeys k hk
  obtain ⟨names, hnames, hlen⟩ := pathNames_some config (p ++ [k]) hall
  have hidx : List.findIdx (fun it => decide (some it = (p ++ [k]).getLast?)) (p ++ [k])
      < p.length :=
    findIdx_append_lt _ [k] p ⟨k, hk, by simp⟩
  refine ⟨names.drop
    (List.findIdx (fun it => decide (some it = (p ++ [k]).getLast?)) (p ++ [k]) + 1), ?_, ?_⟩
  · unfold cycleNames
    rw [hpath]
    simp only [List.length_append, List.length_singleton, ne_eq, Nat.add_one_ne_zero,
      not_false_eq_true, if_true, hnames, Option.map_some']
  · intro hnil
    have := congrArg List.length hnil
    simp only [List.length_drop, hlen, List.length_append, List.length_singleton,
      List.length_nil] at this
    omega

/-- C2. On every component map `_getDependencyCycle` returns; the sequence it returns is not
empty if and only if the `dependsOn` relation restricted to the components of the map has a
cycle (a component that depends on itself counts), so it is empty on an acyclic map; and no
component is entered by `_depthFirstSearch` more than once. -/
theorem getDependencyCycle_nonempty_iff_cycle (config : Obj Component) :
    ∃ st cycle, dependencySearch config = some st ∧ _getDependencyCycle config = some cycle ∧
      (cycle ≠ [] ↔ HasCycle config) ∧ (¬ HasCycle config → cycle = []) ∧
      st.entered.Nodup := by
  obtain ⟨st, hrun, hnodup, hres⟩ := dependencySearch_spec config
  rcases hres with ⟨hpath, hacyclic⟩ | hfound
  · refine ⟨st, [], hrun, ?_, ?_, fun _ => rfl, hnodup⟩
    · simp [_getDependencyCycle, hrun, hpath, cycleNames]
    · simp [hacyclic]
  · obtain ⟨cycle, hcycle, hne⟩ := cycleNames_of_foundCycle config st hfound
    refine ⟨st, cycle, hrun, ?_, ?_, fun hno => absurd hfound.hasCycle hno, hnodup⟩
    · simp [_getDependencyCycle, hrun, hcycle]
    · exact ⟨fun _ => hfound.hasCycle, fun _ => hne⟩

namespace Distributors

/-! ## Results, errors and settlement of the run -/

theorem sameRecords_refl (s : State) : SameRecords s s := ⟨rfl, rfl, rfl, rfl⟩

theorem sameRecords_trans {a b c : State} (h1 : SameRecords a b) (h2 : SameRecords b c) :
    SameRecords a c :=
  ⟨h2.errors.trans h1.errors, h2.results.trans h1.results,
    h2.projectConfig.trans h1.projectConfig, h2.threadsCount.trans h1.threadsCount⟩

theorem getDistributor_sameRecords (s s1 : State) (hash : Hash) (adapter : Adapter)
    (h : getDistributor s hash = .ok (s1, adapter)) :
    SameRecords s s1 ∧ s1.dependencyTable = s.dependencyTable ∧ s1.workCounter = s.workCounter := by
  unfold getDistributor at h
  cases hc : s.projectConfig.get? hash with
  | none => simp [hc] at h
  | some config =>
    simp only [hc] at h
    split_ifs at h <;> (cases h; exact ⟨⟨rfl, rfl, rfl, rfl⟩, rfl, rfl⟩)

theorem distributeLoop_sameRecords (hashes : List Hash) :
    ∀ (s : State) (done : List (Hash × Adapter)),
      SameRecords s (distributeLoop hashes s done).1 := by
  induction hashes with
  | nil => intro s done; exact sameRecords_refl s
  | cons hash rest ih =>
    intro s done
    unfold distributeLoop
    split_ifs with hlim
    · cases hget : s.dependencyTable.get? hash with
      | none => exact sameRecords_refl s
      | some dependsOn =>
        simp only
        split_ifs with hlen
        · cases hgd : getDistributor s hash with
          | error e => exact sameRecords_refl s
          | ok p =>
            obtain ⟨s1, adapter⟩ := p
            simp only
            obtain ⟨h1, _, _⟩ := getDistributor_sameRecords s s1 hash adapter hgd
            have h2 := ih
              { s1 with workCounter := s1.workCounter + 1,
                        dependencyTable := s1.dependencyTable.delete hash }
              (done ++ [(hash, adapter)])
            exact sameRecords_trans h1 ⟨h2.errors, h2.results, h2.projectConfig, h2.threadsCount⟩
        · exact ih s done
    · exact sameRecords_refl s

theorem lazyLoad_sameRecords (s : State) (env : PassEnv) :
    SameRecords s (_lazyLoadLambdaRequirements s env).1 := by
  unfold _lazyLoadLambdaRequirements
  dsimp only
  split_ifs <;> try exact ⟨rfl, rfl, rfl, rfl⟩
  cases env.account <;> exact ⟨rfl, rfl, rfl, rfl⟩

theorem distributeConfig_sameRecords (s : State) (env : PassEnv) :
    SameRecords s (distributeConfig s env).1 := by
  unfold distributeConfig
  have hl := lazyLoad_sameRecords s env
  rcases hlz : _lazyLoadLambdaRequirements s env with ⟨s1, b⟩
  rw [hlz] at hl
  cases b with
  | false => exact hl
  | true =>
    simp only
    have h2 := distributeLoop_sameRecords s1.dependencyTable.keys s1 []
    rcases hloop : distributeLoop s1.dependencyTable.keys s1 [] with ⟨s2, done, b2⟩
    rw [hloop] at h2
    cases b2 <;> exact sameRecords_trans hl h2

theorem exitCounters_sameRecords (s : State) (worker : String) :
    SameRecords s (exitCounters s worker) := by
  unfold exitCounters
  split_ifs <;> exact ⟨rfl, rfl, rfl, rfl⟩

theorem onExit_sameRecords (s : State) (code : Int) (worker : String) (env : PassEnv) :
    SameRecords s (onExit s code worker env).state := by
  unfold onExit
  dsimp only
  have h1 := exitCounters_sameRecords s worker
  split_ifs with hc
  · have h2 := distributeConfig_sameRecords (exitCounters s worker) env
    rcases hd : distributeConfig (exitCounters s worker) env with ⟨s3, done, b⟩
    rw [hd] at h2
    cases b <;> exact sameRecords_trans h1 h2
  · exact h1

/-- The errors recorded after a sequence of notifications are those recorded before it
followed by the messages of its error notifications. -/
theorem exec_errors (trace : List Notification) : ∀ (s : State),
    (exec s trace).errors = s.errors ++ errorMessages trace := by
  induction trace with
  | nil => intro s; simp [exec, errorMessages]
  | cons n rest ih =>
    intro s
    have hstep : exec s (n :: rest) = exec (handle s n).state rest := rfl
    rw [hstep, ih]
    cases n with
    | message data =>
      simp only [handle, onMessage, errorMessages]
      by_cases he : data.isError = true
      · simp [he]
      · simp [he]
    | exit code worker env =>
      simp only [handle, errorMessages]
      rw [(onExit_sameRecords s code worker env).errors]

theorem runActionsStart_records (cfg : Obj Component) (threads : Int)
    (direction : Option Direction) (env : PassEnv) (s0 : State) (first : List (Hash × Adapter))
    (hs : runActionsStart cfg threads direction env = .ok (s0, first)) :
    s0.errors = [] ∧ s0.results = [] ∧ s0.projectConfig = cfg ∧ s0.threadsCount = threads := by
  unfold runActionsStart at hs
  cases hT : buildDependencyTable cfg direction with
  | error e => simp [hT] at hs
  | ok T0 =>
    simp only [hT] at hs
    have h := distributeConfig_sameRecords
      { projectConfig := cfg, threadsCount := threads, dependencyTable := T0 } env
    rcases hd : distributeConfig
      { projectConfig := cfg, threadsCount := threads, dependencyTable := T0 } env
      with ⟨s1, done, b⟩
    rw [hd] at hs h
    simp only [Except.ok.injEq, Prod.mk.injEq] at hs
    obtain ⟨rfl, _⟩ := hs
    exact ⟨h.errors, h.results, h.projectConfig, h.threadsCount⟩

/-- C3 (failing input). Two components without backend tag and a thread limit of 1: the
first admission pass hands both to the local adapter, `_localWorkerCounter` staying 0, so two
local workers are outstanding under a limit of one. -/
theorem untagged_components_exceed_thread_limit :
    ∃ s0 first,
      runActionsStart
        [("a", { name := "A", dependsOn := [] }), ("b", { name := "B", dependsOn := [] })]
        1 (some Direction.FORWARD) {} = .ok (s0, first) ∧
      first = [("a", Adapter.LocalDistributor), ("b", Adapter.LocalDistributor)] ∧
      s0.threadsCount = 1 ∧ s0.localWorkerCounter = 0 ∧ s0.workCounter = 2 :=
  ⟨_, _, rfl, rfl, rfl, rfl, rfl⟩

/-- C4 (counterexample). Two success notifications with the same fingerprint and different
ids are both recorded: the result list holds two entries for the fingerprint `a`. -/
theorem results_two_entries_same_hash :
    ¬ (List.map Data.hash
        (exec { projectConfig := [], threadsCount := 1 }
          [Notification.message { isError := false, message := "", hash := "a", id := some 1 },
           Notification.message { isError := false, message := "", hash := "a", id := some 2 }]
        ).results).Nodup := by
  decide

theorem onMessage_results_ids_nodup (s : State) (data : Data)
    (h : (s.results.map Data.id).Nodup) :
    ((onMessage s data).state.results.map Data.id).Nodup := by
  unfold onMessage
  by_cases he : data.isError = true
  · simp only [he, if_true]
    exact h
  · simp only [he, Bool.false_eq_true, if_false]
    by_cases hany : s.results.any (fun it => it.id = data.id) = true
    · simp only [hany, if_true]
      exact h
    · simp only [hany, Bool.false_eq_true, if_false, List.map_append, List.map_cons,
        List.map_nil]
      refine List.Nodup.append h (List.nodup_singleton _) ?_
      simp only [List.disjoint_singleton, List.mem_map, not_exists, not_and]
      intro x hx hid
      apply hany
      simp only [List.any_eq_true, decide_eq_true_eq]
      exact ⟨x, hx, hid⟩

theorem exec_results_ids_nodup (trace : List Notification) : ∀ (s : State),
    (s.results.map Data.id).Nodup → ((exec s trace).results.map Data.id).Nodup := by
  induction trace with
  | nil => intro s h; exact h
  | cons n rest ih =>
    intro s h
    have hstep : exec s (n :: rest) = exec (handle s n).state rest := rfl
    rw [hstep]
    apply ih
    cases n with
    | message data => exact onMessage_results_ids_nodup s data h
    | exit code worker env =>
      simp only [handle]
      rw [(onExit_sameRecords s code worker env).results]
      exact h

/-- C4 (amended). For every sequence of notifications handled by `runActions`, the result
list never holds more than one entry with the same `id`: de-duplication is keyed by the `id`
of the notification, a missing `id` counting as one value. -/
theorem results_never_repeat_id (cfg : Obj Component) (threads : Int)
    (direction : Option Direction) (env : PassEnv) (s0 : State) (first : List (Hash × Adapter))
    (hs : runActionsStart cfg threads direction env = .ok (s0, first))
    (trace : List Notification) :
    ((exec s0 trace).results.map Data.id).Nodup := by
  apply exec_results_ids_nodup
  rw [(runActionsStart_records cfg threads direction env s0 first hs).2.1]
  exact List.nodup_nil

/-- Witness of C4 (amended): one component, two success notifications with the same id. -/
theorem results_never_repeat_id_witness :
    ((exec
        { projectConfig := [("a", { name := "A", dependsOn := [] })], threadsCount := 1,
          workCounter := 1, tempCreds := true, accountId := true }
        [Notification.message { isError := false, message := "", hash := "a", id := some 1 },
         Notification.message { isError := false, message := "", hash := "a", id := some 1 }]
      ).results.map Data.id).Nodup :=
  results_never_repeat_id [("a", { name := "A", dependsOn := [] })] 1 (some Direction.FORWARD) {}
    _ [("a", Adapter.LocalDistributor)] rfl _

theorem settleTests_workCounter (s : State) (v : Settle) (h : settleTests s = some v) :
    s.workCounter = 0 := by
  unfold settleTests at h
  split_ifs at h with h1 h2
  · exact h1.2.1
  · exact h2.2

theorem settleTests_reject (s : State) (errs : List String)
    (h : settleTests s = some (Settle.reject errs)) : errs = s.errors ∧ s.errors ≠ [] := by
  unfold settleTests at h
  split_ifs at h with h1 h2
  · cases h
  · cases h
    exact ⟨rfl, fun hnil => h2.1 (by simp [hnil])⟩

/-- A handler that settles the promise is the `exit` handler, and it applies the settling
tests to the state it leaves. -/
theorem handle_settle (s : State) (n : Notification) (v : Settle)
    (h : (handle s n).settle = some v) :
    (∃ code worker env, n = Notification.exit code worker env) ∧
      settleTests (handle s n).state = some v := by
  cases n with
  | message data =>
    simp only [handle, onMessage] at h
    split_ifs at h
  | exit code worker env =>
    refine ⟨⟨code, worker, env, rfl⟩, ?_⟩
    simp only [handle, onExit] at h ⊢
    split_ifs at h ⊢ with hc
    · rcases hd : distributeConfig (exitCounters s worker) env with ⟨s3, done, b⟩
      rw [hd] at h
      cases b
      · cases h
      · exact h
    · exact h

theorem handle_no_dispatch_of_errors (s : State) (n : Notification) (h : s.errors ≠ []) :
    (handle s n).dispatched = [] := by
  cases n with
  | message data =>
    simp only [handle, onMessage]
    split_ifs <;> rfl
  | exit code worker env =>
    simp only [handle, onExit]
    have hne : ¬ (code = 0 ∧ (exitCounters s worker).errors.length = 0) := by
      rintro ⟨_, hlen⟩
      rw [(exitCounters_sameRecords s worker).errors] at hlen
      exact h (List.length_eq_zero.mp hlen)
    simp only [hne, if_false]

/-- C5. Once an error notification has been recorded no later notification dispatches a
component, and the promise is settled only by an `exit` notification whose handler leaves
`_workCounter` at zero. -/
theorem no_dispatch_after_error_and_settle_when_drained (s0 : State) :
    (∀ pre data post n, data.isError = true →
        (handle (exec s0 (pre ++ Notification.message data :: post)) n).dispatched = []) ∧
    (∀ pre n v, (handle (exec s0 pre) n).settle = some v →
        (∃ code worker env, n = Notification.exit code worker env) ∧
          (handle (exec s0 pre) n).state.workCounter = 0) := by
  constructor
  · intro pre data post n he
    apply handle_no_dispatch_of_errors
    rw [exec_errors]
    intro hnil
    have hlen := congrArg List.length hnil
    have herr : ∀ (l : List Notification),
        0 < (errorMessages (l ++ Notification.message data :: post)).length := by
      intro l
      induction l with
      | nil => simp [errorMessages, he]
      | cons m rest ih =>
        cases m with
        | message d =>
          simp only [List.cons_append, errorMessages]
          split_ifs
          · simp
          · exact ih
        | exit c w e => simpa [errorMessages] using ih
    have := herr pre
    simp only [List.length_append, List.length_nil] at hlen
    omega
  · intro pre n v h
    obtain ⟨hexit, htests⟩ := handle_settle _ n v h
    exact ⟨hexit, settleTests_workCounter _ v htests⟩

/-- Witness of C5: after an error notification the next `exit` dispatches nothing, and the
`exit` of the last worker settles the promise with `_workCounter` at zero. -/
theorem no_dispatch_after_error_and_settle_when_drained_witness :
    (handle
        (exec { projectConfig := [("a", { name := "A", dependsOn := [] })], threadsCount := 1,
                dependencyTable := [("a", [])], workCounter := 1 }
          ([] ++ Notification.message { isError := true, message := "failed", hash := "b" } :: []))
        (Notification.exit 0 "local" {})).dispatched = [] ∧
    ((∃ code worker env, Notification.exit 0 "local" {} = Notification.exit code worker env) ∧
      (handle
        (exec { projectConfig := [("a", { name := "A", dependsOn := [] })], threadsCount := 1,
                dependencyTable := [], workCounter := 1 } [])
        (Notification.exit 0 "local" {})).state.workCounter = 0) :=
  ⟨(no_dispatch_after_error_and_settle_when_drained _).1 [] _ [] _ rfl,
   (no_dispatch_after_error_and_settle_when_drained _).2 [] _
     (Settle.resolve []) rfl⟩

/-- C6 (failing input). Two `lambda` components without dependencies; each remote worker
reports success and exits, its notifications built as the handler of `_lambdaSubscribe`
builds them (no `id`). Both are dispatched by the first pass, and the promise is resolved
with a result list that holds the entry of `a` only. -/
theorem lambda_results_lose_second_component :
    ∃ s0 first,
      runActionsStart
        [("a", { name := "A", dependsOn := [], distributor := some "lambda" }),
         ("b", { name := "B", dependsOn := [], distributor := some "lambda" })]
        1 (some Direction.FORWARD) {} = .ok (s0, first) ∧
      first = [("a", Adapter.AwsDistributor), ("b", Adapter.AwsDistributor)] ∧
      firstSettle s0
        [Notification.message { isError := false, message := "done", hash := "a" },
         Notification.exit 0 "lambda" {},
         Notification.message { isError := false, message := "done", hash := "b" },
         Notification.exit 0 "lambda" {}] =
        some (Settle.resolve [{ isError := false, message := "done", hash := "a" }]) :=
  ⟨_, _, rfl, rfl, rfl⟩

theorem firstSettle_some (trace : List Notification) : ∀ (s : State) (v : Settle),
    firstSettle s trace = some v →
    ∃ pre n post, trace = pre ++ n :: post ∧ (handle (exec s pre) n).settle = some v := by
  induction trace with
  | nil => intro s v h; simp [firstSettle] at h
  | cons n rest ih =>
    intro s v h
    unfold firstSettle at h
    cases hset : (handle s n).settle with
    | some w =>
      rw [hset] at h
      simp only [Option.some.injEq] at h
      subst h
      exact ⟨[], n, rest, rfl, hset⟩
    | none =>
      rw [hset] at h
      obtain ⟨pre, m, post, htrace, hm⟩ := ih _ v h
      exact ⟨n :: pre, m, post, by rw [htrace]; rfl, hm⟩

/-! ## The work counter and the rejection of an aborted run -/

theorem lazyLoad_workCounter (s : State) (env : PassEnv) :
    (_lazyLoadLambdaRequirements s env).1.workCounter = s.workCounter := by
  unfold _lazyLoadLambdaRequirements
  dsimp only
  split_ifs <;> try rfl
  cases env.account <;> rfl

theorem getDistributor_workCounter (s s1 : State) (hash : Hash) (adapter : Adapter)
    (h : getDistributor s hash = .ok (s1, adapter)) : s1.workCounter = s.workCounter := by
  unfold getDistributor at h
  cases hget : s.projectConfig.get? hash with
  | none => simp [hget] at h
  | some config =>
    simp only [hget] at h
    split_ifs at h <;>
      (simp only [Except.ok.injEq, Prod.mk.injEq] at h; obtain ⟨rfl, _⟩ := h; rfl)

theorem distributeLoop_workCounter (hashes : List Hash) :
    ∀ (s : State) (done : List (Hash × Adapter)),
      (distributeLoop hashes s done).1.workCounter + done.length =
        s.workCounter + (distributeLoop hashes s done).2.1.length := by
  induction hashes with
  | nil => intro s done; simp [distributeLoop]
  | cons hash rest ih =>
    intro s done
    unfold distributeLoop
    by_cases hlim : s.localWorkerCounter < s.threadsCount
    · simp only [hlim, if_true]
      cases hget : s.dependencyTable.get? hash with
      | none => simp
      | some dependsOn =>
        simp only
        by_cases hlen : dependsOn.length = 0
        · simp only [hlen, if_true]
          cases hd : getDistributor s hash with
          | error e => simp
          | ok r =>
            rcases r with ⟨s1, adapter⟩
            simp only
            have h1 := ih { s1 with workCounter := s1.workCounter + 1,
                                    dependencyTable := s1.dependencyTable.delete hash }
              (done ++ [(hash, adapter)])
            have h2 := getDistributor_workCounter s s1 hash adapter hd
            simp only [List.length_append, List.length_singleton, Nat.cast_add,
              Nat.cast_one] at h1
            omega
        · simp only [hlen, if_false]
          exact ih s done
    · simp only [hlim, if_false]

theorem distributeConfig_workCounter (s : State) (env : PassEnv) :
    (distributeConfig s env).1.workCounter =
      s.workCounter + (distributeConfig s env).2.1.length := by
  unfold distributeConfig
  have hl := lazyLoad_workCounter s env
  rcases hlz : _lazyLoadLambdaRequirements s env with ⟨s1, b⟩
  rw [hlz] at hl
  simp only at hl
  cases b with
  | false => simp [hl]
  | true =>
    simp only
    have h := distributeLoop_workCounter s1.dependencyTable.keys s1 []
    rcases hd : distributeLoop s1.dependencyTable.keys s1 [] with ⟨s2, done, b2⟩
    rw [hd] at h
    simp only [List.length_nil, Nat.cast_zero, add_zero] at h
    cases b2 <;> simp only <;> omega

theorem exitCounters_workCounter (s : State) (worker : String) :
    (exitCounters s worker).workCounter = s.workCounter - 1 := by
  unfold exitCounters
  split_ifs <;> rfl

theorem handle_workCounter (s : State) (n : Notification) :
    (handle s n).state.workCounter + exitCount [n] =
      s.workCounter + (handle s n).dispatched.length := by
  cases n with
  | message data =>
    simp only [handle, onMessage, exitCount]
    split_ifs <;> simp
  | exit code worker env =>
    have hc := exitCounters_workCounter s worker
    simp only [handle, onExit, exitCount]
    split_ifs
    · have h := distributeConfig_workCounter (exitCounters s worker) env
      rcases hd : distributeConfig (exitCounters s worker) env with ⟨s3, done, b⟩
      rw [hd] at h
      simp only at h
      cases b <;> simp only <;> push_cast <;> omega
    · simp only [List.length_nil]
      push_cast
      omega

theorem exec_workCounter (trace : List Notification) : ∀ (s : State),
    (exec s trace).workCounter + exitCount trace =
      s.workCounter + (dispatchedDuring s trace).length := by
  induction trace with
  | nil => intro s; simp [exec, exitCount, dispatchedDuring]
  | cons n rest ih =>
    intro s
    have hstep : exec s (n :: rest) = exec (handle s n).state rest := rfl
    have h1 := ih (handle s n).state
    have h2 := handle_workCounter s n
    have h3 : exitCount (n :: rest) = exitCount [n] + exitCount rest := by
      cases n <;> simp [exitCount, Nat.add_comm]
    rw [hstep, h3]
    simp only [dispatchedDuring, List.length_append]
    push_cast
    omega

theorem runActionsStart_workCounter (cfg : Obj Component) (threads : Int)
    (direction : Option Direction) (env : PassEnv) (s0 : State) (first : List (Hash × Adapter))
    (hs : runActionsStart cfg threads direction env = .ok (s0, first)) :
    s0.workCounter = first.length := by
  unfold runActionsStart at hs
  cases hT : buildDependencyTable cfg direction with
  | error e => simp [hT] at hs
  | ok T0 =>
    simp only [hT] at hs
    have h := distributeConfig_workCounter
      { projectConfig := cfg, threadsCount := threads, dependencyTable := T0 } env
    rcases hd : distributeConfig
      { projectConfig := cfg, threadsCount := threads, dependencyTable := T0 } env
      with ⟨s1, done, b⟩
    rw [hd] at hs h
    simp only [Except.ok.injEq, Prod.mk.injEq] at hs
    obtain ⟨rfl, rfl⟩ := hs
    simpa using h

theorem onExit_rejects (s : State) (code : Int) (worker : String) (env : PassEnv)
    (herr : s.errors ≠ []) (hwork : s.workCounter = 1) :
    (handle s (Notification.exit code worker env)).settle = some (Settle.reject s.errors) := by
  have he := (exitCounters_sameRecords s worker).errors
  have hc := exitCounters_workCounter s worker
  have hlen : (exitCounters s worker).errors.length ≠ 0 := by
    rw [he]
    exact fun h => herr (List.length_eq_zero.mp h)
  have hne : ¬ (code = 0 ∧ (exitCounters s worker).errors.length = 0) := fun h => hlen h.2
  have hzero : (exitCounters s worker).workCounter = 0 := by omega
  have hfirst : ¬ ((exitCounters s worker).dependencyTable.keys.length = 0 ∧
      (exitCounters s worker).workCounter = 0 ∧ (exitCounters s worker).errors.length = 0) :=
    fun h => hlen h.2.2
  show (onExit s code worker env).settle = _
  unfold onExit
  dsimp only
  rw [if_neg hne]
  show settleTests (exitCounters s worker) = _
  unfold settleTests
  rw [if_neg hfirst, if_pos ⟨hlen, hzero⟩, he]

theorem firstSettle_append (pre : List Notification) : ∀ (s : State) (rest : List Notification),
    firstSettle s pre = none →
    firstSettle s (pre ++ rest) = firstSettle (exec s pre) rest := by
  induction pre with
  | nil => intro s rest _; rfl
  | cons n tail ih =>
    intro s rest h
    unfold firstSettle at h
    cases hset : (handle s n).settle with
    | some w => rw [hset] at h; cases h
    | none =>
      rw [hset] at h
      have hstep : exec s (n :: tail) = exec (handle s n).state tail := rfl
      rw [hstep, ← ih _ rest h]
      simp only [List.cons_append, firstSettle, hset]
      rfl

/-- C7. A run in which an error was recorded rejects when its last outstanding worker exits:
the `exit` handler that finds as many `exit` notifications as components dispatched (it leaves
`_workCounter` at zero) rejects, whatever the table still holds, with the messages of all the
error notifications handled so far, in the order they arrived, and this settles the promise
when nothing settled it before. Conversely, whenever `runActions` rejects, it does so in the
handler of an `exit` notification and the value is that list, which is not empty. -/
theorem reject_carries_all_errors (cfg : Obj Component) (threads : Int)
    (direction : Option Direction) (env : PassEnv) (s0 : State) (first : List (Hash × Adapter))
    (hs : runActionsStart cfg threads direction env = .ok (s0, first)) :
    (∀ pre, (exec s0 pre).workCounter + exitCount pre =
        first.length + (dispatchedDuring s0 pre).length) ∧
    (∀ pre code worker env1,
      errorMessages pre ≠ [] →
      exitCount pre + 1 = first.length + (dispatchedDuring s0 pre).length →
      (handle (exec s0 pre) (Notification.exit code worker env1)).settle =
          some (Settle.reject (errorMessages pre)) ∧
        ∀ post, firstSettle s0 pre = none →
          firstSettle s0 (pre ++ Notification.exit code worker env1 :: post) =
            some (Settle.reject (errorMessages pre))) ∧
    (∀ trace errs, firstSettle s0 trace = some (Settle.reject errs) →
      ∃ pre n post, trace = pre ++ n :: post ∧
        (handle (exec s0 pre) n).settle = some (Settle.reject errs) ∧
        errs = errorMessages (pre ++ [n]) ∧ errs ≠ []) := by
  have hstart := runActionsStart_workCounter cfg threads direction env s0 first hs
  have herrors : ∀ pre, (exec s0 pre).errors = errorMessages pre := by
    intro pre
    rw [exec_errors, (runActionsStart_records cfg threads direction env s0 first hs).1]
    rfl
  have hcount : ∀ pre, (exec s0 pre).workCounter + exitCount pre =
      first.length + (dispatchedDuring s0 pre).length := by
    intro pre
    have := exec_workCounter pre s0
    omega
  refine ⟨hcount, ?_, ?_⟩
  · intro pre code worker env1 herr hlast
    have hwork : (exec s0 pre).workCounter = 1 := by
      have := hcount pre
      omega
    have hrej := onExit_rejects (exec s0 pre) code worker env1
      (by rw [herrors]; exact herr) hwork
    rw [herrors] at hrej
    refine ⟨hrej, ?_⟩
    intro post hnone
    rw [firstSettle_append pre s0 _ hnone]
    simp only [firstSettle, hrej]
  · intro trace errs hrej
    obtain ⟨pre, n, post, htrace, hn⟩ := firstSettle_some trace s0 _ hrej
    obtain ⟨⟨code, worker, env1, rfl⟩, htests⟩ := handle_settle _ n _ hn
    obtain ⟨herrs, hne⟩ := settleTests_reject _ errs htests
    have h1 : (handle (exec s0 pre) (Notification.exit code worker env1)).state.errors =
        (exec s0 pre).errors := (onExit_sameRecords _ code worker env1).errors
    have h3 : ∀ (l : List Notification),
        errorMessages (l ++ [Notification.exit code worker env1]) = errorMessages l := by
      intro l
      induction l with
      | nil => rfl
      | cons m rest ih =>
        cases m with
        | message d =>
          have ih1 : errorMessages (rest.append [Notification.exit code worker env1]) =
              errorMessages rest := ih
          simp only [List.cons_append, errorMessages]
          rw [ih1]
        | exit c w e => simpa [errorMessages] using ih
    refine ⟨pre, _, post, htrace, hn, ?_, ?_⟩
    · rw [herrs, h1, herrors, h3]
    · rw [herrs]; exact hne

/-- Witness of C7: `b` waits for `a`; the worker of `a` reports an error and exits, and the
promise is rejected with the message while `b` is still in the table. -/
theorem reject_carries_all_errors_witness :
    ∃ s0,
      runActionsStart
        [("a", { name := "A", dependsOn := [] }), ("b", { name := "B", dependsOn := ["a"] })]
        1 (some Direction.FORWARD) {} = .ok (s0, [("a", Adapter.LocalDistributor)]) ∧
      (exec s0 [Notification.message { isError := true, message := "boom", hash := "a" }]
        ).dependencyTable = [("b", ["a"])] ∧
      firstSettle s0
        [Notification.message { isError := true, message := "boom", hash := "a" },
         Notification.exit 1 "local" {}] = some (Settle.reject ["boom"]) :=
  ⟨_, rfl, rfl,
    ((reject_carries_all_errors
      [("a", { name := "A", dependsOn := [] }), ("b", { name := "B", dependsOn := ["a"] })]
      1 (some Direction.FORWARD) {} _ [("a", Adapter.LocalDistributor)] rfl).2.1
      [Notification.message { isError := true, message := "boom", hash := "a" }]
      1 "local" {} (by decide) (by decide)).2 [] rfl⟩

end Distributors

/-! ## Dependency issues -/

theorem Obj.has_iff_mem_keys {V : Type} (o : Obj V) (k : Hash) :
    o.has k = true ↔ k ∈ o.keys := by
  unfold Obj.has
  exact Obj.get?_isSome_iff o k

theorem pushDependencyIssues_eq (fullConfig : Obj ExtComponent) (node : Component)
    (ds : List Hash) : ∀ (issues : List String), (∀ d ∈ ds, d ∈ fullConfig.keys) →
      pushDependencyIssues fullConfig node ds issues =
        .ok (issues ++ ds.map (fun d => dependencyIssue node.name (displayName fullConfig d))) := by
  induction ds with
  | nil => intro issues _; simp [pushDependencyIssues]
  | cons d rest ih =>
    intro issues hall
    obtain ⟨full, hfull⟩ := Obj.exists_get?_of_mem_keys (hall d (List.mem_cons_self _ _))
    unfold pushDependencyIssues
    simp only [hfull]
    rw [ih _ (fun x hx => hall x (List.mem_cons_of_mem _ hx))]
    simp [displayName, hfull]

theorem filter_not_has (config : Obj Component) (ds : List Hash) :
    ds.filter (fun it => !config.has it) = ds.filter (fun d => d ∉ config.keys) := by
  apply List.filter_congr
  intro x _
  by_cases hx : x ∈ config.keys
  · simp [hx, (Obj.has_iff_mem_keys config x).mpr hx]
  · have : config.has x = false := by
      cases hh : config.has x with
      | false => rfl
      | true => exact absurd ((Obj.has_iff_mem_keys config x).mp hh) hx
    simp [hx, this]

theorem dependencyIssuesLoop_eq (fullConfig : Obj ExtComponent) (config : Obj Component)
    (hex : DependenciesExist fullConfig config) (ks : List Hash) :
    ∀ (issues : List String), (∀ k ∈ ks, k ∈ config.keys) →
      dependencyIssuesLoop fullConfig config ks issues =
        .ok (issues ++ (excludedDependencies config ks).map
          (fun p => dependencyIssue p.1 (displayName fullConfig p.2))) := by
  induction ks with
  | nil => intro issues _; simp [dependencyIssuesLoop, excludedDependencies]
  | cons k rest ih =>
    intro issues hall
    have hk := hall k (List.mem_cons_self _ _)
    obtain ⟨node, hnode⟩ := Obj.exists_get?_of_mem_keys hk
    unfold dependencyIssuesLoop excludedDependencies
    simp only [hnode]
    rw [filter_not_has, pushDependencyIssues_eq]
    · simp only
      rw [ih _ (fun x hx => hall x (List.mem_cons_of_mem _ hx))]
      simp [List.map_append, List.map_map, Function.comp]
    · intro d hd
      exact hex k hk node hnode d (List.mem_of_mem_filter hd)

theorem excludedDependencies_eq_nil (config : Obj Component) (ks : List Hash) :
    excludedDependencies config ks = [] ↔
      ∀ h ∈ ks, ∀ node ∈ config.get? h, ∀ d ∈ node.dependsOn, d ∈ config.keys := by
  induction ks with
  | nil => simp [excludedDependencies]
  | cons k rest ih =>
    simp only [excludedDependencies, List.append_eq_nil, ih, List.forall_mem_cons]
    apply and_congr_left'
    cases hget : config.get? k with
    | none => simp
    | some node =>
      simp only [List.map_eq_nil_iff, List.filter_eq_nil_iff, decide_eq_true_eq, not_not,
        Option.mem_def, Option.some.injEq, forall_eq']

/-- C10. For every full component set and every subset whose declared dependencies all
exist in the full set, `getDependencyIssues` returns exactly one issue for each pair of a
component of the subset and a fingerprint of its `dependsOn` outside the subset, in
component-iteration then declaration order, each message naming the component and the
display name of the dependency; hence the list is empty if and only if the subset is closed
under `dependsOn`. -/
theorem getDependencyIssues_lists_excluded_dependencies (fullConfig : Obj ExtComponent)
    (config : Obj Component) (hex : DependenciesExist fullConfig config) :
    getDependencyIssues fullConfig config = .ok (expectedDependencyIssues fullConfig config) ∧
    (expectedDependencyIssues fullConfig config = [] ↔ ClosedUnderDependsOn config) := by
  constructor
  · unfold getDependencyIssues expectedDependencyIssues
    rw [dependencyIssuesLoop_eq fullConfig config hex config.keys [] (fun k hk => hk)]
    simp
  · unfold expectedDependencyIssues ClosedUnderDependsOn
    rw [List.map_eq_nil_iff, excludedDependencies_eq_nil]

/-- Witness of C10: `y` depends on `x` and on `w`, which are left out of the subset. -/
theorem getDependencyIssues_lists_excluded_dependencies_witness :
    DependenciesExist
      [("w", { name := "W", dependsOn := [] }), ("x", { name := "X", dependsOn := [] }),
       ("y", { name := "Y", dependsOn := ["px", "pw"] })]
      [("y", { name := "Y", dependsOn := ["x", "w"] })] ∧
    getDependencyIssues
      [("w", { name := "W", dependsOn := [] }), ("x", { name := "X", dependsOn := [] }),
       ("y", { name := "Y", dependsOn := ["px", "pw"] })]
      [("y", { name := "Y", dependsOn := ["x", "w"] })] =
      .ok ["'Y' component depends on 'X' that is excluded from execution list",
           "'Y' component depends on 'W' that is excluded from execution list"] :=
  ⟨by decide,
   (getDependencyIssues_lists_excluded_dependencies _ _ (by decide)).1⟩

/-! ## Validation before the run -/

/-- The report of `_getDependencyCycle` on an acyclic and on a cyclic map. -/
theorem getDependencyCycle_cases (config : Obj Component) :
    (¬ HasCycle config ∧ _getDependencyCycle config = some []) ∨
    (HasCycle config ∧ ∃ cycle, _getDependencyCycle config = some cycle ∧ cycle ≠ []) := by
  obtain ⟨st, hrun, _, hres⟩ := dependencySearch_spec config
  rcases hres with ⟨hpath, hacyclic⟩ | hfound
  · left
    exact ⟨hacyclic, by simp [_getDependencyCycle, hrun, hpath, cycleNames]⟩
  · right
    obtain ⟨cycle, hcycle, hne⟩ := cycleNames_of_foundCycle config st hfound
    exact ⟨hfound.hasCycle, cycle, by simp [_getDependencyCycle, hrun, hcycle], hne⟩

theorem checkDependencyCycle_spec (config : Obj Component) :
    (HasCycle config → ∃ cycle, _getDependencyCycle config = some cycle ∧ cycle ≠ [] ∧
      _checkDependencyCycle config = .error (cycleError cycle)) ∧
    (¬ HasCycle config → _checkDependencyCycle config = .ok ()) := by
  rcases getDependencyCycle_cases config with ⟨hno, hrep⟩ | ⟨hyes, cycle, hrep, hne⟩
  · refine ⟨fun h => absurd h hno, fun _ => ?_⟩
    simp [_checkDependencyCycle, hrep]
  · refine ⟨fun _ => ⟨cycle, hrep, hne, ?_⟩, fun h => absurd hyes h⟩
    have hlen : cycle.length ≠ 0 := fun h => hne (List.length_eq_zero.mp h)
    simp only [_checkDependencyCycle, hrep, hlen, ne_eq, not_false_eq_true, if_true, cycleError]

theorem checkDependencies_outcome (toMd5 : String → Hash) (fullConfig : Obj ExtComponent)
    (config : Obj Component) (direction : Direction) (issues : List String)
    (h : collectIssues toMd5 fullConfig config direction = .ok issues) :
    CheckOutcome config issues (checkDependencies toMd5 fullConfig config direction) := by
  unfold checkDependencies
  simp only [h]
  constructor
  · intro hne
    have hlen : issues.length ≠ 0 := fun h => hne (List.length_eq_zero.mp h)
    simp only [hlen, ne_eq, not_false_eq_true, if_true]
  · intro hnil
    subst hnil
    simp only [List.length_nil, ne_eq, not_true_eq_false, if_false]
    exact checkDependencyCycle_spec config

/-- C9. `checkDependencies(config, direction)` fails with the numbered list exception
carrying exactly the forward issues when the direction is `FORWARD`, exactly the reverse
issues when it is `REVERSE`, and the forward issues followed by the reverse issues when it
is `BIDIRECTIONAL`, whenever that list is not empty; when the list is empty it runs the
cycle detection on the subset, failing with the cycle error if and only if the subset has a
cycle and succeeding otherwise. -/
theorem checkDependencies_issues_then_cycle (toMd5 : String → Hash)
    (fullConfig : Obj ExtComponent) (config : Obj Component) :
    (∀ forward, getDependencyIssues fullConfig config = .ok forward →
      CheckOutcome config forward
        (checkDependencies toMd5 fullConfig config Direction.FORWARD)) ∧
    (∀ reverse, getReverseDependencyIssues toMd5 fullConfig config = .ok reverse →
      CheckOutcome config reverse
        (checkDependencies toMd5 fullConfig config Direction.REVERSE)) ∧
    (∀ forward reverse, getDependencyIssues fullConfig config = .ok forward →
      getReverseDependencyIssues toMd5 fullConfig config = .ok reverse →
      CheckOutcome config (forward ++ reverse)
        (checkDependencies toMd5 fullConfig config Direction.BIDIRECTIONAL)) := by
  refine ⟨?_, ?_, ?_⟩
  · intro forward hf
    exact checkDependencies_outcome toMd5 fullConfig config Direction.FORWARD forward
      (by simp only [collectIssues, hf])
  · intro reverse hr
    exact checkDependencies_outcome toMd5 fullConfig config Direction.REVERSE reverse
      (by simp only [collectIssues, hr])
  · intro forward reverse hf hr
    exact checkDependencies_outcome toMd5 fullConfig config Direction.BIDIRECTIONAL
      (forward ++ reverse) (by simp only [collectIssues, hf, hr])

/-- Witness of C9: a bidirectional check of the subset `y` of `x`, `y`, `z`, where `y`
depends on `x` and `z` depends on `y`: one forward issue followed by one reverse issue. -/
theorem checkDependencies_issues_then_cycle_witness :
    CheckOutcome [("y", { name := "Y", dependsOn := ["x"] })]
      (["'Y' component depends on 'X' that is excluded from execution list"] ++
        ["'Z' component that depends on 'Y' components is excluded from the execution list"])
      (checkDependencies (fun path => path.drop 1)
        [("x", { name := "X", dependsOn := [] }), ("y", { name := "Y", dependsOn := ["px"] }),
         ("z", { name := "Z", dependsOn := ["py"] })]
        [("y", { name := "Y", dependsOn := ["x"] })] Direction.BIDIRECTIONAL) :=
  (checkDependencies_issues_then_cycle (fun path => path.drop 1)
    [("x", { name := "X", dependsOn := [] }), ("y", { name := "Y", dependsOn := ["px"] }),
     ("z", { name := "Z", dependsOn := ["py"] })]
    [("y", { name := "Y", dependsOn := ["x"] })]).2.2 _ _ rfl rfl

namespace RunCommand

/-- C8 (counterexample). With neither `apply` nor `destroy` set, `run` returns a run plan
for a subset in which `a` and `b` depend on each other. -/
theorem run_plans_cyclic_subset_without_flags :
    HasCycle [("a", { name := "A", dependsOn := ["b"] }),
              ("b", { name := "B", dependsOn := ["a"] })] ∧
    run (fun path => path)
      [("a", { name := "A", dependsOn := ["b"] }), ("b", { name := "B", dependsOn := ["a"] })]
      {} true
      [("a", { name := "A", dependsOn := ["b"] }), ("b", { name := "B", dependsOn := ["a"] })] =
      .ok (Result.plan
        [{ actions := ["prepare", "init", "workspaceSelect", "plan"],
           config := [("a", { name := "A", dependsOn := ["b"] }),
                      ("b", { name := "B", dependsOn := ["a"] })],
           dependencyDirection := Direction.FORWARD }]) := by
  refine ⟨?_, rfl⟩
  rcases getDependencyCycle_cases
      [("a", { name := "A", dependsOn := ["b"] }), ("b", { name := "B", dependsOn := ["a"] })]
    with ⟨_, hrep⟩ | ⟨hyes, _⟩
  · have hval : _getDependencyCycle
        [("a", { name := "A", dependsOn := ["b"] }), ("b", { name := "B", dependsOn := ["a"] })]
        = some ["B", "A"] := rfl
    rw [hval] at hrep
    cases hrep
  · exact hyes

/-- C8 (amended). When at least one of `apply` and `destroy` is set, `run` validates the
selected subset before it returns: a subset with a dependency cycle always makes `run` fail
and no run plan is produced; the failure is the numbered list of the dependency issues of
the selected direction when there are some, and the cycle report when there are none. -/
theorem run_fails_on_cycle_when_apply_or_destroy (toMd5 : String → Hash)
    (fullConfig : Obj ExtComponent) (o : Options) (answer : Bool) (config : Obj Component)
    (hflag : o.apply = true ∨ o.destroy = true) (hcycle : HasCycle config) :
    ∃ direction e, selectedDirection o = some direction ∧
      run toMd5 fullConfig o answer config = .error e ∧
      ∀ issues, collectIssues toMd5 fullConfig config direction = .ok issues →
        (issues ≠ [] → e = JsError.numberedList issuesTitle issues) ∧
        (issues = [] → ∃ cycle, _getDependencyCycle config = some cycle ∧ cycle ≠ [] ∧
          e = cycleError cycle) := by
  have hdir : ∃ direction, selectedDirection o = some direction := by
    unfold selectedDirection
    rcases hflag with h | h
    · cases hd : o.destroy <;> simp [h]
    · cases ha : o.apply <;> simp [h]
  obtain ⟨direction, hdir⟩ := hdir
  cases hcol : collectIssues toMd5 fullConfig config direction with
  | error e0 =>
    refine ⟨direction, e0, hdir, ?_, fun issues h => by rw [hcol] at h; cases h⟩
    simp [run, _checkDependencies, hdir, checkDependencies, hcol]
  | ok issues0 =>
    obtain ⟨hne, hnil⟩ := checkDependencies_outcome toMd5 fullConfig config direction issues0 hcol
    by_cases h0 : issues0 = []
    · obtain ⟨cycle, hrep, hcne, hres⟩ := (hnil h0).1 hcycle
      refine ⟨direction, cycleError cycle, hdir, ?_, ?_⟩
      · simp [run, _checkDependencies, hdir, hres]
      · intro issues h
        rw [hcol] at h
        cases h
        exact ⟨fun h1 => absurd h0 h1, fun _ => ⟨cycle, hrep, hcne, rfl⟩⟩
    · refine ⟨direction, JsError.numberedList issuesTitle issues0, hdir, ?_, ?_⟩
      · simp [run, _checkDependencies, hdir, hne h0]
      · intro issues h
        rw [hcol] at h
        cases h
        exact ⟨fun _ => rfl, fun h1 => absurd h1 h0⟩

/-- Witness of C8 (amended): `run --apply` on the subset in which `a` and `b` depend on each
other fails with the cycle report. -/
theorem run_fails_on_cycle_when_apply_or_destroy_witness :
    ∃ direction e, selectedDirection { apply := true } = some direction ∧
      run (fun path => path)
        [("a", { name := "A", dependsOn := ["b"] }), ("b", { name := "B", dependsOn := ["a"] })]
        { apply := true } true
        [("a", { name := "A", dependsOn := ["b"] }), ("b", { name := "B", dependsOn := ["a"] })]
        = .error e ∧
      ∀ issues, collectIssues (fun path => path)
          [("a", { name := "A", dependsOn := ["b"] }), ("b", { name := "B", dependsOn := ["a"] })]
          [("a", { name := "A", dependsOn := ["b"] }), ("b", { name := "B", dependsOn := ["a"] })]
          direction = .ok issues →
        (issues ≠ [] → e = JsError.numberedList issuesTitle issues) ∧
        (issues = [] → ∃ cycle,
          _getDependencyCycle
            [("a", { name := "A", dependsOn := ["b"] }),
             ("b", { name := "B", dependsOn := ["a"] })] = some cycle ∧ cycle ≠ [] ∧
          e = cycleError cycle) :=
  run_fails_on_cycle_when_apply_or_destroy (fun path => path)
    [("a", { name := "A", dependsOn := ["b"] }), ("b", { name := "B", dependsOn := ["a"] })]
    { apply := true } true
    [("a", { name := "A", dependsOn := ["b"] }), ("b", { name := "B", dependsOn := ["a"] })]
    (Or.inl rfl)
    (by
      rcases getDependencyCycle_cases
          [("a", { name := "A", dependsOn := ["b"] }),
           ("b", { name := "B", dependsOn := ["a"] })]
        with ⟨_, hrep⟩ | ⟨hyes, _⟩
      · have hval : _getDependencyCycle
            [("a", { name := "A", dependsOn := ["b"] }),
             ("b", { name := "B", dependsOn := ["a"] })] = some ["B", "A"] := rfl
        rw [hval] at hrep
        cases hrep
      · exact hyes)

end RunCommand

/-! ## Reverse dependency issues -/

theorem intercalateGo_length_le (s : String) (l : List String) : ∀ (acc : String),
    acc.length ≤ (String.intercalate.go acc s l).length := by
  induction l with
  | nil => intro acc; simp [String.intercalate.go]
  | cons a rest ih =>
    intro acc
    simp only [String.intercalate.go]
    have := ih (acc ++ s ++ a)
    simp only [String.length_append] at this
    omega

theorem plural_suffix :
    " component" ++ ("s" ++ " is excluded from the execution list") =
      " components is excluded from the execution list" := by
  decide

theorem quoted_length (x : String) : 2 ≤ ("'" ++ x ++ "'").length := by
  simp only [String.length_append]
  have : "'".length = 1 := by decide
  omega

theorem joined_length (names : List String) (h : ∀ n ∈ names, 2 ≤ n.length) :
    (names = [] → (", ".intercalate names).length = 0) ∧
    (names ≠ [] → 1 < (", ".intercalate names).length) := by
  cases names with
  | nil => exact ⟨fun _ => rfl, fun h => absurd rfl h⟩
  | cons a rest =>
    refine ⟨fun h => (by cases h), fun _ => ?_⟩
    have h1 := intercalateGo_length_le ", " rest a
    have h2 := h a (List.mem_cons_self _ _)
    simp only [String.intercalate]
    omega

theorem issueNodeNames_eq (fullConfig : Obj ExtComponent) (ds : List Hash)
    (h : ∀ d ∈ ds, d ∈ fullConfig.keys) :
    issueNodeNames fullConfig ds =
      .ok (ds.map (fun d => "'" ++ displayName fullConfig d ++ "'")) := by
  induction ds with
  | nil => rfl
  | cons d rest ih =>
    obtain ⟨full, hfull⟩ := Obj.exists_get?_of_mem_keys (h d (List.mem_cons_self _ _))
    unfold issueNodeNames
    rw [ih (fun x hx => h x (List.mem_cons_of_mem _ hx))]
    simp [hfull, displayName]

theorem reverseIssuesLoop_eq (toMd5 : String → Hash) (fullConfig : Obj ExtComponent)
    (config : Obj Component) (hsub : ∀ h ∈ config.keys, h ∈ fullConfig.keys)
    (ks : List Hash) : ∀ (issues : List String), (∀ k ∈ ks, k ∈ fullConfig.keys) →
      reverseIssuesLoop toMd5 fullConfig config ks issues =
        .ok (issues ++
          (ks.filter (fun hash => insideDependencies toMd5 fullConfig config hash ≠ [])).map
            (fun hash =>
              "'" ++ displayName fullConfig hash ++ "' component that depends on " ++
                ", ".intercalate
                  ((insideDependencies toMd5 fullConfig config hash).map
                    (fun d => "'" ++ displayName fullConfig d ++ "'")) ++
                " components is excluded from the execution list")) := by
  induction ks with
  | nil => intro issues _; simp [reverseIssuesLoop]
  | cons k rest ih =>
    intro issues hall
    obtain ⟨depNode, hnode⟩ := Obj.exists_get?_of_mem_keys (hall k (List.mem_cons_self _ _))
    have hrest := fun x hx => hall x (List.mem_cons_of_mem _ hx)
    have hfilter : (depNode.dependsOn.map toMd5).filter (fun it => config.has it) =
        insideDependencies toMd5 fullConfig config k := by
      simp only [insideDependencies, hnode]
      apply List.filter_congr
      intro x _
      by_cases hx : x ∈ config.keys
      · simp [hx, (Obj.has_iff_mem_keys config x).mpr hx]
      · have : config.has x = false := by
          cases hh : config.has x with
          | false => rfl
          | true => exact absurd ((Obj.has_iff_mem_keys config x).mp hh) hx
        simp [hx, this]
    have hnames := issueNodeNames_eq fullConfig (insideDependencies toMd5 fullConfig config k)
      (by
        intro d hd
        simp only [insideDependencies, hnode] at hd
        exact hsub d (by simpa using (List.mem_filter.mp hd).2))
    have hlen := joined_length
      ((insideDependencies toMd5 fullConfig config k).map
        (fun d => "'" ++ displayName fullConfig d ++ "'"))
      (by
        intro n hn
        obtain ⟨d, _, rfl⟩ := List.mem_map.mp hn
        exact quoted_length _)
    unfold reverseIssuesLoop
    simp only [hnode, hfilter, hnames]
    by_cases hin : insideDependencies toMd5 fullConfig config k = []
    · have h0 := hlen.1 (by simp [hin])
      simp only [h0, ne_eq, not_true_eq_false, if_false]
      rw [ih issues hrest]
      simp [List.filter_cons, hin]
    · have h1 := hlen.2 (by simpa using hin)
      have h0 : (", ".intercalate
          ((insideDependencies toMd5 fullConfig config k).map
            (fun d => "'" ++ displayName fullConfig d ++ "'"))).length ≠ 0 := by omega
      simp only [h0, ne_eq, not_false_eq_true, if_true]
      rw [ih _ hrest]
      have hdisp : displayName fullConfig k = depNode.name := by simp [displayName, hnode]
      have hmsg : reverseDependencyIssue depNode.name
          (", ".intercalate
            ((insideDependencies toMd5 fullConfig config k).map
              (fun d => "'" ++ displayName fullConfig d ++ "'"))) =
          "'" ++ displayName fullConfig k ++ "' component that depends on " ++
            ", ".intercalate
              ((insideDependencies toMd5 fullConfig config k).map
                (fun d => "'" ++ displayName fullConfig d ++ "'")) ++
            " components is excluded from the execution list" := by
        unfold reverseDependencyIssue
        rw [if_pos h1, hdisp]
        simp only [String.append_assoc, plural_suffix]
      rw [hmsg]
      simp [List.filter_cons, hin]

/-- C11. For every full component set and every subset of it, `getReverseDependencyIssues`
returns exactly one issue for each component of the full set, in key order, that lies
outside the subset and has at least one declared dependency inside the subset, the message
naming that component and exactly its dependencies inside the subset in declared order; a
component outside the subset without dependency inside it, and a component of the subset,
yield no issue. -/
theorem getReverseDependencyIssues_lists_orphaned_components (toMd5 : String → Hash)
    (fullConfig : Obj ExtComponent) (config : Obj Component)
    (hsub : ∀ h ∈ config.keys, h ∈ fullConfig.keys) :
    getReverseDependencyIssues toMd5 fullConfig config =
      .ok (expectedReverseIssues toMd5 fullConfig config) := by
  unfold getReverseDependencyIssues expectedReverseIssues
  rw [reverseIssuesLoop_eq toMd5 fullConfig config hsub _ []
    (fun k hk => List.mem_of_mem_filter hk)]
  simp only [List.nil_append, List.filter_filter]
  congr 2
  apply List.filter_congr
  intro x _
  by_cases hx : x ∈ config.keys
  · simp [hx, (Obj.has_iff_mem_keys config x).mpr hx]
  · have : config.has x = false := by
      cases hh : config.has x with
      | false => rfl
      | true => exact absurd ((Obj.has_iff_mem_keys config x).mp hh) hx
    simp [hx, this]

/-- Witness of C11: of `x`, `y`, `z`, `w` only `x` and `y` are selected; `z` depends on both,
`w` on neither. -/
theorem getReverseDependencyIssues_lists_orphaned_components_witness :
    getReverseDependencyIssues (fun path => path.drop 1)
      [("x", { name := "X", dependsOn := [] }), ("y", { name := "Y", dependsOn := ["px"] }),
       ("z", { name := "Z", dependsOn := ["py", "pw", "px"] }),
       ("w", { name := "W", dependsOn := [] })]
      [("x", { name := "X", dependsOn := [] }), ("y", { name := "Y", dependsOn := ["x"] })] =
      .ok ["'Z' component that depends on 'Y', 'X' components is excluded from the execution list"] :=
  getReverseDependencyIssues_lists_orphaned_components (fun path => path.drop 1) _ _
    (by decide)

/-! ## The report of a cycle -/

theorem pathNames_append (config : Obj Component) (a b : List Hash) (na nb : List String)
    (ha : pathNames config a = some na) (hb : pathNames config b = some nb) :
    pathNames config (a ++ b) = some (na ++ nb) := by
  induction a generalizing na with
  | nil =>
    simp only [pathNames, Option.some.injEq] at ha
    subst ha
    simpa using hb
  | cons x rest ih =>
    simp only [pathNames] at ha
    cases hx : config.get? x with
    | none => simp [hx] at ha
    | some node =>
      cases hr : pathNames config rest with
      | none => simp [hx, hr] at ha
      | some nr =>
        simp only [hx, hr, Option.some.injEq] at ha
        subst ha
        have hrec : pathNames config (rest.append b) = some (nr ++ nb) := ih nr hr
        simp only [List.cons_append, pathNames, hx, hrec]

theorem findIdx_first {α : Type} (P : α → Bool) (k : α) (rest : List α) (hk : P k = true) :
    ∀ (p1 : List α), (∀ x ∈ p1, P x = false) → List.findIdx P (p1 ++ k :: rest) = p1.length := by
  intro p1
  induction p1 with
  | nil => intro _; simp [List.findIdx_cons, hk]
  | cons a p ih =>
    intro h
    have ha := h a (List.mem_cons_self _ _)
    simp only [List.cons_append, List.findIdx_cons, ha, cond_false, List.length_cons]
    rw [ih (fun x hx => h x (List.mem_cons_of_mem _ hx))]

/-- The report on a cycle: the names of the path after the first occurrence of the repeated
component. -/
theorem cycleNames_after_first_occurrence (config : Obj Component) (st : Search)
    (h : FoundCycle config st) :
    ∃ p1 k p2 node cycle, st.path = p1 ++ k :: (p2 ++ [k]) ∧ k ∉ p1 ∧ k ∉ p2 ∧
      (p1 ++ k :: p2).Nodup ∧ config.get? k = some node ∧
      cycleNames config st.path = some cycle ∧ pathNames config (p2 ++ [k]) = some cycle ∧
      cycle.getLast? = some node.name := by
  obtain ⟨p, k, hpath, hk, hnodup, _, hkeys⟩ := h
  obtain ⟨p1, p2, rfl⟩ := List.append_of_mem hk
  have hk1 : k ∉ p1 := by
    intro hmem
    have := List.disjoint_of_nodup_append hnodup hmem
    exact this (List.mem_cons_self _ _)
  have hk2 : k ∉ p2 := by
    have := (List.nodup_append.mp hnodup).2.1
    exact (List.nodup_cons.mp this).1
  obtain ⟨node, hnode⟩ := Obj.exists_get?_of_mem_keys (hkeys k hk)
  obtain ⟨n1, hn1, hlen1⟩ := pathNames_some config p1
    (fun x hx => hkeys x (List.mem_append_left _ hx))
  obtain ⟨n2, hn2, _⟩ := pathNames_some config p2
    (fun x hx => hkeys x (List.mem_append_right _ (List.mem_cons_of_mem _ hx)))
  have hnk : pathNames config [k] = some [node.name] := by simp [pathNames, hnode]
  have hrest : pathNames config (p2 ++ [k]) = some (n2 ++ [node.name]) :=
    pathNames_append config p2 [k] n2 [node.name] hn2 hnk
  have hall : pathNames config (p1 ++ k :: (p2 ++ [k])) =
      some (n1 ++ node.name :: (n2 ++ [node.name])) := by
    have h1 : pathNames config (k :: (p2 ++ [k])) = some (node.name :: (n2 ++ [node.name])) := by
      simp only [pathNames, hnode, hrest]
    exact pathNames_append config p1 _ n1 _ hn1 h1
  have hpath1 : st.path = p1 ++ k :: (p2 ++ [k]) := by simpa using hpath
  have hlast : (p1 ++ k :: (p2 ++ [k])).getLast? = some k := by
    have : p1 ++ k :: (p2 ++ [k]) = (p1 ++ k :: p2) ++ [k] := by simp
    rw [this, List.getLast?_append]
    simp
  have hidx : List.findIdx (fun it => decide (some it = (p1 ++ k :: (p2 ++ [k])).getLast?))
      (p1 ++ k :: (p2 ++ [k])) = p1.length := by
    apply findIdx_first
    · simp [hlast]
    · intro x hx
      simp only [hlast, Option.some.injEq, decide_eq_false_iff_not]
      rintro rfl
      exact hk1 hx
  refine ⟨p1, k, p2, node, n2 ++ [node.name], hpath1, hk1, hk2, hnodup, hnode, ?_, hrest, by simp⟩
  have hlen0 : (p1 ++ k :: (p2 ++ [k])).length ≠ 0 := by simp
  unfold cycleNames
  rw [hpath1, if_pos hlen0]
  simp only [hidx, hall, Option.map_some', Option.some.injEq]
  rw [← hlen1]
  simp [List.drop_append]

/-- C12 (counterexample). `a` and `b` depend on each other: the search stops with the path
`a, b, a`, whose names from the first occurrence of the repeated component `a` are
`A, B, A`; the report is `B, A`, which does not begin with the name of `a`. -/
theorem cycle_report_omits_first_occurrence :
    (dependencySearch
      [("a", { name := "A", dependsOn := ["b"] }),
       ("b", { name := "B", dependsOn := ["a"] })]).map (fun st => st.path) =
      some ["a", "b", "a"] ∧
    pathNames
      [("a", { name := "A", dependsOn := ["b"] }), ("b", { name := "B", dependsOn := ["a"] })]
      ["a", "b", "a"] = some ["A", "B", "A"] ∧
    _getDependencyCycle
      [("a", { name := "A", dependsOn := ["b"] }), ("b", { name := "B", dependsOn := ["a"] })] =
      some ["B", "A"] := by
  decide

/-- C12 (amended). Whenever `_getDependencyCycle` finds a cycle, the search path is
`p1, k, p2, k` where the last component `k` is the repeated one and its first occurrence is
the one shown; the sequence returned is the display names of the part of the path after
that first occurrence, `p2, k`, in discovery order, so that it ends with the name of the
repeated component and names each component of the cycle once. -/
theorem cycle_report_is_path_after_first_occurrence (config : Obj Component)
    (cycle : List String) (hrep : _getDependencyCycle config = some cycle)
    (hne : cycle ≠ []) :
    ∃ st p1 k p2 node, dependencySearch config = some st ∧
      st.path = p1 ++ k :: (p2 ++ [k]) ∧ k ∉ p1 ∧ k ∉ p2 ∧ (p2 ++ [k]).Nodup ∧
      config.get? k = some node ∧
      pathNames config (p2 ++ [k]) = some cycle ∧ cycle.getLast? = some node.name := by
  obtain ⟨st, hrun, _, hres⟩ := dependencySearch_spec config
  rcases hres with ⟨hpath, _⟩ | hfound
  · simp [_getDependencyCycle, hrun, hpath, cycleNames] at hrep
    exact absurd hrep hne
  · obtain ⟨p1, k, p2, node, cycle1, hpath, hk1, hk2, hnodup, hnode, hnames, hsuffix, hlast⟩ :=
      cycleNames_after_first_occurrence config st hfound
    have hc : cycle1 = cycle := by
      simp only [_getDependencyCycle, hrun, hnames, Option.some.injEq] at hrep
      exact hrep
    subst hc
    refine ⟨st, p1, k, p2, node, hrun, hpath, hk1, hk2, ?_, hnode, hsuffix, hlast⟩
    have h2 : (k :: p2).Nodup := (List.nodup_append.mp hnodup).2.1
    have h3 := List.nodup_cons.mp h2
    exact List.Nodup.append h3.2 (List.nodup_singleton k)
      (by simp only [List.disjoint_singleton]; exact hk2)

/-- Witness of C12 (amended): `x` depends on `a`, and `a` and `b` depend on each other. -/
theorem cycle_report_is_path_after_first_occurrence_witness :
    ∃ st p1 k p2 node,
      dependencySearch
        [("x", { name := "X", dependsOn := ["a"] }), ("a", { name := "A", dependsOn := ["b"] }),
         ("b", { name := "B", dependsOn := ["a"] })] = some st ∧
      st.path = p1 ++ k :: (p2 ++ [k]) ∧ k ∉ p1 ∧ k ∉ p2 ∧ (p2 ++ [k]).Nodup ∧
      Obj.get?
        ([("x", { name := "X", dependsOn := ["a"] }), ("a", { name := "A", dependsOn := ["b"] }),
          ("b", { name := "B", dependsOn := ["a"] })] : Obj Component) k = some node ∧
      pathNames
        [("x", { name := "X", dependsOn := ["a"] }), ("a", { name := "A", dependsOn := ["b"] }),
         ("b", { name := "B", dependsOn := ["a"] })] (p2 ++ [k]) = some ["B", "A"] ∧
      ["B", "A"].getLast? = some node.name :=
  cycle_report_is_path_after_first_occurrence
    [("x", { name := "X", dependsOn := ["a"] }), ("a", { name := "A", dependsOn := ["b"] }),
     ("b", { name := "B", dependsOn := ["a"] })] ["B", "A"] (by decide) (by decide)

/-! ## The tables of the two orientations -/

theorem Obj.keys_set_of_get? {V : Type} (o : Obj V) (k : Hash) (v w : V)
    (h : o.get? k = some w) : (o.set k v).keys = o.keys := by
  induction o with
  | nil => simp [Obj.get?] at h
  | cons e rest ih =>
    obtain ⟨k', w'⟩ := e
    simp only [Obj.get?] at h
    simp only [Obj.set]
    by_cases hk : k' = k
    · simp [hk, Obj.keys]
    · simp only [hk, if_false] at h ⊢
      have := ih h
      simp only [Obj.keys, List.map_cons] at this ⊢
      rw [this]

theorem Obj.keys_set_nodup {V : Type} (o : Obj V) (k : Hash) (v : V) (h : o.keys.Nodup) :
    (o.set k v).keys.Nodup := by
  induction o with
  | nil => simp [Obj.set, Obj.keys]
  | cons e rest ih =>
    obtain ⟨k', w'⟩ := e
    simp only [Obj.keys, List.map_cons, List.nodup_cons] at h
    simp only [Obj.set]
    by_cases hk : k' = k
    · simp only [hk, if_true, Obj.keys, List.map_cons, List.nodup_cons]
      exact ⟨hk ▸ h.1, h.2⟩
    · simp only [hk, if_false, Obj.keys, List.map_cons, List.nodup_cons]
      refine ⟨?_, ih h.2⟩
      intro hmem
      rcases (Obj.keys_set rest k v k').mp hmem with h1 | h1
      · exact hk h1
      · exact h.1 h1

theorem emptyTable_keys_nodup (keys : List Hash) : ∀ (acc : DependencyTable),
    acc.keys.Nodup →
      (Obj.keys (keys.foldl (fun acc key => Obj.set acc key ([] : KeySet)) acc)).Nodup := by
  induction keys with
  | nil => intro acc h; exact h
  | cons k rest ih =>
    intro acc h
    simp only [List.foldl_cons]
    exact ih _ (Obj.keys_set_nodup acc k [] h)

theorem Obj.mem_iff_get? {V : Type} (o : Obj V) (hnodup : o.keys.Nodup) (k : Hash) (v : V) :
    (k, v) ∈ o ↔ o.get? k = some v := by
  induction o with
  | nil => simp [Obj.get?]
  | cons e rest ih =>
    obtain ⟨k', w'⟩ := e
    simp only [Obj.keys, List.map_cons, List.nodup_cons] at hnodup
    simp only [List.mem_cons, Prod.mk.injEq, Obj.get?]
    by_cases hk : k' = k
    · subst hk
      simp only [true_and, if_true, Option.some.injEq]
      constructor
      · rintro (h1 | h1)
        · exact h1.symm
        · exact absurd (List.mem_map_of_mem Prod.fst h1) hnodup.1
      · intro h1; exact Or.inl h1.symm
    · simp only [hk, if_false]
      rw [← ih hnodup.2]
      constructor
      · rintro (h1 | h1)
        · exact absurd h1.1.symm hk
        · exact h1
      · exact Or.inr

theorem KeySet.add_nodup (s : KeySet) (k : Hash) (h : s.Nodup) : (KeySet.add s k).Nodup := by
  unfold KeySet.add
  split_ifs with hk
  · exact h
  · exact List.Nodup.append h (List.nodup_singleton k)
      (by simp only [List.disjoint_singleton]; exact hk)

theorem KeySet.assign_nodup (t : KeySet) : ∀ (s : KeySet), s.Nodup →
    (KeySet.assign s t).Nodup := by
  induction t with
  | nil => intro s h; exact h
  | cons k rest ih =>
    intro s h
    exact ih _ (KeySet.add_nodup s k h)

/-- The `FORWARD` loop keeps the keys of the table, and adds to the waiting-set of each key
it visits exactly the declared dependencies of that component. -/
theorem buildForward_exact (cfg : Obj Component) (keys : List Hash) :
    ∀ (result T0 : DependencyTable), buildForward cfg keys result = .ok T0 →
      T0.keys = result.keys ∧
      ∀ h w1, T0.get? h = some w1 → ∃ w, result.get? h = some w ∧ (w.Nodup → w1.Nodup) ∧
        ∀ d, d ∈ w1 ↔ d ∈ w ∨ (h ∈ keys ∧ DependsOn cfg h d) := by
  induction keys with
  | nil =>
    intro result T0 hb
    simp only [buildForward, Except.ok.injEq] at hb
    subst hb
    exact ⟨rfl, fun h w1 hw => ⟨w1, hw, id, fun d => by simp⟩⟩
  | cons key rest ih =>
    intro result T0 hb
    unfold buildForward at hb
    cases hr : result.get? key with
    | none => simp [hr] at hb
    | some waiting =>
      cases hc : cfg.get? key with
      | none => simp [hr, hc] at hb
      | some node0 =>
        simp only [hr, hc] at hb
        obtain ⟨ih1, ih2⟩ := ih _ T0 hb
        refine ⟨ih1.trans (Obj.keys_set_of_get? result key _ waiting hr), ?_⟩
        intro h w1 hw1
        obtain ⟨w, hw, hnd, hmem⟩ := ih2 h w1 hw1
        rw [Obj.get?_set] at hw
        by_cases hk : key = h
        · subst hk
          simp only [if_true, Option.some.injEq] at hw
          subst hw
          refine ⟨waiting, hr, fun hn => hnd (KeySet.assign_nodup _ _ hn), fun d => ?_⟩
          rw [hmem, KeySet.mem_assign]
          constructor
          · rintro ((h1 | h1) | h1)
            · exact Or.inl h1
            · exact Or.inr ⟨List.mem_cons_self _ _, node0, hc, h1⟩
            · exact Or.inr ⟨List.mem_cons_of_mem _ h1.1, h1.2⟩
          · rintro (h1 | ⟨_, node, hnode, h1⟩)
            · exact Or.inl (Or.inl h1)
            · rw [hc] at hnode
              cases hnode
              exact Or.inl (Or.inr h1)
        · simp only [hk, if_false] at hw
          refine ⟨w, hw, hnd, fun d => ?_⟩
          rw [hmem]
          constructor
          · rintro (h1 | h1)
            · exact Or.inl h1
            · exact Or.inr ⟨List.mem_cons_of_mem _ h1.1, h1.2⟩
          · rintro (h1 | ⟨h1, h2⟩)
            · exact Or.inl h1
            · rcases List.mem_cons.mp h1 with h3 | h3
              · exact absurd h3.symm hk
              · exact Or.inr ⟨h3, h2⟩

/-- The inner `REVERSE` loop keeps the keys of the table, and adds `key` to the waiting-set
of exactly the fingerprints it visits. -/
theorem buildReverseInner_exact (key : Hash) (deps : List Hash) :
    ∀ (result R : DependencyTable), buildReverseInner key deps result = .ok R →
      R.keys = result.keys ∧
      ∀ h w1, R.get? h = some w1 → ∃ w, result.get? h = some w ∧ (w.Nodup → w1.Nodup) ∧
        ∀ c, c ∈ w1 ↔ c ∈ w ∨ (c = key ∧ h ∈ deps) := by
  induction deps with
  | nil =>
    intro result R hb
    simp only [buildReverseInner, Except.ok.injEq] at hb
    subst hb
    exact ⟨rfl, fun h w1 hw => ⟨w1, hw, id, fun d => by simp⟩⟩
  | cons hash rest ih =>
    intro result R hb
    unfold buildReverseInner at hb
    cases hr : result.get? hash with
    | none => simp [hr] at hb
    | some waiting =>
      simp only [hr] at hb
      obtain ⟨ih1, ih2⟩ := ih _ R hb
      refine ⟨ih1.trans (Obj.keys_set_of_get? result hash _ waiting hr), ?_⟩
      intro h w1 hw1
      obtain ⟨w, hw, hnd, hmem⟩ := ih2 h w1 hw1
      rw [Obj.get?_set] at hw
      by_cases hk : hash = h
      · subst hk
        simp only [if_true, Option.some.injEq] at hw
        subst hw
        refine ⟨waiting, hr, fun hn => hnd (KeySet.add_nodup _ _ hn), fun c => ?_⟩
        rw [hmem, KeySet.mem_add]
        constructor
        · rintro ((h1 | h1) | h1)
          · exact Or.inl h1
          · exact Or.inr ⟨h1, List.mem_cons_self _ _⟩
          · exact Or.inr ⟨h1.1, List.mem_cons_of_mem _ h1.2⟩
        · rintro (h1 | ⟨h1, _⟩)
          · exact Or.inl (Or.inl h1)
          · exact Or.inl (Or.inr h1)
      · simp only [hk, if_false] at hw
        refine ⟨w, hw, hnd, fun c => ?_⟩
        rw [hmem]
        constructor
        · rintro (h1 | h1)
          · exact Or.inl h1
          · exact Or.inr ⟨h1.1, List.mem_cons_of_mem _ h1.2⟩
        · rintro (h1 | ⟨h1, h2⟩)
          · exact Or.inl h1
          · rcases List.mem_cons.mp h2 with h3 | h3
            · exact absurd h3.symm hk
            · exact Or.inr ⟨h1, h3⟩

/-- The `REVERSE` loop keeps the keys of the table, and adds to the waiting-set of each
fingerprint exactly the components it visits that declare it. -/
theorem buildReverse_exact (cfg : Obj Component) (keys : List Hash) :
    ∀ (result T0 : DependencyTable), buildReverse cfg keys result = .ok T0 →
      T0.keys = result.keys ∧
      ∀ h w1, T0.get? h = some w1 → ∃ w, result.get? h = some w ∧ (w.Nodup → w1.Nodup) ∧
        ∀ c, c ∈ w1 ↔ c ∈ w ∨ (c ∈ keys ∧ DependsOn cfg c h) := by
  induction keys with
  | nil =>
    intro result T0 hb
    simp only [buildReverse, Except.ok.injEq] at hb
    subst hb
    exact ⟨rfl, fun h w1 hw => ⟨w1, hw, id, fun d => by simp⟩⟩
  | cons key rest ih =>
    intro result T0 hb
    unfold buildReverse at hb
    cases hc : cfg.get? key with
    | none => simp [hc] at hb
    | some node0 =>
      simp only [hc] at hb
      cases hin : buildReverseInner key node0.dependsOn result with
      | error e => simp [hin] at hb
      | ok R =>
        simp only [hin] at hb
        obtain ⟨in1, in2⟩ := buildReverseInner_exact key node0.dependsOn result R hin
        obtain ⟨ih1, ih2⟩ := ih R T0 hb
        refine ⟨ih1.trans in1, ?_⟩
        intro h w1 hw1
        obtain ⟨w2, hw2, hnd2, hmem2⟩ := ih2 h w1 hw1
        obtain ⟨w, hw, hnd, hmem⟩ := in2 h w2 hw2
        refine ⟨w, hw, fun hn => hnd2 (hnd hn), fun c => ?_⟩
        rw [hmem2, hmem]
        constructor
        · rintro ((h1 | ⟨h1, h2⟩) | ⟨h1, h2⟩)
          · exact Or.inl h1
          · exact Or.inr ⟨h1 ▸ List.mem_cons_self _ _, h1 ▸ ⟨node0, hc, h2⟩⟩
          · exact Or.inr ⟨List.mem_cons_of_mem _ h1, h2⟩
        · rintro (h1 | ⟨h1, h2⟩)
          · exact Or.inl (Or.inl h1)
          · rcases List.mem_cons.mp h1 with h3 | h3
            · subst h3
              obtain ⟨node, hnode, hd⟩ := h2
              rw [hc] at hnode
              cases hnode
              exact Or.inl (Or.inr ⟨rfl, hd⟩)
            · exact Or.inr ⟨h3, h2⟩

/-- The table before the branch on the direction: the keys of the map, without repetition,
each with an empty waiting-set. -/
theorem emptyTable_spec (cfg : Obj Component) :
    (Obj.keys (cfg.keys.foldl (fun acc key => Obj.set acc key ([] : KeySet)) [])).Nodup ∧
    (∀ h, h ∈ Obj.keys (cfg.keys.foldl (fun acc key => Obj.set acc key ([] : KeySet)) []) ↔
      h ∈ cfg.keys) ∧
    ∀ h w, Obj.get? (cfg.keys.foldl (fun acc key => Obj.set acc key ([] : KeySet)) []) h
      = some w → w = [] := by
  refine ⟨emptyTable_keys_nodup cfg.keys [] (by simp [Obj.keys]), ?_, ?_⟩
  · intro h
    rw [mem_keys_emptyTable]
    simp [Obj.keys]
  · intro h w hw
    rw [get?_foldl_set] at hw
    split_ifs at hw
    · cases hw; rfl
    · simp [Obj.get?] at hw

/-- The `FORWARD` table: it is built, its keys are the fingerprints of the map without
repetition, and the waiting-set of a component holds exactly its declared `dependsOn`. -/
theorem forwardTable_exact (cfg : Obj Component) :
    ∃ T0, buildForward cfg cfg.keys (cfg.keys.foldl (fun acc key => Obj.set acc key []) [])
        = .ok T0 ∧
      T0.keys.Nodup ∧ (∀ h, h ∈ T0.keys ↔ h ∈ cfg.keys) ∧
      (∀ h w, T0.get? h = some w → w.Nodup ∧ ∀ d, d ∈ w ↔ DependsOn cfg h d) := by
  obtain ⟨T0, hT, _⟩ := forwardTable_spec cfg
  obtain ⟨hk, hentries⟩ := buildForward_exact cfg cfg.keys _ T0 hT
  obtain ⟨e1, e2, e3⟩ := emptyTable_spec cfg
  refine ⟨T0, hT, hk ▸ e1, fun h => hk ▸ e2 h, ?_⟩
  intro h w hw
  obtain ⟨w0, hw0, hnd, hmem⟩ := hentries h w hw
  have hnil := e3 h w0 hw0
  subst hnil
  refine ⟨hnd List.nodup_nil, fun d => ?_⟩
  rw [hmem]
  constructor
  · rintro (h1 | h1)
    · exact absurd h1 (List.not_mem_nil d)
    · exact h1.2
  · rintro ⟨node, hnode, hd⟩
    exact Or.inr ⟨Obj.get?_some_mem_keys hnode, node, hnode, hd⟩

/-- The `REVERSE` table of a closed map: it is built, its keys are the fingerprints of the
map without repetition, and the waiting-set of a component holds exactly the components that
declare it. -/
theorem reverseTable_exact (cfg : Obj Component) (hclosed : ClosedUnderDependsOn cfg) :
    ∃ T0, buildReverse cfg cfg.keys (cfg.keys.foldl (fun acc key => Obj.set acc key []) [])
        = .ok T0 ∧
      T0.keys.Nodup ∧ (∀ h, h ∈ T0.keys ↔ h ∈ cfg.keys) ∧
      (∀ h w, T0.get? h = some w → w.Nodup ∧ ∀ c, c ∈ w ↔ DependsOn cfg c h) := by
  obtain ⟨T0, hT, _⟩ := reverseTable_spec cfg hclosed
  obtain ⟨hk, hentries⟩ := buildReverse_exact cfg cfg.keys _ T0 hT
  obtain ⟨e1, e2, e3⟩ := emptyTable_spec cfg
  refine ⟨T0, hT, hk ▸ e1, fun h => hk ▸ e2 h, ?_⟩
  intro h w hw
  obtain ⟨w0, hw0, hnd, hmem⟩ := hentries h w hw
  have hnil := e3 h w0 hw0
  subst hnil
  refine ⟨hnd List.nodup_nil, fun c => ?_⟩
  rw [hmem]
  constructor
  · rintro (h1 | h1)
    · exact absurd h1 (List.not_mem_nil c)
    · exact h1.2
  · rintro ⟨node, hnode, hd⟩
    exact Or.inr ⟨Obj.get?_some_mem_keys hnode, node, hnode, hd⟩

/-- C13. For every component map the `FORWARD` table is built, by `buildDependencyTable` and
by `_buildDependencyTable` alike; its keys are exactly the fingerprints of the components of
the map, each once, and the waiting-set of each component is exactly the set of the
fingerprints of its declared `dependsOn`. -/
theorem forward_table_is_dependsOn (cfg : Obj Component) :
    ∃ T0, Distributors.buildDependencyTable cfg (some Direction.FORWARD) = .ok T0 ∧
      ClusterDistributor._buildDependencyTable cfg (some Direction.FORWARD) = .ok T0 ∧
      T0.keys.Nodup ∧ (∀ h, h ∈ T0.keys ↔ h ∈ cfg.keys) ∧
      (∀ h node, cfg.get? h = some node →
        ∃ w, T0.get? h = some w ∧ w.Nodup ∧ ∀ d, d ∈ w ↔ d ∈ node.dependsOn) := by
  obtain ⟨T0, hT, hnodup, hkeys, hentries⟩ := forwardTable_exact cfg
  refine ⟨T0, hT, hT, hnodup, hkeys, ?_⟩
  intro h node hnode
  obtain ⟨w, hw⟩ := Obj.exists_get?_of_mem_keys
    ((hkeys h).mpr (Obj.get?_some_mem_keys hnode))
  obtain ⟨hnd, hmem⟩ := hentries h w hw
  refine ⟨w, hw, hnd, fun d => ?_⟩
  rw [hmem]
  constructor
  · rintro ⟨node1, hnode1, hd⟩
    rw [hnode] at hnode1
    cases hnode1
    exact hd
  · intro hd
    exact ⟨node, hnode, hd⟩

theorem length_tablePairs (t : DependencyTable) : (tablePairs t).length = edgeCount t := by
  induction t with
  | nil => rfl
  | cons e rest ih =>
    obtain ⟨k, w⟩ := e
    simp only [tablePairs, List.length_append, List.length_map, ih, edgeCount, List.map_cons,
      List.sum_cons]

theorem mem_tablePairs (t : DependencyTable) (k d : Hash) :
    (k, d) ∈ tablePairs t ↔ ∃ w, (k, w) ∈ t ∧ d ∈ w := by
  induction t with
  | nil => simp [tablePairs]
  | cons e rest ih =>
    obtain ⟨k', w'⟩ := e
    simp only [tablePairs, List.mem_append, List.mem_map, Prod.mk.injEq, ih, List.mem_cons]
    constructor
    · rintro (⟨x, hx, rfl, rfl⟩ | ⟨w, hw, hd⟩)
      · exact ⟨w', Or.inl ⟨rfl, rfl⟩, hx⟩
      · exact ⟨w, Or.inr hw, hd⟩
    · rintro ⟨w, (⟨rfl, rfl⟩ | hw), hd⟩
      · exact Or.inl ⟨d, hd, rfl, rfl⟩
      · exact Or.inr ⟨w, hw, hd⟩

theorem nodup_tablePairs (t : DependencyTable) (hk : t.keys.Nodup)
    (hw : ∀ e ∈ t, e.2.Nodup) : (tablePairs t).Nodup := by
  induction t with
  | nil => exact List.nodup_nil
  | cons e rest ih =>
    obtain ⟨k, w⟩ := e
    simp only [Obj.keys, List.map_cons, List.nodup_cons] at hk
    simp only [tablePairs]
    refine List.Nodup.append ?_ (ih hk.2 (fun e he => hw e (List.mem_cons_of_mem _ he))) ?_
    · refine List.Nodup.map ?_ (hw (k, w) (List.mem_cons_self _ _))
      intro a b hab
      simpa using hab
    · intro p hp hp2
      obtain ⟨x, _, rfl⟩ := List.mem_map.mp hp
      obtain ⟨w2, hw2, _⟩ := (mem_tablePairs rest k x).mp hp2
      exact hk.1 (List.mem_map_of_mem Prod.fst hw2)

/-- Two tables with keys and waiting-sets without repetition, such that each is the
transpose of the other, have the same number of edges. -/
theorem edgeCount_transpose (t1 t2 : DependencyTable) (hk1 : t1.keys.Nodup)
    (hk2 : t2.keys.Nodup) (hw1 : ∀ h w, t1.get? h = some w → w.Nodup)
    (hw2 : ∀ h w, t2.get? h = some w → w.Nodup)
    (htr : ∀ c d, (∃ w, t2.get? d = some w ∧ c ∈ w) ↔ (∃ w, t1.get? c = some w ∧ d ∈ w)) :
    edgeCount t2 = edgeCount t1 := by
  rw [← length_tablePairs, ← length_tablePairs]
  have hn1 : (tablePairs t1).Nodup := nodup_tablePairs t1 hk1
    (fun e he => hw1 e.1 e.2 ((Obj.mem_iff_get? t1 hk1 e.1 e.2).mp he))
  have hn2 : (tablePairs t2).Nodup := nodup_tablePairs t2 hk2
    (fun e he => hw2 e.1 e.2 ((Obj.mem_iff_get? t2 hk2 e.1 e.2).mp he))
  have hswap : ((tablePairs t1).map Prod.swap).Nodup :=
    List.Nodup.map Prod.swap_injective hn1
  have hperm : (tablePairs t2).Perm ((tablePairs t1).map Prod.swap) := by
    rw [List.perm_ext_iff_of_nodup hn2 hswap]
    rintro ⟨d, c⟩
    rw [mem_tablePairs]
    simp only [List.mem_map, Prod.exists, Prod.swap_prod_mk, Prod.mk.injEq]
    constructor
    · rintro ⟨w, hw, hc⟩
      obtain ⟨w', hw', hd⟩ := (htr c d).mp ⟨w, (Obj.mem_iff_get? t2 hk2 d w).mp hw, hc⟩
      exact ⟨c, d, (mem_tablePairs t1 c d).mpr
        ⟨w', (Obj.mem_iff_get? t1 hk1 c w').mpr hw', hd⟩, rfl, rfl⟩
    · rintro ⟨c', d', hmem, rfl, rfl⟩
      obtain ⟨w', hw', hd⟩ := (mem_tablePairs t1 _ _).mp hmem
      obtain ⟨w, hw, hc⟩ := (htr _ _).mpr ⟨w', (Obj.mem_iff_get? t1 hk1 _ w').mp hw', hd⟩
      exact ⟨w, (Obj.mem_iff_get? t2 hk2 _ w).mpr hw, hc⟩
  rw [hperm.length_eq, List.length_map]

/-- C14. For every component map in which every declared dependency is a key of the map,
both tables are built (by either builder), and the `REVERSE` table is the transpose of the
`FORWARD` table: the two have the same keys, the waiting-set of `d` in the `REVERSE` table
contains `c` if and only if the `dependsOn` of `c` contains `d`, which is when the
waiting-set of `c` in the `FORWARD` table contains `d`; and the two tables have the same
total number of edges. -/
theorem reverse_table_is_transpose (cfg : Obj Component) (hclosed : ClosedUnderDependsOn cfg) :
    ∃ TF TR, Distributors.buildDependencyTable cfg (some Direction.FORWARD) = .ok TF ∧
      Distributors.buildDependencyTable cfg (some Direction.REVERSE) = .ok TR ∧
      ClusterDistributor._buildDependencyTable cfg (some Direction.FORWARD) = .ok TF ∧
      ClusterDistributor._buildDependencyTable cfg (some Direction.REVERSE) = .ok TR ∧
      TR.keys = TF.keys ∧
      (∀ c d, (∃ w, TR.get? d = some w ∧ c ∈ w) ↔ DependsOn cfg c d) ∧
      (∀ c d, (∃ w, TR.get? d = some w ∧ c ∈ w) ↔ (∃ w, TF.get? c = some w ∧ d ∈ w)) ∧
      edgeCount TR = edgeCount TF := by
  obtain ⟨TF, hF, hFnodup, hFkeys, hFentries⟩ := forwardTable_exact cfg
  obtain ⟨TR, hR, hRnodup, hRkeys, hRentries⟩ := reverseTable_exact cfg hclosed
  have hkeysF := (buildForward_exact cfg cfg.keys _ TF hF).1
  have hkeysR := (buildReverse_exact cfg cfg.keys _ TR hR).1
  have hrev : ∀ c d, (∃ w, TR.get? d = some w ∧ c ∈ w) ↔ DependsOn cfg c d := by
    intro c d
    constructor
    · rintro ⟨w, hw, hc⟩
      exact ((hRentries d w hw).2 c).mp hc
    · intro hdep
      obtain ⟨node, hnode, hd⟩ := hdep
      have hdkey : d ∈ cfg.keys :=
        hclosed c (Obj.get?_some_mem_keys hnode) node hnode d hd
      obtain ⟨w, hw⟩ := Obj.exists_get?_of_mem_keys ((hRkeys d).mpr hdkey)
      exact ⟨w, hw, ((hRentries d w hw).2 c).mpr ⟨node, hnode, hd⟩⟩
  have hfwd : ∀ c d, (∃ w, TF.get? c = some w ∧ d ∈ w) ↔ DependsOn cfg c d := by
    intro c d
    constructor
    · rintro ⟨w, hw, hd⟩
      exact ((hFentries c w hw).2 d).mp hd
    · intro hdep
      obtain ⟨node, hnode, hd⟩ := hdep
      obtain ⟨w, hw⟩ := Obj.exists_get?_of_mem_keys
        ((hFkeys c).mpr (Obj.get?_some_mem_keys hnode))
      exact ⟨w, hw, ((hFentries c w hw).2 d).mpr ⟨node, hnode, hd⟩⟩
  have htr : ∀ c d, (∃ w, TR.get? d = some w ∧ c ∈ w) ↔ (∃ w, TF.get? c = some w ∧ d ∈ w) :=
    fun c d => (hrev c d).trans (hfwd c d).symm
  refine ⟨TF, TR, hF, hR, hF, hR, hkeysR.trans hkeysF.symm, hrev, htr, ?_⟩
  exact edgeCount_transpose TF TR hFnodup hRnodup (fun h w hw => (hFentries h w hw).1)
    (fun h w hw => (hRentries h w hw).1) htr

/-- Witness of C14: `y` and `z` depend on `x`, `z` also on `y`. -/
theorem reverse_table_is_transpose_witness :
    ∃ TF TR,
      Distributors.buildDependencyTable
        [("x", { name := "X", dependsOn := [] }), ("y", { name := "Y", dependsOn := ["x"] }),
         ("z", { name := "Z", dependsOn := ["x", "y"] })] (some Direction.FORWARD) = .ok TF ∧
      Distributors.buildDependencyTable
        [("x", { name := "X", dependsOn := [] }), ("y", { name := "Y", dependsOn := ["x"] }),
         ("z", { name := "Z", dependsOn := ["x", "y"] })] (some Direction.REVERSE) = .ok TR ∧
      ClusterDistributor._buildDependencyTable
        [("x", { name := "X", dependsOn := [] }), ("y", { name := "Y", dependsOn := ["x"] }),
         ("z", { name := "Z", dependsOn := ["x", "y"] })] (some Direction.FORWARD) = .ok TF ∧
      ClusterDistributor._buildDependencyTable
        [("x", { name := "X", dependsOn := [] }), ("y", { name := "Y", dependsOn := ["x"] }),
         ("z", { name := "Z", dependsOn := ["x", "y"] })] (some Direction.REVERSE) = .ok TR ∧
      TR.keys = TF.keys ∧
      (∀ c d, (∃ w, TR.get? d = some w ∧ c ∈ w) ↔
        DependsOn
          [("x", { name := "X", dependsOn := [] }), ("y", { name := "Y", dependsOn := ["x"] }),
           ("z", { name := "Z", dependsOn := ["x", "y"] })] c d) ∧
      (∀ c d, (∃ w, TR.get? d = some w ∧ c ∈ w) ↔ (∃ w, TF.get? c = some w ∧ d ∈ w)) ∧
      edgeCount TR = edgeCount TF :=
  reverse_table_is_transpose
    [("x", { name := "X", dependsOn := [] }), ("y", { name := "Y", dependsOn := ["x"] }),
     ("z", { name := "Z", dependsOn := ["x", "y"] })] (by decide)

theorem buildReverseInner_error (key : Hash) (deps : List Hash) :
    ∀ (result : DependencyTable) (e : JsError),
      buildReverseInner key deps result = .error e → e = JsError.typeError := by
  induction deps with
  | nil => intro result e h; simp [buildReverseInner] at h
  | cons hash rest ih =>
    intro result e h
    unfold buildReverseInner at h
    cases hr : result.get? hash with
    | none =>
      simp only [hr, Except.error.injEq] at h
      exact h.symm
    | some waiting =>
      simp only [hr] at h
      exact ih _ e h

theorem buildReverse_error (cfg : Obj Component) (keys : List Hash) :
    ∀ (result : DependencyTable) (e : JsError),
      buildReverse cfg keys result = .error e → e = JsError.typeError := by
  induction keys with
  | nil => intro result e h; simp [buildReverse] at h
  | cons key rest ih =>
    intro result e h
    unfold buildReverse at h
    cases hc : cfg.get? key with
    | none =>
      simp only [hc, Except.error.injEq] at h
      exact h.symm
    | some node =>
      simp only [hc] at h
      cases hin : buildReverseInner key node.dependsOn result with
      | error e1 =>
        simp only [hin, Except.error.injEq] at h
        subst h
        exact buildReverseInner_error key node.dependsOn result e1 hin
      | ok R =>
        simp only [hin] at h
        exact ih R e h

/-- A `REVERSE` table is only returned for a closed map. -/
theorem closed_of_buildReverse_ok (cfg : Obj Component) (T0 : DependencyTable)
    (h : buildReverse cfg cfg.keys (cfg.keys.foldl (fun acc key => Obj.set acc key []) [])
      = .ok T0) : ClosedUnderDependsOn cfg := by
  intro k hk node hnode d hd
  obtain ⟨w, hw, _⟩ := (buildReverse_spec cfg cfg.keys _ T0 h).2 k hk node hnode d hd
  have h1 := Obj.get?_some_mem_keys hw
  rw [(buildReverse_exact cfg cfg.keys _ T0 h).1] at h1
  exact ((emptyTable_spec cfg).2.1 d).mp h1

/-- C15 (counterexample). The component `a` declares the dependency `zz`, which is not a
component of the map: for the `FORWARD` orientation both builders return a table, and the
waiting-set of `a` holds `zz`. -/
theorem forward_table_keeps_unknown_dependency :
    Distributors.buildDependencyTable [("a", { name := "A", dependsOn := ["zz"] })]
      (some Direction.FORWARD) = .ok [("a", ["zz"])] ∧
    ClusterDistributor._buildDependencyTable [("a", { name := "A", dependsOn := ["zz"] })]
      (some Direction.FORWARD) = .ok [("a", ["zz"])] :=
  ⟨rfl, rfl⟩

/-- C15 (amended). Only the `REVERSE` orientation checks the references: building the
`REVERSE` table fails, with a `TypeError`, whenever some component of the map declares a
dependency fingerprint that is not a key of the map, and a `REVERSE` table that is returned
has only keys of the map as keys and as members of its waiting-sets. For the `FORWARD`
orientation the table is always returned, with the declared fingerprints as they are; for
the other orientations the table is always returned, without edges. -/
theorem reverse_table_fails_on_unknown_dependency (cfg : Obj Component) :
    (¬ ClosedUnderDependsOn cfg →
      Distributors.buildDependencyTable cfg (some Direction.REVERSE)
        = .error JsError.typeError ∧
      ClusterDistributor._buildDependencyTable cfg (some Direction.REVERSE)
        = .error JsError.typeError) ∧
    (∀ T0, Distributors.buildDependencyTable cfg (some Direction.REVERSE) = .ok T0 →
      ∀ h w, T0.get? h = some w → h ∈ cfg.keys ∧ ∀ c ∈ w, c ∈ cfg.keys) ∧
    (∃ T0, Distributors.buildDependencyTable cfg (some Direction.FORWARD) = .ok T0 ∧
      ClusterDistributor._buildDependencyTable cfg (some Direction.FORWARD) = .ok T0 ∧
      ∀ h node, cfg.get? h = some node → ∃ w, T0.get? h = some w ∧
        ∀ d, d ∈ w ↔ d ∈ node.dependsOn) ∧
    (∀ direction, direction ≠ some Direction.FORWARD → direction ≠ some Direction.REVERSE →
      ∃ T0, Distributors.buildDependencyTable cfg direction = .ok T0 ∧
        ClusterDistributor._buildDependencyTable cfg direction = .ok T0 ∧
        edgeCount T0 = 0) := by
  refine ⟨?_, ?_, ?_, ?_⟩
  · intro hnot
    have key : buildReverse cfg cfg.keys
        (cfg.keys.foldl (fun acc key => Obj.set acc key []) []) = .error JsError.typeError := by
      cases hb : buildReverse cfg cfg.keys
          (cfg.keys.foldl (fun acc key => Obj.set acc key []) []) with
      | error e => rw [buildReverse_error cfg cfg.keys _ e hb]
      | ok T0 => exact absurd (closed_of_buildReverse_ok cfg T0 hb) hnot
    exact ⟨key, key⟩
  · intro T0 hT h w hw
    have hT1 : buildReverse cfg cfg.keys
        (cfg.keys.foldl (fun acc key => Obj.set acc key []) []) = .ok T0 := hT
    obtain ⟨hk, hentries⟩ := buildReverse_exact cfg cfg.keys _ T0 hT1
    obtain ⟨_, e2, e3⟩ := emptyTable_spec cfg
    have hmem := Obj.get?_some_mem_keys hw
    rw [hk] at hmem
    refine ⟨(e2 h).mp hmem, fun c hc => ?_⟩
    obtain ⟨w0, hw0, _, hiff⟩ := hentries h w hw
    have hnil := e3 h w0 hw0
    subst hnil
    rcases (hiff c).mp hc with h1 | h1
    · exact absurd h1 (List.not_mem_nil c)
    · exact h1.1
  · obtain ⟨T0, hT, _, hkeys, hentries⟩ := forwardTable_exact cfg
    refine ⟨T0, hT, hT, ?_⟩
    intro h node hnode
    obtain ⟨w, hw⟩ := Obj.exists_get?_of_mem_keys
      ((hkeys h).mpr (Obj.get?_some_mem_keys hnode))
    refine ⟨w, hw, fun d => ?_⟩
    rw [(hentries h w hw).2]
    constructor
    · rintro ⟨node1, hnode1, hd⟩
      rw [hnode] at hnode1
      cases hnode1
      exact hd
    · intro hd
      exact ⟨node, hnode, hd⟩
  · intro direction h1 h2
    have hbuild : Distributors.buildDependencyTable cfg direction =
        .ok (cfg.keys.foldl (fun acc key => Obj.set acc key []) []) := by
      unfold Distributors.buildDependencyTable
      rcases direction with _ | d
      · rfl
      · cases d
        · exact absurd rfl h1
        · exact absurd rfl h2
        · rfl
    refine ⟨_, hbuild, hbuild, ?_⟩
    have hall : ∀ e ∈ (cfg.keys.foldl (fun acc key => Obj.set acc key ([] : KeySet)) []),
        e.2.length = 0 := by
      intro e he
      have hw := (Obj.mem_iff_get? _ (emptyTable_spec cfg).1 e.1 e.2).mp he
      rw [(emptyTable_spec cfg).2.2 e.1 e.2 hw]
      rfl
    unfold edgeCount
    apply List.sum_eq_zero
    intro x hx
    obtain ⟨e, he, rfl⟩ := List.mem_map.mp hx
    exact hall e he

/-- Witness of C15 (amended): the component `a` declares the dependency `zz`, which is not a
component of the map. -/
theorem reverse_table_fails_on_unknown_dependency_witness :
    Distributors.buildDependencyTable [("a", { name := "A", dependsOn := ["zz"] })]
      (some Direction.REVERSE) = .error JsError.typeError ∧
    ClusterDistributor._buildDependencyTable [("a", { name := "A", dependsOn := ["zz"] })]
      (some Direction.REVERSE) = .error JsError.typeError :=
  (reverse_table_fails_on_unknown_dependency
    [("a", { name := "A", dependsOn := ["zz"] })]).1 (by decide)

/-! ## The table only shrinks -/

theorem tableShrinks_refl (t : DependencyTable) : TableShrinks t t :=
  ⟨fun _ h => h, fun _ w1 h => ⟨w1, h, fun _ hd => hd⟩, le_refl _⟩

theorem tableShrinks_trans {a b c : DependencyTable} (h1 : TableShrinks a b)
    (h2 : TableShrinks b c) : TableShrinks a c := by
  refine ⟨fun h hh => h1.keys h (h2.keys h hh), ?_, le_trans h2.count h1.count⟩
  intro h w2 hw2
  obtain ⟨w1, hw1, hsub1⟩ := h2.sets h w2 hw2
  obtain ⟨w, hw, hsub⟩ := h1.sets h w1 hw1
  exact ⟨w, hw, fun d hd => hsub d (hsub1 d hd)⟩

theorem tableShrinks_nil (t : DependencyTable) : TableShrinks t [] :=
  ⟨fun h hh => absurd hh (List.not_mem_nil h), fun h w1 hw => by simp [Obj.get?] at hw,
    Nat.zero_le _⟩

theorem sum_lengths_filter_le {α : Type} (f : α → Nat) (p : α → Bool) (l : List α) :
    ((l.filter p).map f).sum ≤ (l.map f).sum := by
  induction l with
  | nil => exact le_refl _
  | cons e rest ih =>
    simp only [List.filter_cons]
    split_ifs
    · simp only [List.map_cons, List.sum_cons]; omega
    · simp only [List.map_cons, List.sum_cons]; omega

theorem edgeCount_delete_le (t : DependencyTable) (k : Hash) :
    edgeCount (t.delete k) ≤ edgeCount t :=
  sum_lengths_filter_le _ _ t

theorem tableShrinks_delete (t : DependencyTable) (k : Hash) : TableShrinks t (t.delete k) := by
  refine ⟨?_, ?_, edgeCount_delete_le t k⟩
  · intro h hh
    simp only [Obj.keys, Obj.delete, List.mem_map] at hh ⊢
    obtain ⟨e, he, rfl⟩ := hh
    exact ⟨e, List.mem_of_mem_filter he, rfl⟩
  · intro h w1 hw
    rw [Obj.get?_delete] at hw
    split_ifs at hw
    exact ⟨w1, hw, fun _ hd => hd⟩

theorem edgeCount_remove_le (t : DependencyTable) (hash : Hash) :
    edgeCount (t.map (fun e => (e.1, KeySet.remove e.2 hash))) ≤ edgeCount t := by
  induction t with
  | nil => exact le_refl _
  | cons e rest ih =>
    simp only [edgeCount, List.map_cons, List.sum_cons, List.map_map] at ih ⊢
    have : (KeySet.remove e.2 hash).length ≤ e.2.length := List.length_filter_le _ _
    omega

theorem tableShrinks_remove (t : DependencyTable) (hash : Hash) :
    TableShrinks t (t.map (fun e => (e.1, KeySet.remove e.2 hash))) := by
  refine ⟨?_, ?_, edgeCount_remove_le t hash⟩
  · intro h hh
    simp only [Obj.keys, List.map_map, List.mem_map, Function.comp] at hh ⊢
    exact hh
  · intro h w1 hw
    rw [Obj.get?_map t (fun w => KeySet.remove w hash) h] at hw
    cases hg : t.get? h with
    | none => simp [hg] at hw
    | some w =>
      simp only [hg, Option.map_some', Option.some.injEq] at hw
      subst hw
      exact ⟨w, rfl, fun d hd => ((KeySet.mem_remove w hash d).mp hd).1⟩

namespace Distributors

theorem distributeLoop_shrinks (hashes : List Hash) :
    ∀ (s : State) (done : List (Hash × Adapter)),
      TableShrinks s.dependencyTable (distributeLoop hashes s done).1.dependencyTable := by
  induction hashes with
  | nil => intro s done; exact tableShrinks_refl _
  | cons hash rest ih =>
    intro s done
    unfold distributeLoop
    split_ifs with hlim
    · cases hget : s.dependencyTable.get? hash with
      | none => exact tableShrinks_refl _
      | some dependsOn =>
        simp only
        split_ifs with hlen
        · cases hgd : getDistributor s hash with
          | error e => exact tableShrinks_refl _
          | ok p =>
            obtain ⟨s1, adapter⟩ := p
            simp only
            obtain ⟨_, htab, _⟩ := getDistributor_sameRecords s s1 hash adapter hgd
            have h2 := ih
              { s1 with workCounter := s1.workCounter + 1,
                        dependencyTable := s1.dependencyTable.delete hash }
              (done ++ [(hash, adapter)])
            have h1 : TableShrinks s.dependencyTable (s1.dependencyTable.delete hash) := by
              rw [htab]
              exact tableShrinks_delete _ _
            exact tableShrinks_trans h1 h2
        · exact ih s done
    · exact tableShrinks_refl _

theorem distributeConfig_shrinks (s : State) (env : PassEnv) :
    TableShrinks s.dependencyTable (distributeConfig s env).1.dependencyTable := by
  unfold distributeConfig
  have hl := lazyLoad_dependencyTable s env
  rcases hlz : _lazyLoadLambdaRequirements s env with ⟨s1, b⟩
  rw [hlz] at hl
  simp only at hl
  cases b with
  | false => simp only; rw [hl]; exact tableShrinks_refl _
  | true =>
    simp only
    have h2 := distributeLoop_shrinks s1.dependencyTable.keys s1 []
    rcases hloop : distributeLoop s1.dependencyTable.keys s1 [] with ⟨s2, done, b2⟩
    rw [hloop] at h2
    rw [hl] at h2
    cases b2 <;> exact h2

theorem handle_shrinks (s : State) (n : Notification) :
    TableShrinks s.dependencyTable (handle s n).state.dependencyTable := by
  cases n with
  | message data =>
    simp only [handle, onMessage]
    split_ifs <;> first | exact tableShrinks_refl _ | exact tableShrinks_remove _ _
  | exit code worker env =>
    simp only [handle, onExit]
    have h1 := exitCounters_dependencyTable s worker
    split_ifs with hc
    · have h2 := distributeConfig_shrinks (exitCounters s worker) env
      rcases hd : distributeConfig (exitCounters s worker) env with ⟨s3, done, b⟩
      rw [hd, h1] at h2
      cases b <;> exact h2
    · simp only [h1]
      exact tableShrinks_refl _

end Distributors

namespace ClusterDistributor

theorem cluster_distributeLoop_shrinks (hashes : List Hash) :
    ∀ (s : State) (done : List Hash),
      TableShrinks s.dependencyTable (distributeLoop hashes s done).1.dependencyTable := by
  induction hashes with
  | nil => intro s done; exact tableShrinks_refl _
  | cons hash rest ih =>
    intro s done
    unfold distributeLoop
    split_ifs with hlim
    · cases hget : s.dependencyTable.get? hash with
      | none => exact tableShrinks_refl _
      | some dependsOn =>
        simp only
        split_ifs with hlen
        · exact tableShrinks_trans (tableShrinks_delete _ hash)
            (ih (_createWorker s hash) (done ++ [hash]))
        · exact ih s done
    · exact tableShrinks_refl _

theorem cluster_distributeConfigs_shrinks (s : State) :
    TableShrinks s.dependencyTable (_distributeConfigs s).1.dependencyTable :=
  cluster_distributeLoop_shrinks _ s []

theorem cluster_handle_shrinks (s : State) (n : Notification) :
    TableShrinks s.dependencyTable (handle s n).state.dependencyTable := by
  cases n with
  | message data =>
    simp only [handle, onMessage]
    split_ifs
    · exact tableShrinks_nil _
    · cases data.data <;> exact tableShrinks_remove _ _
  | exit worker code =>
    simp only [handle]
    rw [(cluster_onExit_state_dispatched s worker code).1]
    split_ifs
    · exact cluster_distributeConfigs_shrinks
        { s with workers := s.workers.filter (fun w => w ≠ worker),
                 workersCount := s.workersCount - 1 }
    · exact tableShrinks_refl _

end ClusterDistributor

/-- C17. In both schedulers every step taken after the table is built (an admission pass,
the handling of a success, error or exit notification, and hence every sequence of them)
leaves a table whose keys are keys of the table before, whose waiting-sets are subsets of
what they were, and whose number of edges is not larger: no edge is ever added. -/
theorem table_only_shrinks :
    ((∀ (s : Distributors.State) env, TableShrinks s.dependencyTable
        (Distributors.distributeConfig s env).1.dependencyTable) ∧
      (∀ (s : Distributors.State) n, TableShrinks s.dependencyTable
        (Distributors.handle s n).state.dependencyTable) ∧
      (∀ (s : Distributors.State) trace, TableShrinks s.dependencyTable
        (Distributors.exec s trace).dependencyTable)) ∧
    ((∀ (s : ClusterDistributor.State), TableShrinks s.dependencyTable
        (ClusterDistributor._distributeConfigs s).1.dependencyTable) ∧
      (∀ (s : ClusterDistributor.State) n, TableShrinks s.dependencyTable
        (ClusterDistributor.handle s n).state.dependencyTable) ∧
      (∀ (s : ClusterDistributor.State) trace, TableShrinks s.dependencyTable
        (ClusterDistributor.exec s trace).dependencyTable)) := by
  refine ⟨⟨Distributors.distributeConfig_shrinks, Distributors.handle_shrinks, ?_⟩,
    ⟨ClusterDistributor.cluster_distributeConfigs_shrinks,
      ClusterDistributor.cluster_handle_shrinks, ?_⟩⟩
  · intro s trace
    induction trace using List.reverseRecOn with
    | nil => exact tableShrinks_refl _
    | append_singleton pre n ih =>
      rw [Distributors.exec_append]
      exact tableShrinks_trans ih (Distributors.handle_shrinks _ n)
  · intro s trace
    induction trace using List.reverseRecOn with
    | nil => exact tableShrinks_refl _
    | append_singleton pre n ih =>
      rw [ClusterDistributor.cluster_exec_append]
      exact tableShrinks_trans ih (ClusterDistributor.cluster_handle_shrinks _ n)

namespace Distributors

/-! ## Admission and the thread limit -/

theorem lazyLoad_localWorkerCounter (s : State) (env : PassEnv) :
    (_lazyLoadLambdaRequirements s env).1.localWorkerCounter = s.localWorkerCounter := by
  unfold _lazyLoadLambdaRequirements
  dsimp only
  split_ifs <;> try rfl
  cases env.account <;> rfl

theorem distributeLoop_of_limit (hashes : List Hash) (s : State)
    (done : List (Hash × Adapter)) (h : s.threadsCount ≤ s.localWorkerCounter) :
    distributeLoop hashes s done = (s, done, true) := by
  cases hashes with
  | nil => rfl
  | cons hash rest =>
    unfold distributeLoop
    have : ¬ s.localWorkerCounter < s.threadsCount := not_lt.mpr h
    simp only [this, if_false]

/-- A pass of the loop that ends with the local count below the limit has dispatched every
ready component it met. -/
theorem distributeLoop_all_ready (hashes : List Hash) :
    ∀ (s s1 : State) (done done1 : List (Hash × Adapter)),
      distributeLoop hashes s done = (s1, done1, true) →
      s1.localWorkerCounter < s1.threadsCount →
      (∀ x ∈ done, x ∈ done1) ∧
      ∀ h ∈ hashes, s.dependencyTable.get? h = some [] → h ∈ done1.map Prod.fst := by
  induction hashes with
  | nil =>
    intro s s1 done done1 hrun _
    simp only [distributeLoop, Prod.mk.injEq] at hrun
    obtain ⟨_, rfl, _⟩ := hrun
    exact ⟨fun x hx => hx, fun h hh => absurd hh (List.not_mem_nil h)⟩
  | cons hash rest ih =>
    intro s s1 done done1 hrun hlt
    unfold distributeLoop at hrun
    by_cases hlim : s.localWorkerCounter < s.threadsCount
    · simp only [hlim, if_true] at hrun
      cases hget : s.dependencyTable.get? hash with
      | none => simp [hget] at hrun
      | some dependsOn =>
        simp only [hget] at hrun
        by_cases hlen : dependsOn.length = 0
        · simp only [hlen, if_true] at hrun
          cases hgd : getDistributor s hash with
          | error e => simp [hgd] at hrun
          | ok p =>
            obtain ⟨s2, adapter⟩ := p
            simp only [hgd] at hrun
            obtain ⟨_, htab, _⟩ := getDistributor_sameRecords s s2 hash adapter hgd
            obtain ⟨ih1, ih2⟩ := ih _ s1 _ done1 hrun hlt
            refine ⟨fun x hx => ih1 x (List.mem_append_left _ hx), ?_⟩
            intro h hh hready
            by_cases hk : h = hash
            · subst hk
              exact List.mem_map_of_mem Prod.fst (ih1 (h, adapter) (by simp))
            · rcases List.mem_cons.mp hh with h1 | h1
              · exact absurd h1 hk
              · apply ih2 h h1
                simp only [htab, Obj.get?_delete, hk, if_false]
                exact hready
        · simp only [hlen, if_false] at hrun
          obtain ⟨ih1, ih2⟩ := ih s s1 done done1 hrun hlt
          refine ⟨ih1, ?_⟩
          intro h hh hready
          rcases List.mem_cons.mp hh with h1 | h1
          · subst h1
            rw [hget] at hready
            simp only [Option.some.injEq] at hready
            subst hready
            exact absurd rfl hlen
          · exact ih2 h h1 hready
    · simp only [hlim, if_false, Prod.mk.injEq] at hrun
      obtain ⟨rfl, _, _⟩ := hrun
      exact absurd hlt hlim

/-- C18 (counterexample). The local component `a` and the remote component `b` are both
ready and the thread limit is 1: the pass dispatches `a`, the local count reaches the
limit, and `b` is left in the table. -/
theorem ready_remote_component_not_dispatched :
    ∃ s0,
      runActionsStart
        [("a", { name := "A", dependsOn := [], distributor := some "local" }),
         ("b", { name := "B", dependsOn := [], distributor := some "lambda" })]
        1 (some Direction.FORWARD) {} = .ok (s0, [("a", Adapter.LocalDistributor)]) ∧
      s0.dependencyTable = [("b", [])] ∧ s0.localWorkerCounter = 1 ∧ s0.threadsCount = 1 :=
  ⟨_, rfl, rfl, rfl, rfl⟩

/-- C18 (amended). In an admission pass of `distributeConfig` the thread limit gates every
dispatch, whatever the backend: a pass entered with the local running count at the limit
dispatches no component and leaves the table as it is, and a pass that completes with the
local running count still below the limit has dispatched every ready component, remote or
local. -/
theorem admission_pass_gated_by_local_limit (s : State) (env : PassEnv) :
    (s.threadsCount ≤ s.localWorkerCounter →
      (distributeConfig s env).2.1 = [] ∧
      (distributeConfig s env).1.dependencyTable = s.dependencyTable) ∧
    ((distributeConfig s env).2.2 = true →
      (distributeConfig s env).1.localWorkerCounter < (distributeConfig s env).1.threadsCount →
      ∀ h, s.dependencyTable.get? h = some [] →
        h ∈ (distributeConfig s env).2.1.map Prod.fst) := by
  have hl1 := lazyLoad_dependencyTable s env
  have hl2 := lazyLoad_localWorkerCounter s env
  have hl3 := (lazyLoad_sameRecords s env).threadsCount
  unfold distributeConfig
  rcases hlz : _lazyLoadLambdaRequirements s env with ⟨s1, b⟩
  rw [hlz] at hl1 hl2 hl3
  simp only at hl1 hl2 hl3
  cases b with
  | false => exact ⟨fun _ => ⟨rfl, hl1⟩, fun h => by cases h⟩
  | true =>
    simp only
    constructor
    · intro hlim
      rw [distributeLoop_of_limit _ s1 [] (by rw [hl2, hl3]; exact hlim)]
      exact ⟨rfl, hl1⟩
    · rcases hloop : distributeLoop s1.dependencyTable.keys s1 [] with ⟨s2, done, b2⟩
      cases b2 with
      | false => intro h; cases h
      | true =>
        simp only
        intro _ hlt h hready
        rw [← hl1] at hready
        exact (distributeLoop_all_ready _ s1 s2 [] done hloop hlt).2 h
          (Obj.get?_some_mem_keys hready) hready

/-- Witness of C18 (amended): entered with one local worker running under a limit of 1, the
pass leaves the ready remote component `b` in the table. -/
theorem admission_pass_gated_by_local_limit_witness :
    (distributeConfig
      { projectConfig := [("b", { name := "B", dependsOn := [], distributor := some "lambda" })],
        threadsCount := 1, dependencyTable := [("b", [])], workCounter := 1,
        localWorkerCounter := 1 } {}).2.1 = [] ∧
    (distributeConfig
      { projectConfig := [("b", { name := "B", dependsOn := [], distributor := some "lambda" })],
        threadsCount := 1, dependencyTable := [("b", [])], workCounter := 1,
        localWorkerCounter := 1 } {}).1.dependencyTable = [("b", [])] :=
  (admission_pass_gated_by_local_limit
    { projectConfig := [("b", { name := "B", dependsOn := [], distributor := some "lambda" })],
      threadsCount := 1, dependencyTable := [("b", [])], workCounter := 1,
      localWorkerCounter := 1 } {}).1 (by decide)

/-! ## The remote channel and the first admission pass -/

/-- C19 (counterexample). A message with the action tag whose `hash` is not a component of
the project configuration: the handler emits nothing and throws an `Error` whose message is
the text of the `TypeError` of the failed read. -/
theorem remote_message_unknown_hash_emits_nothing :
    onRemoteMessage
      { noData := "TypeError: Cannot destructure property 'isError' of 'undefined'",
        noComponent := "TypeError: Cannot read property 'name' of undefined" }
      [("a", { name := "A", dependsOn := [], distributor := some "lambda" })]
      { action := "aws-cloud-deployer",
        data := some { isError := false, hash := some "b", message := "done" } } =
      .error (JsError.error "TypeError: Cannot read property 'name' of undefined") :=
  rfl

/-- C19 (amended). For every message of the remote channel that parses as JSON, carries the
action tag `aws-cloud-deployer` and whose `data.hash` is a component of the project
configuration, the handler emits exactly one `message` notification followed by exactly one
`exit` notification, both tagged `lambda`: a success notification with exit code 0 when
`isError` is falsy, an error notification, its text prefixed by the name of the component,
with exit code 1 when it is truthy. A message with another action tag produces no
notification; a tagged message without `data`, without `hash`, or whose `hash` is not a
component makes the handler throw, before it emits anything, an `Error` whose message is the
text of the `TypeError` of the failed read. -/
theorem remote_message_emits_message_then_exit (texts : TypeErrorTexts)
    (projectConfig : Obj Component) (parsed : RemoteMessage) :
    (parsed.action ≠ "aws-cloud-deployer" →
      onRemoteMessage texts projectConfig parsed = .ok []) ∧
    (parsed.action = "aws-cloud-deployer" →
      ∀ d hash node, parsed.data = some d → d.hash = some hash →
        projectConfig.get? hash = some node →
        onRemoteMessage texts projectConfig parsed =
          .ok [Emitted.message "lambda"
                 { isError := d.isError,
                   message := if d.isError then "[" ++ node.name ++ "] " ++ d.message
                              else d.message,
                   hash := hash },
               Emitted.exit "lambda" (if d.isError then 1 else 0)]) ∧
    (parsed.action = "aws-cloud-deployer" → parsed.data = none →
      onRemoteMessage texts projectConfig parsed = .error (JsError.error texts.noData)) ∧
    (parsed.action = "aws-cloud-deployer" →
      (∃ d, parsed.data = some d ∧
        (d.hash = none ∨ ∃ hash, d.hash = some hash ∧ projectConfig.get? hash = none)) →
      onRemoteMessage texts projectConfig parsed =
        .error (JsError.error texts.noComponent)) := by
  refine ⟨?_, ?_, ?_, ?_⟩
  · intro h
    simp [onRemoteMessage, h]
  · intro h d hash node hd hh hn
    cases hE : d.isError <;> simp [onRemoteMessage, h, hd, hh, hn, hE]
  · intro h hd
    simp [onRemoteMessage, h, hd]
  · intro h hbad
    rcases hbad with ⟨d, hd, hh | ⟨hash, hh, hn⟩⟩
    · simp [onRemoteMessage, h, hd, hh]
    · simp [onRemoteMessage, h, hd, hh, hn]

/-- Witness of C19 (amended): the remote worker of the component `a` reports a failure. -/
theorem remote_message_emits_message_then_exit_witness :
    onRemoteMessage
      { noData := "TypeError: Cannot destructure property 'isError' of 'undefined'",
        noComponent := "TypeError: Cannot read property 'name' of undefined" }
      [("a", { name := "A", dependsOn := [], distributor := some "lambda" })]
      { action := "aws-cloud-deployer",
        data := some { isError := true, hash := some "a", message := "failed" } } =
      .ok [Emitted.message "lambda" { isError := true, message := "[A] failed", hash := "a" },
           Emitted.exit "lambda" 1] :=
  (remote_message_emits_message_then_exit
    { noData := "TypeError: Cannot destructure property 'isError' of 'undefined'",
      noComponent := "TypeError: Cannot read property 'name' of undefined" }
    [("a", { name := "A", dependsOn := [], distributor := some "lambda" })]
    { action := "aws-cloud-deployer",
      data := some { isError := true, hash := some "a", message := "failed" } }).2.1 rfl
    { isError := true, hash := some "a", message := "failed" } "a"
    { name := "A", dependsOn := [], distributor := some "lambda" } rfl rfl rfl

/-- C20 (failing input). The request for the temporary credentials, or the one for the
account identifier, fails during the first admission pass: `runActions` goes on to create
its promise, no component has been dispatched, the table still holds every component, and
without a worker no notification will come to settle the promise. -/
theorem credentials_failure_leaves_run_pending :
    (∃ s0,
      runActionsStart [("a", { name := "A", dependsOn := [] })] 1 (some Direction.FORWARD)
        { creds := Fetch.fails } = .ok (s0, []) ∧
      s0.dependencyTable = [("a", [])] ∧ s0.workCounter = 0 ∧ s0.errors = [] ∧
      firstSettle s0 [] = none) ∧
    (∃ s0,
      runActionsStart [("a", { name := "A", dependsOn := [] })] 1 (some Direction.FORWARD)
        { account := Fetch.fails } = .ok (s0, []) ∧
      s0.dependencyTable = [("a", [])] ∧ s0.workCounter = 0 ∧ s0.errors = [] ∧
      firstSettle s0 [] = none) :=
  ⟨⟨_, rfl, rfl, rfl, rfl, rfl⟩, ⟨_, rfl, rfl, rfl, rfl, rfl⟩⟩

end Distributors

/-! ## The configuration object -/

theorem Obj.get?_isNone_iff {V : Type} (o : Obj V) (k : Hash) :
    (o.get? k).isNone = true ↔ k ∉ o.keys := by
  rw [← Obj.get?_isSome_iff]
  cases o.get? k <;> simp

theorem configObjectDeps_eq (toMd5 : String → Hash) (fullConfig : Obj ExtComponent)
    (hash : Hash) (name : String) (full : ExtComponent) (hfull : fullConfig.get? hash = some full)
    (deps : List String) : ∀ (acc : KeySet) (issues : List String),
      configObjectDeps toMd5 fullConfig hash name deps acc issues =
        .ok (KeySet.assign acc (deps.map toMd5),
          issues ++ (deps.filter (fun dep => toMd5 dep ∉ fullConfig.keys)).map
            (fun dep => configObjectIssue name (missingDirectory toMd5 full (toMd5 dep)))) := by
  induction deps with
  | nil => intro acc issues; simp [configObjectDeps, KeySet.assign]
  | cons dep rest ih =>
    intro acc issues
    unfold configObjectDeps
    dsimp only
    by_cases hmiss : toMd5 dep ∈ fullConfig.keys
    · have hnone : ¬ (fullConfig.get? (toMd5 dep)).isNone = true := by
        rw [Obj.get?_isNone_iff]; exact not_not.mpr hmiss
      simp only [hnone, if_false]
      rw [ih]
      simp [KeySet.assign, List.filter_cons, hmiss]
    · have hnone : (fullConfig.get? (toMd5 dep)).isNone = true :=
        (Obj.get?_isNone_iff _ _).mpr hmiss
      simp only [hnone, if_true, hfull]
      rw [ih]
      simp [KeySet.assign, List.filter_cons, hmiss]

theorem configObjectLoop_spec (toMd5 : String → Hash) (fullConfig config : Obj ExtComponent)
    (ks : List Hash) : ∀ (tree : Obj Component) (issues : List String),
      (∀ k ∈ ks, k ∈ config.keys ∧ k ∈ fullConfig.keys) →
      ∃ tree1, configObjectLoop toMd5 fullConfig config ks tree issues =
          .ok (tree1, issues ++ (missingDeclarations toMd5 fullConfig config ks).map
            (declarationIssue toMd5 fullConfig config)) ∧
        (∀ h, h ∈ tree1.keys ↔ h ∈ tree.keys ∨ h ∈ ks) ∧
        (∀ h, tree1.get? h =
          if h ∈ ks then (config.get? h).map (configNode toMd5) else tree.get? h) := by
  induction ks with
  | nil =>
    intro tree issues _
    exact ⟨tree, by simp [configObjectLoop, missingDeclarations], by simp, by simp⟩
  | cons hash rest ih =>
    intro tree issues hall
    obtain ⟨hc, hf⟩ := hall hash (List.mem_cons_self _ _)
    obtain ⟨c, hnode⟩ := Obj.exists_get?_of_mem_keys hc
    obtain ⟨full, hfull⟩ := Obj.exists_get?_of_mem_keys hf
    obtain ⟨tree1, hrun, hkeys, hget⟩ := ih
      (tree.set hash (configNode toMd5 c))
      (issues ++ (c.dependsOn.filter (fun dep => toMd5 dep ∉ fullConfig.keys)).map
        (fun dep => configObjectIssue c.name (missingDirectory toMd5 full (toMd5 dep))))
      (fun k hk => hall k (List.mem_cons_of_mem _ hk))
    refine ⟨tree1, ?_, ?_, ?_⟩
    · unfold configObjectLoop
      simp only [hnode, configObjectDeps_eq toMd5 fullConfig hash c.name full hfull]
      have hrun1 : configObjectLoop toMd5 fullConfig config rest
          (tree.set hash
            { name := c.name, dependsOn := KeySet.assign [] (c.dependsOn.map toMd5),
              distributor := c.distributor })
          (issues ++ (c.dependsOn.filter (fun dep => toMd5 dep ∉ fullConfig.keys)).map
            (fun dep => configObjectIssue c.name (missingDirectory toMd5 full (toMd5 dep)))) =
          _ := hrun
      rw [hrun1]
      have hA : (c.dependsOn.filter (fun dep => toMd5 dep ∉ fullConfig.keys)).map
            (fun dep => configObjectIssue c.name (missingDirectory toMd5 full (toMd5 dep))) =
          (c.dependsOn.filter (fun dep => toMd5 dep ∉ fullConfig.keys)).map
            (declarationIssue toMd5 fullConfig config ∘ fun dep => (hash, dep)) := by
        apply List.map_congr_left
        intro dep _
        simp [declarationIssue, displayName, hnode, hfull]
      simp only [missingDeclarations, hnode, List.map_append, List.map_map, List.append_assoc]
      rw [hA]
    · intro h
      rw [hkeys, Obj.keys_set, List.mem_cons]
      tauto
    · intro h
      rw [hget, Obj.get?_set]
      by_cases h1 : h ∈ rest
      · simp [h1]
      · by_cases h2 : hash = h
        · subst h2
          simp [h1, hnode]
        · have h3 : ¬ h = hash := fun e => h2 e.symm
          simp [h1, h2, h3]

theorem missingDeclarations_eq_nil (toMd5 : String → Hash)
    (fullConfig config : Obj ExtComponent) (ks : List Hash) :
    missingDeclarations toMd5 fullConfig config ks = [] ↔
      ∀ h ∈ ks, ∀ c, config.get? h = some c → ∀ p ∈ c.dependsOn, toMd5 p ∈ fullConfig.keys := by
  induction ks with
  | nil => simp [missingDeclarations]
  | cons k rest ih =>
    simp only [missingDeclarations, List.append_eq_nil, ih, List.forall_mem_cons]
    apply and_congr_left'
    cases hget : config.get? k with
    | none => simp
    | some node =>
      simp only [List.map_eq_nil_iff, List.filter_eq_nil_iff, decide_eq_true_eq, not_not,
        Option.some.injEq, forall_eq']

/-- C16. For selected components that are components of the full set, `getConfigObject`
fails with the numbered list exception if and only if a selected component declares a
dependency path whose fingerprint is not a key of the full component set, with exactly one
issue for each such declaration, in order; otherwise it returns the tree whose keys are the
selected components, the node of each having the name and the backend tag of the component
and, as `dependsOn`, exactly the fingerprints of its declared paths. -/
theorem getConfigObject_fails_iff_missing_dependency (toMd5 : String → Hash)
    (fullConfig config : Obj ExtComponent) (hsub : ∀ h ∈ config.keys, h ∈ fullConfig.keys) :
    (missingDeclarations toMd5 fullConfig config config.keys = [] ↔
      ∀ h c, config.get? h = some c → ∀ p ∈ c.dependsOn, toMd5 p ∈ fullConfig.keys) ∧
    (missingDeclarations toMd5 fullConfig config config.keys ≠ [] →
      getConfigObject toMd5 fullConfig config =
        .error (JsError.numberedList issuesTitle
          ((missingDeclarations toMd5 fullConfig config config.keys).map
            (declarationIssue toMd5 fullConfig config)))) ∧
    (missingDeclarations toMd5 fullConfig config config.keys = [] →
      ∃ tree, getConfigObject toMd5 fullConfig config = .ok tree ∧
        (∀ h, h ∈ tree.keys ↔ h ∈ config.keys) ∧
        ∀ h c, config.get? h = some c →
          ∃ node, tree.get? h = some node ∧ node.name = c.name ∧
            node.distributor = c.distributor ∧ node.dependsOn.Nodup ∧
            ∀ d, d ∈ node.dependsOn ↔ ∃ p ∈ c.dependsOn, toMd5 p = d) := by
  obtain ⟨tree, hrun, hkeys, hget⟩ := configObjectLoop_spec toMd5 fullConfig config config.keys
    [] [] (fun k hk => ⟨hk, hsub k hk⟩)
  refine ⟨?_, ?_, ?_⟩
  · rw [missingDeclarations_eq_nil]
    constructor
    · intro h k c hc
      exact h k (Obj.get?_some_mem_keys hc) c hc
    · intro h k _ c hc
      exact h k c hc
  · intro hne
    unfold getConfigObject
    simp only [hrun, List.nil_append]
    have hlen : ((missingDeclarations toMd5 fullConfig config config.keys).map
        (declarationIssue toMd5 fullConfig config)).length ≠ 0 := by
      rw [List.length_map]
      exact fun h => hne (List.length_eq_zero.mp h)
    simp only [hlen, ne_eq, not_false_eq_true, if_true]
  · intro hnil
    refine ⟨tree, ?_, ?_, ?_⟩
    · unfold getConfigObject
      simp [hrun, hnil]
    · intro h
      rw [hkeys]
      simp [Obj.keys]
    · intro h c hc
      refine ⟨configNode toMd5 c, ?_, rfl, rfl, ?_, ?_⟩
      · rw [hget]
        simp [Obj.get?_some_mem_keys hc, hc]
      · exact KeySet.assign_nodup _ _ List.nodup_nil
      · intro d
        simp only [configNode, KeySet.mem_assign, List.mem_map, List.not_mem_nil, false_or]

/-- Witness of C16: the selected component `y` declares the paths `px`, of the component
`x`, and `pq`, of no component. -/
theorem getConfigObject_fails_iff_missing_dependency_witness :
    getConfigObject (fun path => path.drop 1)
      [("x", { name := "X", dependsOn := [] }),
       ("y", { name := "Y", dependsOn := ["px", "pq"] })]
      [("y", { name := "Y", dependsOn := ["px", "pq"] })] =
      .error (JsError.numberedList issuesTitle
        ["'Y' component depends on the component in 'pq' directory that doesn't exist"]) :=
  (getConfigObject_fails_iff_missing_dependency (fun path => path.drop 1)
    [("x", { name := "X", dependsOn := [] }),
     ("y", { name := "Y", dependsOn := ["px", "pq"] })]
    [("y", { name := "Y", dependsOn := ["px", "pq"] })] (by decide)).2.1 (by decide)

/-! ## The run plan of `_runLocal` -/

namespace RunCommand

/-- C21. For every combination of the flags `_runLocal` returns a run plan of one step; its
action list begins with `prepare`, `init`, `workspaceSelect` and ends with `plan`, `destroy`
when `destroy` is set, with `plan`, `apply` when `apply` is set and `destroy` is not, and
with `plan` when neither is set; its direction is `REVERSE` when `destroy` is set and
`FORWARD` otherwise, so `REVERSE` exactly when `destroy` is set. -/
theorem runLocal_prologue_ending_and_direction (o : Options) (config : Obj Component) :
    ∃ step, _runLocal o config = [step] ∧
      ["prepare", "init", "workspaceSelect"] <+: step.actions ∧
      (if o.destroy then ["plan", "destroy"]
        else if o.apply then ["plan", "apply"] else ["plan"]) <:+ step.actions ∧
      step.dependencyDirection =
        (if o.destroy then Direction.REVERSE else Direction.FORWARD) ∧
      (step.dependencyDirection = Direction.REVERSE ↔ o.destroy = true) ∧
      step.config = config := by
  rcases o with ⟨a, d, b, u, y⟩
  cases a <;> cases d <;> cases b <;>
    refine ⟨_, rfl, ?_, ?_, rfl, ?_, rfl⟩ <;> simp [List.suffix_cons_iff]

/-- C26 (failing inputs). With `apply` and `destroy` both set the action list of the run plan
holds no `apply`, and with `destroy` and `build` both set it holds no `build`: in both cases
it is `prepare`, `init`, `workspaceSelect`, `plan`, `destroy`. -/
theorem runLocal_destroy_drops_apply_and_build (config : Obj Component) :
    (_runLocal { apply := true, destroy := true } config).map RunStep.actions =
      [["prepare", "init", "workspaceSelect", "plan", "destroy"]] ∧
    (_runLocal { destroy := true, build := true } config).map RunStep.actions =
      [["prepare", "init", "workspaceSelect", "plan", "destroy"]] ∧
    (_runLocal { apply := true, destroy := true, build := true } config).map RunStep.actions =
      [["prepare", "init", "workspaceSelect", "plan", "destroy"]] :=
  ⟨rfl, rfl, rfl⟩

end RunCommand

/-! ## Abnormal exit of a worker -/

/-- C24 (failing inputs). One component, one thread: the component is dispatched by the
first pass, its worker exits with code `1` without an error notification, and the promise of
`runActions` is resolved with the empty result list, in both schedulers; in the scheduler with
local and remote workers the same happens after a success notification. -/
theorem abnormal_exit_resolves :
    (∃ s0,
      Distributors.runActionsStart [("a", { name := "A", dependsOn := [] })] 1
        (some Direction.FORWARD) {} = .ok (s0, [("a", Distributors.Adapter.LocalDistributor)]) ∧
      Distributors.firstSettle s0 [Distributors.Notification.exit 1 "local" {}] =
        some (Distributors.Settle.resolve []) ∧
      Distributors.firstSettle s0
        [Distributors.Notification.message { isError := false, message := "done", hash := "a" },
         Distributors.Notification.exit 1 "local" {}] =
        some (Distributors.Settle.resolve
          [{ isError := false, message := "done", hash := "a" }])) ∧
    (∃ s0,
      ClusterDistributor.runActionsStart [("a", { name := "A", dependsOn := [] })] 1
        (some Direction.FORWARD) = .ok (s0, ["a"]) ∧
      s0.workers = [1] ∧
      (ClusterDistributor.handle s0 (ClusterDistributor.Notification.exit 1 1)).settle =
        some (ClusterDistributor.Settle.resolve [])) :=
  ⟨⟨_, rfl, rfl, rfl⟩, ⟨_, rfl, rfl, rfl⟩⟩

/-! ## The reported cycle is a cycle -/

theorem foundCycle_reported_suffix (config : Obj Component) (st : Search)
    (h : FoundCycle config st) :
    ∃ p1 k p2 cycle, st.path = p1 ++ k :: (p2 ++ [k]) ∧ (p2 ++ [k]).Nodup ∧
      (∀ c ∈ p2 ++ [k], c ∈ config.keys) ∧
      cycleNames config st.path = some cycle ∧ pathNames config (p2 ++ [k]) = some cycle ∧
      List.Chain' (DependsOn config) (p2 ++ [k]) ∧
      ∃ first, (p2 ++ [k]).head? = some first ∧ DependsOn config k first := by
  have h0 := h
  obtain ⟨p, k0, hpath0, hk0, _, hchain, hkeys⟩ := h0
  obtain ⟨p1, k, p2, node, cycle, hpath, _, hk2, hnodup, _, hnames, hsuffix, _⟩ :=
    cycleNames_after_first_occurrence config st h
  have hall : ∀ c ∈ st.path, c ∈ config.keys := by
    intro c hc
    rw [hpath0] at hc
    rcases List.mem_append.mp hc with h1 | h1
    · exact hkeys c h1
    · simp only [List.mem_singleton] at h1
      exact h1 ▸ hkeys k0 hk0
  have hch : List.Chain' (Edge config) (k :: (p2 ++ [k])) := by
    have h1 : List.Chain' (Edge config) st.path := hpath0 ▸ hchain
    rw [hpath] at h1
    exact h1.right_of_append
  have hch2 := List.chain'_cons'.mp hch
  refine ⟨p1, k, p2, cycle, hpath, ?_, ?_, hnames, hsuffix, ?_, ?_⟩
  · have h2 : (k :: p2).Nodup := (List.nodup_append.mp hnodup).2.1
    exact List.Nodup.append (List.nodup_cons.mp h2).2 (List.nodup_singleton k)
      (by simp only [List.disjoint_singleton]; exact hk2)
  · intro c hc
    apply hall
    rw [hpath]
    exact List.mem_append_right _ (List.mem_cons_of_mem _ hc)
  · exact hch2.2.imp (fun {_ _} hab => hab.1)
  · cases hp2 : p2 with
    | nil =>
      refine ⟨k, rfl, ?_⟩
      exact (hch2.1 k (by simp [hp2])).1
    | cons a rest =>
      refine ⟨a, rfl, ?_⟩
      exact (hch2.1 a (by simp [hp2])).1

/-- C23. A non-empty sequence returned by `_getDependencyCycle` is the list of the names of
components `cs` of the input map that are pairwise distinct and form a cycle: each one
declares the next in its `dependsOn` and the last declares the first (when there is one
component, it declares itself). -/
theorem reported_cycle_is_a_dependency_cycle (config : Obj Component) (cycle : List String)
    (hrep : _getDependencyCycle config = some cycle) (hne : cycle ≠ []) :
    ∃ cs : List Hash, pathNames config cs = some cycle ∧ cs.length = cycle.length ∧
      cs.Nodup ∧ (∀ c ∈ cs, c ∈ config.keys) ∧
      List.Chain' (DependsOn config) cs ∧
      ∃ first last, cs.head? = some first ∧ cs.getLast? = some last ∧
        DependsOn config last first := by
  obtain ⟨st, hrun, _, hres⟩ := dependencySearch_spec config
  rcases hres with ⟨hpath, _⟩ | hfound
  · simp [_getDependencyCycle, hrun, hpath, cycleNames] at hrep
    exact absurd hrep hne
  · obtain ⟨p1, k, p2, cycle1, _, hnodup, hkeys, hnames, hsuffix, hchain, first, hfirst,
      hclose⟩ := foundCycle_reported_suffix config st hfound
    have hc : cycle1 = cycle := by
      simp only [_getDependencyCycle, hrun, hnames, Option.some.injEq] at hrep
      exact hrep
    subst hc
    obtain ⟨names, hn, hlen⟩ := pathNames_some config (p2 ++ [k]) hkeys
    have hsame : names = cycle1 := by
      rw [hn] at hsuffix
      exact Option.some.inj hsuffix
    subst hsame
    exact ⟨p2 ++ [k], hsuffix, hlen.symm, hnodup, hkeys, hchain, first, k, hfirst,
      by simp, hclose⟩

/-- Witness of C23: `x` depends on `a`, and `a` and `b` depend on each other; the report is
`B`, `A`, the names of `b` and `a`. -/
theorem reported_cycle_is_a_dependency_cycle_witness :
    ∃ cs : List Hash,
      pathNames
        [("x", { name := "X", dependsOn := ["a"] }), ("a", { name := "A", dependsOn := ["b"] }),
         ("b", { name := "B", dependsOn := ["a"] })] cs = some ["B", "A"] ∧
      cs.length = ["B", "A"].length ∧ cs.Nodup ∧
      (∀ c ∈ cs, c ∈ Obj.keys
        ([("x", { name := "X", dependsOn := ["a"] }), ("a", { name := "A", dependsOn := ["b"] }),
          ("b", { name := "B", dependsOn := ["a"] })] : Obj Component)) ∧
      List.Chain' (DependsOn
        [("x", { name := "X", dependsOn := ["a"] }), ("a", { name := "A", dependsOn := ["b"] }),
         ("b", { name := "B", dependsOn := ["a"] })]) cs ∧
      ∃ first last, cs.head? = some first ∧ cs.getLast? = some last ∧
        DependsOn
          [("x", { name := "X", dependsOn := ["a"] }), ("a", { name := "A", dependsOn := ["b"] }),
           ("b", { name := "B", dependsOn := ["a"] })] last first :=
  reported_cycle_is_a_dependency_cycle
    [("x", { name := "X", dependsOn := ["a"] }), ("a", { name := "A", dependsOn := ["b"] }),
     ("b", { name := "B", dependsOn := ["a"] })] ["B", "A"] (by decide) (by decide)

/-! ## Filtering of the configuration -/

theorem foldl_delete_eq_filter {V : Type} (removed : List Hash) : ∀ (o : Obj V),
    removed.foldl (fun acc hash => Obj.delete acc hash) o =
      o.filter (fun e => decide (e.1 ∉ removed)) := by
  induction removed with
  | nil => intro o; simp
  | cons k rest ih =>
    intro o
    rw [List.foldl_cons, ih]
    simp only [Obj.delete, List.filter_filter]
    apply List.filter_congr
    intro e _
    simp only [List.mem_cons, not_or, ne_eq, Bool.decide_and, Bool.and_comm]

theorem Obj.get?_filter_key {V : Type} (p : Hash → Bool) (k : Hash) : ∀ (o : Obj V),
    Obj.get? (o.filter (fun e => p e.1)) k = if p k = true then o.get? k else none := by
  intro o
  induction o with
  | nil => simp [Obj.get?]
  | cons e rest ih =>
    rcases e with ⟨k1, v⟩
    by_cases hp : p k1 = true
    · simp only [List.filter_cons, hp, if_true, Obj.get?]
      by_cases hk : k1 = k
      · subst hk
        simp [hp]
      · simp only [hk, if_false]
        exact ih
    · simp only [List.filter_cons, hp, Bool.false_eq_true, if_false, Obj.get?]
      by_cases hk : k1 = k
      · subst hk
        simp only [if_true]
        rw [ih]
        simp [hp]
      · simp only [hk, if_false]
        exact ih

theorem configFilters_pass_iff (config : Obj ExtComponent) (gitDiff : List Hash)
    (includeRegex : List RegExp) (includes : List String) (excludeRegex : List RegExp)
    (excludes : List String) (hash : Hash) :
    (configFilters config gitDiff includeRegex includes excludeRegex excludes).any
        (fun check => !check hash) = false ↔
      PassesChecks config gitDiff includeRegex includes excludeRegex excludes hash := by
  unfold configFilters PassesChecks
  by_cases h1 : gitDiff = [] <;> by_cases h2 : includeRegex = [] <;>
    by_cases h3 : includes = [] <;> by_cases h4 : excludeRegex = [] <;>
    by_cases h5 : excludes = [] <;>
    simp [h1, h2, h3, h4, h5, List.length_eq_zero]

theorem getConfig_result (action : String) (config : Obj ExtComponent) (gitDiff : List Hash)
    (includeRegex : List RegExp) (includes : List String) (excludeRegex : List RegExp)
    (excludes : List String) :
    ∃ result : Obj ExtComponent,
      getConfig action config gitDiff includeRegex includes excludeRegex excludes =
        (if result.keys.length = 0 then .error (JsError.error (noComponentsMessage action))
         else .ok result) ∧
      result.Sublist config ∧
      (∀ h, h ∈ result.keys ↔ h ∈ config.keys ∧
        PassesChecks config gitDiff includeRegex includes excludeRegex excludes h) ∧
      (∀ h, PassesChecks config gitDiff includeRegex includes excludeRegex excludes h →
        result.get? h = config.get? h) ∧
      ((∀ h ∈ config.keys,
          PassesChecks config gitDiff includeRegex includes excludeRegex excludes h) →
        result = config) := by
  have hres : (config.keys.filter (fun hash =>
        (configFilters config gitDiff includeRegex includes excludeRegex excludes).any
          (fun check => !check hash))).foldl (fun acc hash => Obj.delete acc hash) config =
      config.filter (fun e =>
        !(configFilters config gitDiff includeRegex includes excludeRegex excludes).any
          (fun check => !check e.1)) := by
    rw [foldl_delete_eq_filter]
    apply List.filter_congr
    intro e he
    have hk : e.1 ∈ config.keys := List.mem_map_of_mem Prod.fst he
    simp only [List.mem_filter, hk, true_and]
    cases (configFilters config gitDiff includeRegex includes excludeRegex excludes).any
      (fun check => !check e.1) <;> simp
  refine ⟨config.filter (fun e =>
      !(configFilters config gitDiff includeRegex includes excludeRegex excludes).any
        (fun check => !check e.1)), ?_, ?_, ?_, ?_, ?_⟩
  · unfold getConfig
    simp only [hres]
  · exact List.filter_sublist _
  · intro h
    simp only [Obj.keys, List.mem_map, List.mem_filter, Bool.not_eq_true',
      configFilters_pass_iff]
    constructor
    · rintro ⟨e, ⟨he, hp⟩, rfl⟩
      exact ⟨⟨e, he, rfl⟩, hp⟩
    · rintro ⟨⟨e, he, rfl⟩, hp⟩
      exact ⟨e, ⟨he, hp⟩, rfl⟩
  · intro h hp
    rw [Obj.get?_filter_key (fun k =>
      !(configFilters config gitDiff includeRegex includes excludeRegex excludes).any
        (fun check => !check k))]
    have := (configFilters_pass_iff config gitDiff includeRegex includes excludeRegex
      excludes h).mpr hp
    simp [this]
  · intro hall
    apply List.filter_eq_self.mpr
    intro e he
    have := (configFilters_pass_iff config gitDiff includeRegex includes excludeRegex
      excludes e.1).mpr (hall e.1 (List.mem_map_of_mem Prod.fst he))
    simp [this]

/-- What `getConfig` keeps, in terms of the five lists it reads: when some component passes
every check, it returns the configuration restricted to the passing components, each with its
entry unchanged and in the original order; it fails with `No components available` if and
only if no component passes. With the five lists empty every component is kept, and a kept
component is in no exclude list and matches no exclude-regex. -/
theorem getConfig_keeps_components_passing_checks (action : String)
    (config : Obj ExtComponent) (gitDiff : List Hash) (includeRegex : List RegExp)
    (includes : List String) (excludeRegex : List RegExp) (excludes : List String) :
    ((∃ h ∈ config.keys,
        PassesChecks config gitDiff includeRegex includes excludeRegex excludes h) →
      ∃ result,
        getConfig action config gitDiff includeRegex includes excludeRegex excludes =
          .ok result ∧
        result.Sublist config ∧
        (∀ h, h ∈ result.keys ↔ h ∈ config.keys ∧
          PassesChecks config gitDiff includeRegex includes excludeRegex excludes h) ∧
        (∀ h, PassesChecks config gitDiff includeRegex includes excludeRegex excludes h →
          result.get? h = config.get? h)) ∧
    (getConfig action config gitDiff includeRegex includes excludeRegex excludes =
        .error (JsError.error ("No components available for the '" ++ action ++ "' action.")) ↔
      ¬ ∃ h ∈ config.keys,
        PassesChecks config gitDiff includeRegex includes excludeRegex excludes h) ∧
    (config ≠ [] → getConfig action config [] [] [] [] [] = .ok config) ∧
    (∀ result,
      getConfig action config gitDiff includeRegex includes excludeRegex excludes =
        .ok result →
      ∀ h ∈ result.keys, displayName config h ∉ excludes ∧
        ∀ regex ∈ excludeRegex, regex.test (displayName config h) = false) := by
  obtain ⟨result, hrun, hsub, hkeys, hget, _⟩ :=
    getConfig_result action config gitDiff includeRegex includes excludeRegex excludes
  have hlen : result.keys.length = 0 ↔ ¬ ∃ h ∈ config.keys,
      PassesChecks config gitDiff includeRegex includes excludeRegex excludes h := by
    rw [List.length_eq_zero]
    constructor
    · rintro hnil ⟨h, hk, hp⟩
      have := (hkeys h).mpr ⟨hk, hp⟩
      rw [hnil] at this
      exact absurd this (List.not_mem_nil h)
    · intro hno
      apply List.eq_nil_iff_forall_not_mem.mpr
      intro h hmem
      exact hno ⟨h, (hkeys h).mp hmem⟩
  refine ⟨?_, ?_, ?_, ?_⟩
  · intro hex
    have hne : ¬ result.keys.length = 0 := fun h0 => hlen.mp h0 hex
    exact ⟨result, by rw [hrun, if_neg hne], hsub, hkeys, hget⟩
  · rw [hrun]
    by_cases h0 : result.keys.length = 0
    · rw [if_pos h0]
      exact ⟨fun _ => hlen.mp h0, fun _ => rfl⟩
    · rw [if_neg h0]
      constructor
      · intro h
        cases h
      · intro hno
        exact absurd (hlen.mpr hno) h0
  · intro hne
    obtain ⟨r0, hrun0, _, _, _, hall0⟩ := getConfig_result action config [] [] [] [] []
    have hr0 : r0 = config := by
      apply hall0
      intro h _
      simp [PassesChecks]
    subst hr0
    have h0 : ¬ (Obj.keys r0).length = 0 := by
      simp only [Obj.keys, List.length_map, List.length_eq_zero]
      exact hne
    rw [hrun0, if_neg h0]
  · intro r hr h hmem
    have hsame : r = result := by
      rw [hrun] at hr
      by_cases h0 : result.keys.length = 0
      · rw [if_pos h0] at hr
        cases hr
      · rw [if_neg h0] at hr
        exact (Except.ok.inj hr).symm
    subst hsame
    obtain ⟨_, _, _, _, hr4, hx⟩ := (hkeys h).mp hmem
    constructor
    · by_cases he : excludes = []
      · rw [he]
        exact List.not_mem_nil _
      · exact hx he
    · intro regex hreg
      have hne : excludeRegex ≠ [] := List.ne_nil_of_mem hreg
      have := hr4 hne
      cases ht : regex.test (displayName config h) with
      | false => rfl
      | true => exact absurd ⟨regex, hreg, ht⟩ this

/-! ## The components selected by `git-diff` -/

theorem mem_foldl_add (t : List Hash) (s : KeySet) (d : Hash) :
    d ∈ t.foldl KeySet.add s ↔ d ∈ s ∨ d ∈ t :=
  KeySet.mem_assign t s d

theorem foldl_add_nodup (t : List Hash) (s : KeySet) (h : s.Nodup) :
    (t.foldl KeySet.add s).Nodup :=
  KeySet.assign_nodup t s h

theorem Obj.mem_of_get? {V : Type} {o : Obj V} {k : Hash} {v : V}
    (h : o.get? k = some v) : (k, v) ∈ o := by
  induction o with
  | nil => simp [Obj.get?] at h
  | cons e rest ih =>
    rcases e with ⟨k1, w⟩
    by_cases hk : k1 = k
    · simp only [Obj.get?, hk, if_true, Option.some.injEq] at h
      subst hk
      subst h
      exact List.mem_cons_self _ _
    · simp only [Obj.get?, hk, if_false] at h
      exact List.mem_cons_of_mem _ (ih h)

theorem mem_newDependencies (toMd5 : String → Hash) (result : KeySet) (node : MappedComponent)
    (b : Hash) :
    b ∈ newDependencies toMd5 result node ↔
      (∃ path ∈ node.dependsOn, toMd5 path = b) ∧ b ∉ result := by
  simp [newDependencies]

theorem newDependencies_length_mono (toMd5 : String → Hash) (r1 r2 : KeySet)
    (node : MappedComponent) (h : ∀ d ∈ r1, d ∈ r2) :
    (newDependencies toMd5 r2 node).length ≤ (newDependencies toMd5 r1 node).length := by
  unfold newDependencies
  apply List.Sublist.length_le
  apply List.monotone_filter_right
  intro a ha
  have ha2 : a ∉ r2 := by simpa using ha
  have ha1 : a ∉ r1 := fun hm => ha2 (h a hm)
  simpa using ha1

theorem sum_drop_term {α : Type} (f g : α → Nat) (a : α) : ∀ (l : List α),
    (∀ e ∈ l, g e ≤ f e) → a ∈ l → g a = 0 → (l.map g).sum + f a ≤ (l.map f).sum := by
  intro l
  induction l with
  | nil => intro _ ha; exact absurd ha (List.not_mem_nil a)
  | cons e rest ih =>
    intro hle ha hzero
    simp only [List.map_cons, List.sum_cons]
    have hrest : (rest.map g).sum ≤ (rest.map f).sum :=
      List.sum_le_sum (fun i hi => hle i (List.mem_cons_of_mem _ hi))
    rcases List.mem_cons.mp ha with rfl | hmem
    · rw [hzero]
      omega
    · have := ih (fun i hi => hle i (List.mem_cons_of_mem _ hi)) hmem hzero
      have := hle e (List.mem_cons_self _ _)
      omega

theorem newDependencies_after (toMd5 : String → Hash) (result : KeySet)
    (node : MappedComponent) :
    newDependencies toMd5 ((newDependencies toMd5 result node).foldl KeySet.add result) node
      = [] := by
  apply List.eq_nil_iff_forall_not_mem.mpr
  intro b hb
  obtain ⟨hpath, hnot⟩ := (mem_newDependencies toMd5 _ node b).mp hb
  apply hnot
  rw [mem_foldl_add]
  by_cases hr : b ∈ result
  · exact Or.inl hr
  · exact Or.inr ((mem_newDependencies toMd5 result node b).mpr ⟨hpath, hr⟩)

theorem gitDiffMeasure_step (toMd5 : String → Hash) (config : Obj MappedComponent)
    (rest : List Hash) (h : Hash) (result : KeySet) (node : MappedComponent)
    (hnode : config.get? h = some node) :
    gitDiffMeasure toMd5 config (rest ++ newDependencies toMd5 result node)
        ((newDependencies toMd5 result node).foldl KeySet.add result) + 1 ≤
      gitDiffMeasure toMd5 config (rest ++ [h]) result := by
  unfold gitDiffMeasure
  have hsum := sum_drop_term
    (fun e : Hash × MappedComponent => (newDependencies toMd5 result e.2).length)
    (fun e : Hash × MappedComponent => (newDependencies toMd5
      ((newDependencies toMd5 result node).foldl KeySet.add result) e.2).length)
    (h, node) config
    (fun e _ => newDependencies_length_mono toMd5 _ _ e.2
      (fun d hd => (mem_foldl_add _ _ d).mpr (Or.inl hd)))
    (Obj.mem_of_get? hnode)
    (by simp only [newDependencies_after, List.length_nil])
  simp only [List.length_append, List.length_singleton]
  simp only at hsum
  omega

theorem gitDiffInv_step (toMd5 : String → Hash) (config : Obj MappedComponent)
    (hclosed : ∀ e ∈ config, ∀ path ∈ e.2.dependsOn, toMd5 path ∈ config.keys)
    (seeds rest : List Hash) (h : Hash) (result : KeySet) (node : MappedComponent)
    (hnode : config.get? h = some node)
    (inv : GitDiffInv toMd5 config seeds (rest ++ [h]) result) :
    GitDiffInv toMd5 config seeds (rest ++ newDependencies toMd5 result node)
      ((newDependencies toMd5 result node).foldl KeySet.add result) := by
  have hh : h ∈ result := inv.pending_mem h (by simp)
  refine ⟨?_, ?_, ?_, ?_, ?_, foldl_add_nodup _ _ inv.nodup⟩
  · intro s hs
    exact (mem_foldl_add _ _ s).mpr (Or.inl (inv.seeds_mem s hs))
  · intro d hd
    rcases (mem_foldl_add _ _ d).mp hd with hd | hd
    · exact inv.reachable d hd
    · obtain ⟨s, hs, hreach⟩ := inv.reachable h hh
      obtain ⟨hpath, _⟩ := (mem_newDependencies toMd5 result node d).mp hd
      exact ⟨s, hs, hreach.tail ⟨node, hnode, hpath⟩⟩
  · intro x hx
    rcases (mem_foldl_add _ _ x).mp hx with hx | hx
    · rcases inv.expanded x hx with hpend | hexp
      · rcases List.mem_append.mp hpend with hrest | hlast
        · exact Or.inl (List.mem_append_left _ hrest)
        · right
          simp only [List.mem_singleton] at hlast
          subst hlast
          rintro b ⟨node1, hnode1, hpath⟩
          rw [hnode] at hnode1
          cases hnode1
          rw [mem_foldl_add]
          by_cases hb : b ∈ result
          · exact Or.inl hb
          · exact Or.inr ((mem_newDependencies toMd5 result node b).mpr ⟨hpath, hb⟩)
      · right
        intro b hb
        exact (mem_foldl_add _ _ b).mpr (Or.inl (hexp b hb))
    · exact Or.inl (List.mem_append_right _ hx)
  · intro x hx
    rcases List.mem_append.mp hx with hrest | hadd
    · exact (mem_foldl_add _ _ x).mpr
        (Or.inl (inv.pending_mem x (List.mem_append_left _ hrest)))
    · exact (mem_foldl_add _ _ x).mpr (Or.inr hadd)
  · intro x hx
    rcases (mem_foldl_add _ _ x).mp hx with hx | hx
    · exact inv.keys_mem x hx
    · obtain ⟨⟨path, hpath, rfl⟩, _⟩ := (mem_newDependencies toMd5 result node x).mp hx
      exact hclosed (h, node) (Obj.mem_of_get? hnode) path hpath

theorem gitDiffInv_done (toMd5 : String → Hash) (config : Obj MappedComponent)
    (seeds : List Hash) (result : KeySet) (inv : GitDiffInv toMd5 config seeds [] result)
    (d : Hash) :
    d ∈ result ↔ ∃ s ∈ seeds, Relation.ReflTransGen (DeclaresPath toMd5 config) s d := by
  constructor
  · exact inv.reachable d
  · rintro ⟨s, hs, hreach⟩
    induction hreach with
    | refl => exact inv.seeds_mem s hs
    | tail _ hstep ih =>
      rcases inv.expanded _ ih with hpend | hexp
      · exact absurd hpend (List.not_mem_nil _)
      · exact hexp _ hstep

theorem gitDiffLoop_spec (toMd5 : String → Hash) (config : Obj MappedComponent)
    (hclosed : ∀ e ∈ config, ∀ path ∈ e.2.dependsOn, toMd5 path ∈ config.keys)
    (seeds : List Hash) : ∀ (fuel : Nat) (newHashes : List Hash) (result : KeySet),
    gitDiffMeasure toMd5 config newHashes result ≤ fuel →
    GitDiffInv toMd5 config seeds newHashes result →
    ∃ final, gitDiffLoop toMd5 config fuel newHashes result = some (.ok final) ∧
      final.Nodup ∧
      ∀ d, d ∈ final ↔ ∃ s ∈ seeds, Relation.ReflTransGen (DeclaresPath toMd5 config) s d := by
  intro fuel
  induction fuel with
  | zero =>
    intro newHashes result hm inv
    have hlen : newHashes.length = 0 := by
      unfold gitDiffMeasure at hm
      omega
    have hnil : newHashes = [] := List.length_eq_zero.mp hlen
    subst hnil
    exact ⟨result, by simp [gitDiffLoop], inv.nodup, gitDiffInv_done toMd5 config seeds result inv⟩
  | succ fuel ih =>
    intro newHashes result hm inv
    cases hlast : newHashes.getLast? with
    | none =>
      have hnil : newHashes = [] := List.getLast?_eq_none_iff.mp hlast
      subst hnil
      exact ⟨result, by simp [gitDiffLoop], inv.nodup,
        gitDiffInv_done toMd5 config seeds result inv⟩
    | some h =>
      have hsplit : newHashes.dropLast ++ [h] = newHashes :=
        List.dropLast_append_getLast? h (by rw [hlast]; exact rfl)
      have hkey : h ∈ config.keys :=
        inv.keys_mem h (inv.pending_mem h (by rw [← hsplit]; simp))
      obtain ⟨node, hnode⟩ := Obj.exists_get?_of_mem_keys hkey
      rw [← hsplit] at hm inv
      have hstep := gitDiffMeasure_step toMd5 config newHashes.dropLast h result node hnode
      have inv2 := gitDiffInv_step toMd5 config hclosed seeds newHashes.dropLast h result node
        hnode inv
      obtain ⟨final, hrun, hnodup, hmem⟩ := ih _ _ (by omega) inv2
      refine ⟨final, ?_, hnodup, hmem⟩
      rw [gitDiffLoop]
      simp only [hlast, hnode]
      exact hrun

theorem foldl_add_length_le (t : List Hash) : ∀ (s : KeySet),
    (t.foldl KeySet.add s).length ≤ s.length + t.length := by
  induction t with
  | nil => intro s; simp
  | cons k rest ih =>
    intro s
    have h1 := ih (KeySet.add s k)
    have h2 : (KeySet.add s k).length ≤ s.length + 1 := by
      unfold KeySet.add
      split_ifs <;> simp
    simp only [List.foldl_cons, List.length_cons]
    omega

theorem mappingChanged_iff (diffList : List String) (node : MappedComponent) :
    mappingChanged diffList node = true ↔
      ∃ mapping, node.mapping = some mapping ∧
        ∃ dep ∈ mapping, ∃ diff ∈ diffList, dep.data <+: diff.data := by
  unfold mappingChanged
  cases node.mapping with
  | none => simp
  | some mapping => simp [startsWith, List.isPrefixOf_iff_prefix]

theorem mem_changed_iff (diffList : List String) (config : Obj MappedComponent) (s : Hash) :
    s ∈ config.keys.filter (fun hash =>
        match config.get? hash with
        | some node => mappingChanged diffList node
        | none => false) ↔
      s ∈ config.keys ∧ MappingChanged diffList config s := by
  simp only [List.mem_filter, MappingChanged]
  constructor
  · rintro ⟨hk, ht⟩
    refine ⟨hk, ?_⟩
    cases hnode : config.get? s with
    | none => simp [hnode] at ht
    | some node =>
      simp only [hnode] at ht
      obtain ⟨mapping, hm, hrest⟩ := (mappingChanged_iff diffList node).mp ht
      exact ⟨node, mapping, rfl, hm, hrest⟩
  · rintro ⟨hk, node, mapping, hnode, hm, hrest⟩
    refine ⟨hk, ?_⟩
    simp only [hnode]
    exact (mappingChanged_iff diffList node).mpr ⟨mapping, hm, hrest⟩

/-- C25. In a configuration where the fingerprint of every declared dependency is a key,
`getGitDiff` with one or two commits returns (the turns given to its loop suffice) a list
without duplicates that holds exactly the fingerprints reachable through `dependsOn`, in zero
or more steps, from the components whose `mapping` has an entry that is a prefix of a changed
path; with no commit it returns the empty list, and with more than two it fails. -/
theorem getGitDiff_returns_dependency_closure (toMd5 : String → Hash)
    (commits diffList : List String) (config : Obj MappedComponent)
    (hclosed : ∀ e ∈ config, ∀ path ∈ e.2.dependsOn, toMd5 path ∈ config.keys) :
    (commits.length = 0 → getGitDiff toMd5 commits diffList config = some (.ok [])) ∧
    (2 < commits.length →
      getGitDiff toMd5 commits diffList config = some (.error (JsError.error
        "Invalid '--git-diff' option format! More than two arguments specified!"))) ∧
    (0 < commits.length → commits.length ≤ 2 →
      ∃ result, getGitDiff toMd5 commits diffList config = some (.ok result) ∧
        result.Nodup ∧
        ∀ d, d ∈ result ↔ ReachableFromChanged toMd5 diffList config d) := by
  refine ⟨?_, ?_, ?_⟩
  · intro h0
    simp [getGitDiff, h0]
  · intro h2
    have h0 : ¬ commits.length = 0 := by omega
    simp [getGitDiff, h0, h2, gitDiffFormatMessage]
  · intro hpos hle
    have h0 : ¬ commits.length = 0 := by omega
    have h2 : ¬ commits.length > 2 := by omega
    have inv : GitDiffInv toMd5 config
        (config.keys.filter (fun hash =>
          match config.get? hash with
          | some node => mappingChanged diffList node
          | none => false))
        ((config.keys.filter (fun hash =>
          match config.get? hash with
          | some node => mappingChanged diffList node
          | none => false)).foldl KeySet.add [])
        ((config.keys.filter (fun hash =>
          match config.get? hash with
          | some node => mappingChanged diffList node
          | none => false)).foldl KeySet.add []) := by
      refine ⟨?_, ?_, ?_, ?_, ?_, foldl_add_nodup _ _ List.nodup_nil⟩
      · intro s hs
        exact (mem_foldl_add _ _ s).mpr (Or.inr hs)
      · intro d hd
        rcases (mem_foldl_add _ _ d).mp hd with hd | hd
        · exact absurd hd (List.not_mem_nil d)
        · exact ⟨d, hd, Relation.ReflTransGen.refl⟩
      · intro h hh
        exact Or.inl hh
      · intro h hh
        exact hh
      · intro h hh
        rcases (mem_foldl_add _ _ h).mp hh with hh | hh
        · exact absurd hh (List.not_mem_nil h)
        · exact (List.mem_filter.mp hh).1
    have hmeasure : gitDiffMeasure toMd5 config
        ((config.keys.filter (fun hash =>
          match config.get? hash with
          | some node => mappingChanged diffList node
          | none => false)).foldl KeySet.add [])
        ((config.keys.filter (fun hash =>
          match config.get? hash with
          | some node => mappingChanged diffList node
          | none => false)).foldl KeySet.add []) ≤ gitDiffFuel config := by
      unfold gitDiffMeasure gitDiffFuel
      have h1 := foldl_add_length_le (config.keys.filter (fun hash =>
          match config.get? hash with
          | some node => mappingChanged diffList node
          | none => false)) []
      have h3 : (config.keys.filter (fun hash =>
          match config.get? hash with
          | some node => mappingChanged diffList node
          | none => false)).length ≤ config.length := by
        have := List.length_filter_le (fun hash =>
          match config.get? hash with
          | some node => mappingChanged diffList node
          | none => false) config.keys
        simpa [Obj.keys] using this
      have h4 : (config.map (fun e => (newDependencies toMd5
          ((config.keys.filter (fun hash =>
            match config.get? hash with
            | some node => mappingChanged diffList node
            | none => false)).foldl KeySet.add []) e.2).length)).sum ≤
          (config.map (fun e => e.2.dependsOn.length)).sum := by
        apply List.sum_le_sum
        intro e _
        unfold newDependencies
        have := List.length_filter_le (fun hash => !List.contains
          ((config.keys.filter (fun hash =>
            match config.get? hash with
            | some node => mappingChanged diffList node
            | none => false)).foldl KeySet.add []) hash) (e.2.dependsOn.map toMd5)
        simpa using this
      simp only [List.length_nil] at h1
      omega
    obtain ⟨final, hrun, hnodup, hmem⟩ :=
      gitDiffLoop_spec toMd5 config hclosed _ _ _ _ hmeasure inv
    refine ⟨final, ?_, hnodup, ?_⟩
    · simp only [getGitDiff, h0, h2, if_false]
      exact hrun
    · intro d
      rw [hmem d]
      unfold ReachableFromChanged
      constructor
      · rintro ⟨s, hs, hreach⟩
        obtain ⟨hk, hc⟩ := (mem_changed_iff diffList config s).mp hs
        exact ⟨s, hk, hc, hreach⟩
      · rintro ⟨s, hk, hc, hreach⟩
        exact ⟨s, (mem_changed_iff diffList config s).mpr ⟨hk, hc⟩, hreach⟩

/-- Witness of C25: `x` depends on `a`, `a` on `b`, `b` on `c`; the changed path
`src/a/main.tf` is under the mapping of `a` only, and the result is `a`, `b`, `c`. -/
theorem getGitDiff_returns_dependency_closure_witness :
    getGitDiff (fun path => path.drop 2) ["HEAD~1"] ["src/a/main.tf"]
      [("x", { mapping := some ["src/x"], dependsOn := ["./a"] }),
       ("a", { mapping := some ["src/a"], dependsOn := ["./b"] }),
       ("b", { dependsOn := ["./c"] }),
       ("c", { mapping := some [], dependsOn := [] })] = some (.ok ["a", "b", "c"]) ∧
    ∃ result,
      getGitDiff (fun path => path.drop 2) ["HEAD~1"] ["src/a/main.tf"]
        [("x", { mapping := some ["src/x"], dependsOn := ["./a"] }),
         ("a", { mapping := some ["src/a"], dependsOn := ["./b"] }),
         ("b", { dependsOn := ["./c"] }),
         ("c", { mapping := some [], dependsOn := [] })] = some (.ok result) ∧
      result.Nodup ∧
      ∀ d, d ∈ result ↔ ReachableFromChanged (fun path => path.drop 2) ["src/a/main.tf"]
        [("x", { mapping := some ["src/x"], dependsOn := ["./a"] }),
         ("a", { mapping := some ["src/a"], dependsOn := ["./b"] }),
         ("b", { dependsOn := ["./c"] }),
         ("c", { mapping := some [], dependsOn := [] })] d :=
  ⟨rfl, (getGitDiff_returns_dependency_closure (fun path => path.drop 2) ["HEAD~1"]
    ["src/a/main.tf"]
    [("x", { mapping := some ["src/x"], dependsOn := ["./a"] }),
     ("a", { mapping := some ["src/a"], dependsOn := ["./b"] }),
     ("b", { dependsOn := ["./c"] }),
     ("c", { mapping := some [], dependsOn := [] })] (by decide)).2.2 (by decide) (by decide)⟩

/-! ## The git-diff filter when no component has changed -/

theorem passesActiveFilters_iff_passesChecks (config : Obj ExtComponent)
    (commits : List String) (gitDiff : List Hash) (includeRegex : List RegExp)
    (includes : List String) (excludeRegex : List RegExp) (excludes : List String)
    (hash : Hash) (hsame : commits = [] ↔ gitDiff = []) :
    PassesActiveFilters config commits gitDiff includeRegex includes excludeRegex excludes hash ↔
      PassesChecks config gitDiff includeRegex includes excludeRegex excludes hash := by
  unfold PassesActiveFilters PassesChecks
  have h : commits ≠ [] ↔ gitDiff ≠ [] := not_congr hsame
  rw [h]

/-- C22 (failing input). The option `git-diff` holds one commit and the only changed file,
`docs/readme.md`, is under the mapping of no component: `getGitDiff` returns the empty list,
`getConfig` builds no check for it and returns both components, although the git-diff filter
is active (its option list is not empty) and no component passes it. -/
theorem getConfig_keeps_all_when_git_diff_selects_none :
    getGitDiff (fun path => path) ["HEAD~1"] ["docs/readme.md"]
      [("a", { mapping := some ["src/a"], dependsOn := [] }),
       ("b", { mapping := some ["src/b"], dependsOn := [] })] = some (.ok []) ∧
    getConfig "run"
      [("a", { name := "A", dependsOn := [] }), ("b", { name := "B", dependsOn := [] })]
      [] [] [] [] [] =
      .ok [("a", { name := "A", dependsOn := [] }), ("b", { name := "B", dependsOn := [] })] ∧
    ∀ hash, ¬ PassesActiveFilters
      [("a", { name := "A", dependsOn := [] }), ("b", { name := "B", dependsOn := [] })]
      ["HEAD~1"] [] [] [] [] [] hash :=
  ⟨rfl, rfl, fun hash hp => absurd (hp.1 (by decide)) (List.not_mem_nil hash)⟩

end Terrahub
